import Mathlib

/-!
Verification development for the `teamy-robocopy` repository.

The streaming robocopy-log parser (`src/robocopy/robocopy_log_parser.rs`),
the header grammar (`src/robocopy/robocopy_header.rs`,
`robocopy_start_datetime.rs`, `robocopy_file_pattern.rs`,
`robocopy_options.rs`) and the log-entry type
(`src/robocopy/robocopy_log_entry.rs`) are shallowly embedded here.

Modelling conventions:
* Rust `String`/`&str` values are `List Char` (`Str`); lengths and offsets
  are measured in characters.  The source measures offsets in UTF-8 bytes;
  the two agree on ASCII data, which is all the robocopy grammar uses.
* Whitespace predicates (`char::is_whitespace`, `split_whitespace`,
  `str::to_lowercase`) are modelled on their ASCII behaviour.
* The `chrono` local timezone is an explicit parameter `Tz`: a function
  classifying a naive wall-clock time as unique, ambiguous (DST fold) or
  non-existent (DST gap).  A `DateTime<Local>` value produced by the code
  is represented by its wall-clock time, which is faithful because the
  code only ever stores the unique instant or the earlier candidate.
* Fallible Rust code (`eyre::Result`) becomes `Except String`.
-/

deriving instance DecidableEq for Except

namespace TeamyRobocopy

/-- Strings of the embedded program: sequences of Unicode scalar values. -/
abbrev Str := List Char

/-- Coerce a Lean string literal into the embedded string type. -/
def strL (s : String) : Str := s.data

/-- ASCII fragment of Rust `char::is_whitespace`. -/
def isWsChar (c : Char) : Bool :=
  c == ' ' || c == '\t' || c == '\n' || c == '\r'

/-- Rust `str::trim_start` (ASCII whitespace model). -/
def trimStart (s : Str) : Str := s.dropWhile isWsChar

/-- Rust `str::trim_end` (ASCII whitespace model). -/
def trimEnd (s : Str) : Str := (s.reverse.dropWhile isWsChar).reverse

/-- Rust `str::trim` (ASCII whitespace model). -/
def trim (s : Str) : Str := trimEnd (trimStart s)

/-- Rust `char::to_ascii_lowercase`. -/
def lowerChar (c : Char) : Char :=
  if 'A' ≤ c && c ≤ 'Z' then Char.ofNat (c.toNat + 32) else c

/-- Rust `str::to_ascii_lowercase` (also models `str::to_lowercase` on ASCII). -/
def lowerStr (s : Str) : Str := s.map lowerChar

/-- Rust `str::eq_ignore_ascii_case`. -/
def eqIgnoreAsciiCase (a b : Str) : Bool := lowerStr a == lowerStr b

/-- Index of the first occurrence of character `c`, as Rust `str::find(char)`. -/
def findChar (c : Char) : Str → Option Nat
  | [] => none
  | d :: s => if d == c then some 0 else (findChar c s).map (· + 1)

/-- A line terminator of the entries phase: `\n` or `\r`. -/
def isTermChar (c : Char) : Bool := c == '\n' || c == '\r'

/-- First position holding either terminator, computed as the source does:
`match (buf.find('\n'), buf.find('\r'))` taking the minimum. -/
def findTerminator (s : Str) : Option Nat :=
  match findChar '\n' s, findChar '\r' s with
  | some nl, some cr => some (min nl cr)
  | some nl, none => some nl
  | none, some cr => some cr
  | none, none => none

/-- Rust `str::split(['\r', '\n'])`: split on either terminator, keeping
empty pieces. -/
def splitTerms : Str → List Str
  | [] => [[]]
  | c :: s =>
    if isTermChar c then [] :: splitTerms s
    else
      match splitTerms s with
      | [] => [[c]]
      | p :: ps => (c :: p) :: ps

/-- Rust `Vec::join("\n")` on string pieces. -/
def joinNL : List Str → Str
  | [] => []
  | [p] => p
  | p :: ps => p ++ '\n' :: joinNL ps

/-- Rust `str::split('\t')`, keeping empty pieces. -/
def splitTab : Str → List Str
  | [] => [[]]
  | c :: s =>
    if c == '\t' then [] :: splitTab s
    else
      match splitTab s with
      | [] => [[c]]
      | p :: ps => (c :: p) :: ps

/-- Length of `dropWhile` never exceeds the original length. -/
theorem length_dropWhile_le (p : Char → Bool) (l : Str) :
    (l.dropWhile p).length ≤ l.length := by
  induction l with
  | nil => simp
  | cons c t ih =>
    by_cases h : p c <;> simp [List.dropWhile_cons, h] <;> omega

/-- Tokenizer worker for `split_whitespace`: `acc` is the reversed
current token. -/
def splitWhitespaceAux : Str → Str → List Str
  | acc, [] => if acc = [] then [] else [acc.reverse]
  | acc, c :: s =>
    if isWsChar c then
      if acc = [] then splitWhitespaceAux [] s
      else acc.reverse :: splitWhitespaceAux [] s
    else splitWhitespaceAux (c :: acc) s

/-- Rust `str::split_whitespace` (ASCII whitespace model): maximal
whitespace-free tokens, empties dropped. -/
def splitWhitespace (s : Str) : List Str := splitWhitespaceAux [] s

/-- Index of the first occurrence of `needle` as a contiguous substring,
as Rust `str::find(&str)`. -/
def findSubstr (needle : Str) : Str → Option Nat
  | [] => if needle = [] then some 0 else none
  | c :: s =>
    if needle.isPrefixOf (c :: s) then some 0
    else (findSubstr needle s).map (· + 1)

/-- Rust `str::contains(&str)`. -/
def containsSubstr (hay needle : Str) : Bool := (findSubstr needle hay).isSome

/-- Rust `str::lines`: split on `\n`, drop a final empty piece, strip one
trailing `\r` from each line. -/
def rustLinesRaw : Str → List Str
  | [] => [[]]
  | c :: s =>
    if c == '\n' then [] :: rustLinesRaw s
    else
      match rustLinesRaw s with
      | [] => [[c]]
      | p :: ps => (c :: p) :: ps

/-- Strip one trailing carriage return, as `str::lines` does per line. -/
def stripTrailingCR (s : Str) : Str :=
  match s.reverse with
  | '\r' :: rest => rest.reverse
  | _ => s

/-- Rust `str::lines`. -/
def rustLines (s : Str) : List Str :=
  match (rustLinesRaw s).reverse with
  | [] :: rest => (rest.reverse).map stripTrailingCR
  | other => (other.reverse).map stripTrailingCR

/-- Decimal digit test, Rust `char::is_ascii_digit` (the code points of
`0` through `9`). -/
def isDigitChar (c : Char) : Bool := 48 ≤ c.toNat && c.toNat ≤ 57

/-- Value of a decimal digit character. -/
def digitVal (c : Char) : Nat := c.toNat - 48

/-- Value of a digit string, most significant first. -/
def digitsToNat (s : Str) : Nat := s.foldl (fun acc c => acc * 10 + digitVal c) 0

/-- Parse a non-empty all-digit string to a natural number. -/
def parseDigitsNat (s : Str) : Option Nat :=
  if s ≠ [] ∧ s.all isDigitChar then some (digitsToNat s) else none

/-- Rust `str::parse::<u32>`: optional leading `+`, then digits; overflow
rejected. -/
def u32ParseStr (s : Str) : Option Nat :=
  let body := match s with
    | '+' :: rest => rest
    | other => other
  match parseDigitsNat body with
  | some v => if v ≤ 4294967295 then some v else none
  | none => none

/-- Rust `str::parse::<i32>`: optional sign, then digits; overflow rejected. -/
def i32ParseStr (s : Str) : Option Int :=
  match s with
  | '-' :: rest =>
    match parseDigitsNat rest with
    | some v => if v ≤ 2147483648 then some (-(v : Int)) else none
    | none => none
  | '+' :: rest =>
    match parseDigitsNat rest with
    | some v => if v ≤ 2147483647 then some (v : Int) else none
    | none => none
  | other =>
    match parseDigitsNat other with
    | some v => if v ≤ 2147483647 then some (v : Int) else none
    | none => none

/-! ### Naive date-times and the local timezone (`chrono` embedding) -/

/-- A naive wall-clock date-time, as assembled by the source from parsed
fields (`chrono::NaiveDateTime` components). -/
structure NaiveDT where
  year : Int
  month : Nat
  day : Nat
  hour : Nat
  minute : Nat
  second : Nat
deriving DecidableEq, Repr

/-- How the local timezone classifies a naive wall-clock time
(`chrono::LocalResult`): unique, ambiguous (DST fold), or non-existent
(DST gap). -/
inductive LocalKind where
  | single
  | ambiguous
  | nonexistent
deriving DecidableEq, Repr

/-- The local timezone, an external input of the program: a classifier of
naive wall-clock times.  A stored `DateTime<Local>` is represented by its
wall-clock time (the code keeps only the unique instant or the earlier
candidate of a fold, so the wall clock determines the stored value). -/
abbrev Tz := NaiveDT → LocalKind

/-- Proleptic Gregorian leap-year rule. -/
def isLeapYear (y : Int) : Bool :=
  y % 4 == 0 && (y % 100 != 0 || y % 400 == 0)

/-- Days in a Gregorian month. -/
def daysInMonth (y : Int) (m : Nat) : Nat :=
  if m = 2 then (if isLeapYear y then 29 else 28)
  else if m = 4 ∨ m = 6 ∨ m = 9 ∨ m = 11 then 30
  else 31

/-- Calendar validity of a naive date-time, as enforced by
`chrono::NaiveDate`/`with_ymd_and_hms` (the year window approximates
chrono's representable range). -/
def NaiveDT.validB (w : NaiveDT) : Bool :=
  (-262144 ≤ w.year && w.year ≤ 262143) &&
  (1 ≤ w.month && w.month ≤ 12) &&
  (1 ≤ w.day && w.day ≤ daysInMonth w.year w.month) &&
  (w.hour < 24 && w.minute < 60 && w.second < 60)

/-- Full month names, used by the `%B` format item. -/
def monthsLong : List (Nat × Str) :=
  [(1, strL "January"), (2, strL "February"), (3, strL "March"),
   (4, strL "April"), (5, strL "May"), (6, strL "June"),
   (7, strL "July"), (8, strL "August"), (9, strL "September"),
   (10, strL "October"), (11, strL "November"), (12, strL "December")]

/-- Abbreviated month names, also accepted by chrono's `%B` parsing. -/
def monthsShort : List (Nat × Str) :=
  monthsLong.map (fun p => (p.1, p.2.take 3))

/-- Case-insensitive match of a fixed name at the front of the input,
returning the remainder. -/
def matchNameCI (name s : Str) : Option Str :=
  if (lowerStr name).isPrefixOf (lowerStr s) then some (s.drop name.length)
  else none

/-- Try a list of named alternatives in order. -/
def matchAltCI : List (Nat × Str) → Str → Option (Nat × Str)
  | [], _ => none
  | (v, nm) :: rest, s =>
    match matchNameCI nm s with
    | some r => some (v, r)
    | none => matchAltCI rest s

/-- Parse a month name: chrono tries the full name, then the abbreviation. -/
def matchMonth (s : Str) : Option (Nat × Str) :=
  match matchAltCI monthsLong s with
  | some r => some r
  | none => matchAltCI monthsShort s

/-- Read at most `k` leading decimal digits (chrono's bounded numeric
scan), returning their value and the remainder; fails on zero digits. -/
def parseNumUpTo (k : Nat) (s : Str) : Option (Nat × Str) :=
  let ds := (s.take k).takeWhile isDigitChar
  if ds = [] then none
  else some (digitsToNat ds, s.drop ds.length)

/-- Naive parse of the fixed layout `%B %d, %Y %I:%M:%S %p`
(`ROBOCOPY_START_DATETIME_FMT`), modelling
`chrono::NaiveDateTime::parse_from_str`: literal spaces in the format skip
whitespace, numeric items read at most their field width in digits, the
AM/PM marker is case-insensitive, the whole input must be consumed, and
the assembled date-time must be calendar-valid.  Leap seconds and negative
years are outside the model. -/
def naiveParseStartFmt (s : Str) : Option NaiveDT :=
  match matchMonth s with
  | none => none
  | some (mon, s1) =>
    match parseNumUpTo 2 (trimStart s1) with
    | none => none
    | some (day, s3) =>
      match s3 with
      | [] => none
      | c3 :: s4 =>
        if c3 = ',' then
          match parseNumUpTo 4 (trimStart s4) with
          | none => none
          | some (year, s6) =>
            match parseNumUpTo 2 (trimStart s6) with
            | none => none
            | some (h12, s8) =>
              match s8 with
              | [] => none
              | c8 :: s9 =>
                if c8 = ':' then
                  match parseNumUpTo 2 s9 with
                  | none => none
                  | some (minute, s10) =>
                    match s10 with
                    | [] => none
                    | c10 :: s11 =>
                      if c10 = ':' then
                        match parseNumUpTo 2 s11 with
                        | none => none
                        | some (second, s12) =>
                          let s13 := trimStart s12
                          let marker := s13.take 2
                          let s14 := s13.drop 2
                          if s14 = [] ∧ 1 ≤ h12 ∧ h12 ≤ 12 ∧ minute ≤ 59 ∧
                              second ≤ 59 then
                            let hour :=
                              if eqIgnoreAsciiCase marker (strL "AM") then
                                if h12 = 12 then 0 else h12
                              else if eqIgnoreAsciiCase marker (strL "PM") then
                                if h12 = 12 then 12 else h12 + 12
                              else 99
                            if hour = 99 then none
                            else
                              let w : NaiveDT := ⟨(year : Int), mon, day, hour,
                                minute, second⟩
                              if w.validB then some w else none
                          else none
                      else none
                else none
        else none

/-- `RobocopyStartDateTime::from_str`: parse the naive layout from the
trimmed input, then resolve in the local timezone, picking the earlier
candidate of an ambiguous fold and failing on a non-existent time. -/
def startDateTimeFromStr (tz : Tz) (s : Str) : Except String NaiveDT :=
  match naiveParseStartFmt (trim s) with
  | none => .error "input does not match the robocopy start datetime format"
  | some w =>
    match tz w with
    | .single => .ok w
    | .ambiguous => .ok w
    | .nonexistent => .error "Invalid local datetime (non-existent due to DST)"

/-- Digit character of a value below ten. -/
def digitChar (n : Nat) : Char := Char.ofNat (48 + n)

/-- Two-digit zero-padded decimal rendering (`%d`, `%I`, `%M`, `%S`). -/
def pad2 (n : Nat) : Str := [digitChar (n / 10), digitChar (n % 10)]

/-- Four-digit zero-padded decimal rendering (`%Y` for the years the
parser can produce). -/
def pad4 (n : Nat) : Str :=
  [digitChar (n / 1000 % 10), digitChar (n / 100 % 10),
   digitChar (n / 10 % 10), digitChar (n % 10)]

/-- Rendering of `%Y` including the sign for negative years. -/
def pad4Int (y : Int) : Str :=
  if y < 0 then '-' :: pad4 (-y).toNat else pad4 y.toNat

/-- Full name of a month number. -/
def monthName (m : Nat) : Str :=
  match monthsLong.lookup m with
  | some nm => nm
  | none => []

/-- `Display for RobocopyStartDateTime`: format the wall-clock time with
`%B %d, %Y %I:%M:%S %p`. -/
def displayStartDT (w : NaiveDT) : Str :=
  monthName w.month ++ ' ' :: pad2 w.day ++ ',' :: ' ' :: pad4Int w.year ++
    ' ' :: pad2 (if w.hour % 12 = 0 then 12 else w.hour % 12) ++
    ':' :: pad2 w.minute ++ ':' :: pad2 w.second ++
    ' ' :: (if w.hour < 12 then strL "AM" else strL "PM")

/-! ### The header record (`robocopy_header.rs`) -/

/-- `RobocopyHeader`: the five header fields.  Paths, the file pattern and
the option string are verbatim text (`PathBuf`, `RobocopyFilePattern`,
`RobocopyOptions` all preserve their input exactly). -/
structure RobocopyHeader where
  started : NaiveDT
  source : Str
  dest : Str
  files : Str
  options : Str
deriving DecidableEq, Repr

/-- Accumulator of `RobocopyHeader::from_str`: the five optional fields. -/
structure HeaderAcc where
  started : Option NaiveDT
  source : Option Str
  dest : Option Str
  files : Option Str
  options : Option Str
deriving DecidableEq, Repr

/-- The all-empty accumulator. -/
def emptyAcc : HeaderAcc := ⟨none, none, none, none, none⟩

/-- One line of `RobocopyHeader::from_str`: skip blank, all-dash and
banner lines; split the rest at the first colon; trim key and value; fill
the first occurrence of each known key, ignoring later duplicates and
unknown keys. -/
def processHeaderLine (tz : Tz) (acc : HeaderAcc) (rawLine : Str) :
    Except String HeaderAcc :=
  let line := trimStart rawLine
  if line = [] ∨ line.all (fun c => c == '-') ∨
      (strL "ROBOCOPY").isPrefixOf line then .ok acc
  else
    match findChar ':' line with
    | none => .ok acc
    | some idx =>
      let key := trim (line.take idx)
      let value := trim ((line.drop idx).drop 1)
      if lowerStr key = strL "started" then
        match acc.started with
        | some _ => .ok acc
        | none =>
          match startDateTimeFromStr tz value with
          | .error m => .error m
          | .ok w => .ok ⟨some w, acc.source, acc.dest, acc.files, acc.options⟩
      else if lowerStr key = strL "source" then
        match acc.source with
        | some _ => .ok acc
        | none => .ok ⟨acc.started, some value, acc.dest, acc.files, acc.options⟩
      else if lowerStr key = strL "dest" then
        match acc.dest with
        | some _ => .ok acc
        | none => .ok ⟨acc.started, acc.source, some value, acc.files, acc.options⟩
      else if lowerStr key = strL "files" then
        match acc.files with
        | some _ => .ok acc
        | none => .ok ⟨acc.started, acc.source, acc.dest, some value, acc.options⟩
      else if lowerStr key = strL "options" then
        match acc.options with
        | some _ => .ok acc
        | none =>
          .ok ⟨acc.started, acc.source, acc.dest, acc.files, some (trim value)⟩
      else .ok acc

/-- Fold `processHeaderLine` over the lines of the block. -/
def headerFold (tz : Tz) (acc : HeaderAcc) : List Str → Except String HeaderAcc
  | [] => .ok acc
  | l :: ls =>
    match processHeaderLine tz acc l with
    | .error m => .error m
    | .ok acc' => headerFold tz acc' ls

/-- Final step of `RobocopyHeader::from_str`: require all five fields,
reporting the first missing one. -/
def headerFinalize (acc : HeaderAcc) : Except String RobocopyHeader :=
  match acc.started with
  | none => .error "Missing Started field"
  | some st =>
    match acc.source with
    | none => .error "Missing Source field"
    | some so =>
      match acc.dest with
      | none => .error "Missing Dest field"
      | some de =>
        match acc.files with
        | none => .error "Missing Files field"
        | some fi =>
          match acc.options with
          | none => .error "Missing Options field"
          | some op => .ok ⟨st, so, de, fi, op⟩

/-- `RobocopyHeader::from_str`: iterate the lines, then require all five
fields. -/
def headerFromStr (tz : Tz) (s : Str) : Except String RobocopyHeader :=
  match headerFold tz emptyAcc (rustLines s) with
  | .error m => .error m
  | .ok acc => headerFinalize acc

/-- `Display for RobocopyHeader`: the fixed banner plus the five fields. -/
def displayHeader (h : RobocopyHeader) : Str :=
  strL "-------------------------------------------------------------------------------\n   ROBOCOPY     ::     Robust File Copy for Windows                              \n-------------------------------------------------------------------------------\n\n  Started : " ++
    displayStartDT h.started ++
    strL "\n   Source : " ++ h.source ++
    strL "\n     Dest : " ++ h.dest ++
    strL "\n\n    Files : " ++ h.files ++
    strL "\n\t    \n  Options : " ++ h.options ++
    strL " \n\n------------------------------------------------------------------------------"

/-! ### Log entries and entry-phase line parsers (`robocopy_log_parser.rs`) -/

/-- `RobocopyLogEntry`: an access-denied error or a new-file progress
event.  Sizes (`uom::Information` in `usize` bytes) are naturals. -/
inductive RobocopyLogEntry where
  | accessDenied (whenAt : NaiveDT) (path : Str)
  | newFile (size : Nat) (path : Str) (percentages : List Nat)
deriving DecidableEq, Repr

/-- `RobocopyParseAdvance`: result of one `advance` call. -/
inductive RobocopyParseAdvance where
  | needMoreData
  | header (h : RobocopyHeader)
  | logEntry (e : RobocopyLogEntry)
deriving DecidableEq, Repr

/-- The in-progress New File entry tracked by the parser. -/
structure PendingNewFile where
  size : Nat
  path : Str
  percentages : List Nat
deriving DecidableEq, Repr

/-- The two-valued parser phase. -/
inductive InternalState where
  | readingHeader
  | readingEntries
deriving DecidableEq, Repr

/-- `RobocopyLogParser`: buffer, phase, header-scan bookkeeping, pending
file. -/
structure ParserState where
  buf : Str
  state : InternalState
  headerDashCount : Nat
  headerScanPos : Nat
  pendingNewFile : Option PendingNewFile
deriving DecidableEq, Repr

/-- `RobocopyLogParser::new`. -/
def initState : ParserState := ⟨[], .readingHeader, 0, 0, none⟩

/-- `RobocopyLogParser::accept`: append the chunk to the buffer. -/
def accept (st : ParserState) (chunk : Str) : ParserState :=
  ⟨st.buf ++ chunk, st.state, st.headerDashCount, st.headerScanPos,
    st.pendingNewFile⟩

/-- Rust `str::strip_suffix(char)`. -/
def stripSuffixChar (c : Char) (s : Str) : Option Str :=
  match s.reverse with
  | d :: rest => if d == c then some rest.reverse else none
  | [] => none

/-- `parse_percentage_line`: a trimmed `<digits>%` with value at most 100
(the `u16` parse bound precedes the range check). -/
def parsePercentageLine (s : Str) : Option Nat :=
  let t := trim s
  match stripSuffixChar '%' t with
  | none => none
  | some stripped =>
    let num := trim stripped
    if num.all isDigitChar then
      match parseDigitsNat num with
      | some v => if v ≤ 65535 ∧ v ≤ 100 then some v else none
      | none => none
    else none

/-- `is_new_file_line`: case-sensitive substring test for `New File`. -/
def isNewFileLine (line : Str) : Bool :=
  containsSubstr line (strL "New File")

/-- Rust `char::is_ascii_alphabetic`. -/
def isAsciiAlphabetic (c : Char) : Bool :=
  ('a' ≤ c && c ≤ 'z') || ('A' ≤ c && c ≤ 'Z')

/-- Exponent suffix of the Rust `f64` grammar: empty, or `e`/`E` with an
optional sign and digits, consuming the whole remainder. -/
def parseF64Exp (mant : ℚ) (r : Str) : Option ℚ :=
  match r with
  | [] => some mant
  | c :: r2 =>
    if c == 'e' || c == 'E' then
      let signed : Bool × Str :=
        match r2 with
        | '+' :: r3 => (false, r3)
        | '-' :: r3 => (true, r3)
        | other => (false, other)
      let ds := signed.2
      if ds ≠ [] ∧ ds.all isDigitChar then
        let v := digitsToNat ds
        some (if signed.1 then mant / (10 : ℚ) ^ v else mant * (10 : ℚ) ^ v)
      else none
    else none

/-- Rust `str::parse::<f64>` modelled with exact rationals: an optional
sign, a decimal mantissa (`123`, `123.`, `123.45` or `.45`), and an
optional exponent.  IEEE-754 rounding is not modelled; the special
spellings `inf`/`NaN` never reach this parser in the program because
their final letter is always consumed as a unit suffix. -/
def parseF64 (s : Str) : Option ℚ :=
  let signed : Bool × Str :=
    match s with
    | '+' :: r => (false, r)
    | '-' :: r => (true, r)
    | other => (false, other)
  let body := signed.2
  let intDigits := body.takeWhile isDigitChar
  let r1 := body.dropWhile isDigitChar
  let mant? : Option (ℚ × Str) :=
    match r1 with
    | '.' :: r2 =>
      let fracDigits := r2.takeWhile isDigitChar
      let r3 := r2.dropWhile isDigitChar
      if intDigits = [] ∧ fracDigits = [] then none
      else
        some ((digitsToNat intDigits : ℚ) +
          (digitsToNat fracDigits : ℚ) / (10 : ℚ) ^ fracDigits.length, r3)
    | _ =>
      if intDigits = [] then none
      else some ((digitsToNat intDigits : ℚ), r1)
  match mant? with
  | none => none
  | some (m, r) =>
    match parseF64Exp m r with
    | none => none
    | some v => some (if signed.1 then -v else v)

/-- The `as usize` cast of the source: truncate toward zero, saturating
at the `usize` bounds. -/
def qToUsizeSat (q : ℚ) : Nat :=
  if q < 0 then 0 else min q.floor.toNat (2 ^ 64 - 1)

/-- `parse_size_to_bytes`: lowercase the trimmed token, strip a trailing
alphabetic unit, parse the magnitude as `f64`, scale by the base-1024
factor, and cast to `usize`. -/
def parseSizeToBytes (s : Str) : Option Nat :=
  let t := lowerStr (trim s)
  match t.getLast? with
  | none => none
  | some unitChar =>
    let numStr := if isAsciiAlphabetic unitChar then t.dropLast else t
    let unit : Option Char :=
      if isAsciiAlphabetic unitChar then some unitChar else none
    match parseF64 (trim numStr) with
    | none => none
    | some number =>
      let factor? : Option ℚ :=
        match unit with
        | none => some 1
        | some 'k' => some 1024
        | some 'm' => some (1024 * 1024)
        | some 'g' => some (1024 * 1024 * 1024)
        | some 't' => some (1024 * 1024 * 1024 * 1024)
        | some _ => none
      match factor? with
      | none => none
      | some factor => some (qToUsizeSat (number * factor))

/-- `parse_new_file_line`: tab-split, trim, drop empties; first field must
be `New File` (ASCII case-insensitive), at least 3 fields; last field is
the path, second-to-last the size. -/
def parseNewFileLine (line : Str) : Option (Nat × Str) :=
  let segs := ((splitTab line).map trim).filter (fun s => s ≠ [])
  match segs with
  | [] => none
  | s0 :: _ =>
    if ¬ eqIgnoreAsciiCase s0 (strL "New File") then none
    else if segs.length < 3 then none
    else
      let pathStr := segs.getLastD []
      let sizeSeg := (segs.drop (segs.length - 2)).headD []
      match parseSizeToBytes sizeSeg with
      | none => none
      | some bytes => some (bytes, pathStr)

/-- `parse_access_denied_first_line`: recognise
`YYYY/MM/DD HH:MM:SS ERROR <code> (0x..) Copying Directory <path>`.
Structural mismatches yield `ok none` (noise); numeric parse failures and
invalid or non-unique local timestamps are propagated errors
(`.single()` rejects both DST folds and gaps). -/
def parseAccessDeniedFirstLine (tz : Tz) (line : Str) :
    Except String (Option RobocopyLogEntry) :=
  let parts := splitWhitespace line
  if parts.length < 7 then .ok none
  else
    let p0 := parts.getD 0 []
    if p0.length = 10 ∧ p0.get? 4 = some '/' ∧ p0.get? 7 = some '/' then
      let p1 := parts.getD 1 []
      if p1.length = 8 ∧ p1.get? 2 = some ':' ∧ p1.get? 5 = some ':' ∧
          eqIgnoreAsciiCase (parts.getD 2 []) (strL "ERROR") ∧
          (strL "(0x").isPrefixOf (parts.getD 4 []) then
        if eqIgnoreAsciiCase (parts.getD 5 []) (strL "Copying") ∧
            eqIgnoreAsciiCase (parts.getD 6 []) (strL "Directory") then
          match findSubstr (strL "Directory") line with
          | none => .ok none
          | some dirPos =>
            let pathStr := trim (line.drop (dirPos + 9))
            match i32ParseStr (p0.take 4) with
            | none => .error "invalid year in access denied line"
            | some year =>
              match u32ParseStr ((p0.drop 5).take 2) with
              | none => .error "invalid month in access denied line"
              | some month =>
                match u32ParseStr ((p0.drop 8).take 2) with
                | none => .error "invalid day in access denied line"
                | some day =>
                  match u32ParseStr (p1.take 2) with
                  | none => .error "invalid hour in access denied line"
                  | some hour =>
                    match u32ParseStr ((p1.drop 3).take 2) with
                    | none => .error "invalid minute in access denied line"
                    | some minute =>
                      match u32ParseStr ((p1.drop 6).take 2) with
                      | none => .error "invalid second in access denied line"
                      | some second =>
                        let w : NaiveDT :=
                          ⟨year, month, day, hour, minute, second⟩
                        if w.validB then
                          match tz w with
                          | .single => .ok (some (.accessDenied w pathStr))
                          | _ =>
                            .error "Invalid timestamp in access denied line"
                        else .error "Invalid timestamp in access denied line"
        else .ok none
      else .ok none
    else .ok none

/-! ### Length bookkeeping for the entry-loop termination argument -/

/-- Total length of a list of strings. -/
def sumLen (ls : List Str) : Nat := (ls.map List.length).sum

/-- `splitTerms` never returns the empty list. -/
theorem splitTerms_ne_nil (l : Str) : splitTerms l ≠ [] := by
  cases l with
  | nil => simp [splitTerms]
  | cons c s =>
    simp only [splitTerms]
    split
    · simp
    · cases splitTerms s <;> simp

/-- Splitting accounts for every character: piece lengths plus piece count
equal the input length plus one. -/
theorem splitTerms_sumLen (l : Str) :
    sumLen (splitTerms l) + (splitTerms l).length = l.length + 1 := by
  induction l with
  | nil => simp [splitTerms, sumLen]
  | cons c s ih =>
    simp only [sumLen] at ih ⊢
    simp only [splitTerms]
    split
    · simp only [List.map_cons, List.sum_cons, List.length_cons,
        List.length_nil, List.length_cons]
      omega
    · cases hs : splitTerms s with
      | nil => exact absurd hs (splitTerms_ne_nil s)
      | cons p ps =>
        rw [hs] at ih
        simp only [List.map_cons, List.sum_cons, List.length_cons] at ih ⊢
        omega

/-- Filtering only shrinks the combined length-plus-count measure. -/
theorem sumLen_filter_le (p : Str → Bool) (ls : List Str) :
    sumLen (ls.filter p) + (ls.filter p).length ≤ sumLen ls + ls.length := by
  induction ls with
  | nil => simp [sumLen]
  | cons x xs ih =>
    by_cases h : p x <;>
      simp only [List.filter_cons, h, if_pos, if_neg, Bool.false_eq_true,
        not_false_eq_true, sumLen, List.map_cons, List.sum_cons,
        List.length_cons] at * <;> omega

/-- Length of `joinNL`. -/
theorem joinNL_length (ls : List Str) (h : ls ≠ []) :
    (joinNL ls).length + 1 = sumLen ls + ls.length := by
  induction ls with
  | nil => simp at h
  | cons x xs ih =>
    cases xs with
    | nil => simp [joinNL, sumLen]
    | cons y ys =>
      have := ih (by simp)
      simp only [joinNL, sumLen, List.map_cons, List.sum_cons,
        List.length_cons, List.length_append] at *
      omega

/-- A find of a character yields a position inside the string. -/
theorem findChar_lt_length {c : Char} {s : Str} {i : Nat}
    (h : findChar c s = some i) : i < s.length := by
  induction s generalizing i with
  | nil => simp [findChar] at h
  | cons d t ih =>
    simp only [findChar] at h
    split at h
    · cases h
      simp only [List.length_cons]
      omega
    · cases hf : findChar c t with
      | none => simp [hf] at h
      | some j =>
        rw [hf] at h
        simp only [Option.map, Option.some.injEq] at h
        have := ih hf
        simp only [List.length_cons]
        omega

/-- The terminator search yields a position inside the string. -/
theorem findTerminator_lt_length {s : Str} {e : Nat}
    (h : findTerminator s = some e) : e < s.length := by
  unfold findTerminator at h
  cases h1 : findChar '\n' s with
  | none =>
    cases h2 : findChar '\r' s with
    | none => rw [h1, h2] at h; cases h
    | some cr => rw [h1, h2] at h; cases h; exact findChar_lt_length h2
  | some nl =>
    cases h2 : findChar '\r' s with
    | none => rw [h1, h2] at h; cases h; exact findChar_lt_length h1
    | some cr =>
      rw [h1, h2] at h
      cases h
      exact lt_of_le_of_lt (min_le_left _ _) (findChar_lt_length h1)

/-- `findChar` returns the position of the character it found. -/
theorem findChar_get {c : Char} {s : Str} {i : Nat}
    (h : findChar c s = some i) : s.get? i = some c := by
  induction s generalizing i with
  | nil => simp [findChar] at h
  | cons d t ih =>
    simp only [findChar] at h
    split at h
    · cases h
      simp_all
    · cases hf : findChar c t with
      | none => simp [hf] at h
      | some j =>
        rw [hf] at h
        simp only [Option.map, Option.some.injEq] at h
        subst h
        simpa using ih hf

/-- The terminator search finds a terminator character. -/
theorem findTerminator_get {s : Str} {e : Nat}
    (h : findTerminator s = some e) :
    ∃ c, s.get? e = some c ∧ isTermChar c := by
  unfold findTerminator at h
  cases h1 : findChar '\n' s with
  | none =>
    cases h2 : findChar '\r' s with
    | none => rw [h1, h2] at h; cases h
    | some cr =>
      rw [h1, h2] at h; cases h
      exact ⟨'\r', findChar_get h2, by decide⟩
  | some nl =>
    cases h2 : findChar '\r' s with
    | none =>
      rw [h1, h2] at h; cases h
      exact ⟨'\n', findChar_get h1, by decide⟩
    | some cr =>
      rw [h1, h2] at h; cases h
      rcases le_total nl cr with hle | hle
      · exact ⟨'\n', by rw [min_eq_left hle]; exact findChar_get h1, by decide⟩
      · exact ⟨'\r', by rw [min_eq_right hle]; exact findChar_get h2, by decide⟩

/-- The number of split pieces is the terminator count plus one. -/
theorem splitTerms_length_count (l : Str) :
    (splitTerms l).length = l.countP isTermChar + 1 := by
  induction l with
  | nil => simp [splitTerms]
  | cons c s ih =>
    simp only [splitTerms, List.countP_cons]
    split
    · simp_all
    · cases hs : splitTerms s with
      | nil => exact absurd hs (splitTerms_ne_nil s)
      | cons p ps => simp_all

/-- Filtering only shrinks the total piece length. -/
theorem sumLen_filter_le2 (p : Str → Bool) (ls : List Str) :
    sumLen (ls.filter p) ≤ sumLen ls := by
  induction ls with
  | nil => simp [sumLen]
  | cons x xs ih =>
    by_cases h : p x <;>
      simp only [List.filter_cons, h, if_pos, if_neg, Bool.false_eq_true,
        not_false_eq_true, sumLen, List.map_cons, List.sum_cons] at * <;>
      omega

/-- Filtered pieces are non-blank, hence non-empty. -/
theorem mem_filter_trim_ne_nil {first : Str} {others ls : List Str}
    (h : ls.filter (fun p => trim p ≠ []) = first :: others) :
    first ≠ [] := by
  intro hnil
  have : first ∈ ls.filter (fun p => trim p ≠ []) := by rw [h]; exact .head _
  have := List.of_mem_filter this
  subst hnil
  simp [trim, trimStart, trimEnd] at this

/-- Bound for the re-inserted remainder pieces: re-joining all but the
first piece of a consumed segment, plus a newline, is strictly shorter
than the original buffer. -/
theorem reinsert_length_lt {buf : Str} {e : Nat} {first : Str}
    {others : List Str}
    (he : findTerminator buf = some e)
    (hp : (splitTerms (buf.take (e + 1))).filter (fun p => trim p ≠ []) =
      first :: others) :
    (joinNL others ++ '\n' :: buf.drop (e + 1)).length < buf.length := by
  have helt := findTerminator_lt_length he
  have hseg : (buf.take (e + 1)).length = e + 1 := by
    rw [List.length_take]
    omega
  have hsplit := splitTerms_sumLen (buf.take (e + 1))
  have hcnt := splitTerms_length_count (buf.take (e + 1))
  have hterm : 1 ≤ (buf.take (e + 1)).countP isTermChar := by
    obtain ⟨c, hc, ht⟩ := findTerminator_get he
    have hc' : (buf.take (e + 1)).get? e = some c := by
      rw [List.get?_take (by omega)]
      exact hc
    have : c ∈ buf.take (e + 1) := List.get?_mem hc'
    have := List.countP_pos.mpr ⟨c, this, ht⟩
    omega
  have hfil := sumLen_filter_le (fun p => trim p ≠ [])
    (splitTerms (buf.take (e + 1)))
  have hfil2 := sumLen_filter_le2 (fun p => trim p ≠ [])
    (splitTerms (buf.take (e + 1)))
  rw [hp] at hfil hfil2
  have hfirst : first ≠ [] := mem_filter_trim_ne_nil hp
  have hfl : 1 ≤ first.length := by
    cases first with
    | nil => simp at hfirst
    | cons a b => simp
  have hdrop : (buf.drop (e + 1)).length = buf.length - (e + 1) := by
    simp [List.length_drop]
  rw [hseg] at hsplit
  by_cases ho : others = []
  · subst ho
    simp only [sumLen, List.map_cons, List.map_nil, List.sum_cons,
      List.sum_nil, List.length_cons, List.length_nil] at hfil hfil2 hsplit
    simp only [joinNL, List.nil_append, List.length_cons, hdrop]
    omega
  · have hj := joinNL_length others ho
    simp only [sumLen, List.map_cons, List.sum_cons,
      List.length_cons] at hfil hfil2 hsplit hj
    simp only [List.length_append, List.length_cons, hdrop]
    omega

/-- The buffer after consuming a segment and re-inserting the unused
pieces is strictly shorter than before. -/
theorem buf1_length_lt {buf : Str} {e : Nat} {first : Str}
    {others : List Str}
    (he : findTerminator buf = some e)
    (hp : (splitTerms (buf.take (e + 1))).filter (fun p => trim p ≠ []) =
      first :: others) :
    (if others = [] then buf.drop (e + 1)
      else joinNL others ++ '\n' :: buf.drop (e + 1)).length < buf.length := by
  split
  · have := findTerminator_lt_length he
    simp only [List.length_drop]
    omega
  · exact reinsert_length_lt he hp

/-! ### The entry-phase loop (`try_parse_entry`) -/

/-- First actionable piece of a consumed segment while a pending file is
open: a percentage update, a superseding New-File line, or nothing
(all pieces are noise). -/
inductive PieceAct where
  | pct (v : Nat)
  | newFileLine (t : Str)
deriving DecidableEq, Repr

/-- The `for piece in …` loop body over the pieces of one segment. -/
def scanPieces : List Str → Option PieceAct
  | [] => none
  | p :: ps =>
    let t := trim p
    match parsePercentageLine t with
    | some v => some (.pct v)
    | none => if isNewFileLine t then some (.newFileLine t) else scanPieces ps

/-- Second-line handling after an access-denied candidate: without a
buffered terminator, push the trimmed candidate back and wait; a
confirmation or blank second line is consumed; any other second line is
re-inserted verbatim, and the error is emitted regardless. -/
def accessSecondLine (entry : RobocopyLogEntry) (t : Str) (buf : Str) :
    RobocopyParseAdvance × Option PendingNewFile × Str :=
  match findTerminator buf with
  | none => (.needMoreData, none, t ++ '\n' :: buf)
  | some e2 =>
    let second := buf.take (e2 + 1)
    let rest2 := buf.drop (e2 + 1)
    if eqIgnoreAsciiCase (trim second) (strL "Access is denied.") then
      (.logEntry entry, none, rest2)
    else if trim second = [] then
      (.logEntry entry, none, rest2)
    else (.logEntry entry, none, second ++ rest2)

/-- The loop of `try_parse_entry`: one iteration consumes the segment up
to the first terminator; with a pending file it scans the pieces for a
percentage or a superseding New-File line; without one it classifies the
first piece as access-denied candidate, New-File line, or noise. -/
def entryLoop (tz : Tz) (pending : Option PendingNewFile) (buf : Str) :
    Except String (RobocopyParseAdvance × Option PendingNewFile × Str) :=
  match pending with
  | some pend =>
    match hf : findTerminator buf with
    | none => .ok (.needMoreData, some pend, buf)
    | some e =>
      let rest := buf.drop (e + 1)
      let pieces :=
        (splitTerms (buf.take (e + 1))).filter (fun p => trim p ≠ [])
      match scanPieces pieces with
      | some (.pct v) =>
        let ps := pend.percentages ++ [v]
        if v = 100 then
          .ok (.logEntry (.newFile pend.size pend.path ps), none, rest)
        else
          .ok (.logEntry (.newFile pend.size pend.path ps),
            some ⟨pend.size, pend.path, ps⟩, rest)
      | some (.newFileLine t) =>
        .ok (.logEntry (.newFile pend.size pend.path pend.percentages),
          none, t ++ '\n' :: rest)
      | none => entryLoop tz (some pend) rest
  | none =>
    match hf : findTerminator buf with
    | none => .ok (.needMoreData, none, buf)
    | some e =>
      let rest := buf.drop (e + 1)
      match hp : (splitTerms (buf.take (e + 1))).filter
          (fun p => trim p ≠ []) with
      | [] => entryLoop tz none rest
      | first :: others =>
        let buf1 := if others = [] then rest else joinNL others ++ '\n' :: rest
        let t := trim first
        if t = [] then entryLoop tz none buf1
        else
          match parseAccessDeniedFirstLine tz t with
          | .error m => .error m
          | .ok (some entry) => .ok (accessSecondLine entry t buf1)
          | .ok none =>
            if isNewFileLine t then
              match parseNewFileLine t with
              | some sp =>
                .ok (.logEntry (.newFile sp.1 sp.2 []),
                  some ⟨sp.1, sp.2, []⟩, buf1)
              | none =>
                .error ("Failed to parse New File line: '" ++ String.mk t ++ "'")
            else entryLoop tz none buf1
termination_by buf.length
decreasing_by
  all_goals
    first
    | exact buf1_length_lt hf hp
    | (have hlt := findTerminator_lt_length hf
       simp only [List.length_drop]
       omega)

/-! ### The header-phase loop (`try_parse_header`) -/

/-- Rust `str::trim_end_matches(['\r', '\n'])`. -/
def trimEndRN (s : Str) : Str :=
  (s.reverse.dropWhile (fun c => c == '\r' || c == '\n')).reverse

/-- Result of one header-phase attempt: the advance outcome plus the
updated dash count, scan offset, phase and buffer. -/
structure HeaderStep where
  adv : RobocopyParseAdvance
  dashCount : Nat
  scanPos : Nat
  phase : InternalState
  buf : Str
deriving DecidableEq, Repr

/-- The loop of `try_parse_header`: scan newline-terminated lines from the
recorded offset, counting dash-only lines; the third dash line closes the
header block, which is drained and parsed; otherwise record the new scan
offset and wait for more data. -/
def headerLoop (tz : Tz) (dashCount scanPos : Nat) (buf : Str) :
    Except String HeaderStep :=
  match hn : findChar '\n' (buf.drop scanPos) with
  | none => .ok ⟨.needMoreData, dashCount, scanPos, .readingHeader, buf⟩
  | some rel =>
    let lineEnd := scanPos + rel + 1
    let line := (buf.drop scanPos).take (rel + 1)
    let trimmed := trim (trimEndRN line)
    if trimmed ≠ [] ∧ trimmed.all (fun c => c == '-') then
      if dashCount + 1 = 3 then
        match headerFromStr tz (buf.take lineEnd) with
        | .error m => .error ("Failed to parse robocopy header: " ++ m)
        | .ok h =>
          .ok ⟨.header h, dashCount + 1, 0, .readingEntries, buf.drop lineEnd⟩
      else headerLoop tz (dashCount + 1) lineEnd buf
    else headerLoop tz dashCount lineEnd buf
termination_by buf.length - scanPos
decreasing_by
  · have := findChar_lt_length hn
    simp only [List.length_drop] at this
    omega
  · have := findChar_lt_length hn
    simp only [List.length_drop] at this
    omega

/-- `RobocopyLogParser::advance`: dispatch on the phase. -/
def advance (tz : Tz) (st : ParserState) :
    Except String (RobocopyParseAdvance × ParserState) :=
  match st.state with
  | .readingHeader =>
    match headerLoop tz st.headerDashCount st.headerScanPos st.buf with
    | .error m => .error m
    | .ok hs =>
      .ok (hs.adv, ⟨hs.buf, hs.phase, hs.dashCount, hs.scanPos,
        st.pendingNewFile⟩)
  | .readingEntries =>
    match entryLoop tz st.pendingNewFile st.buf with
    | .error m => .error m
    | .ok (a, p, b) =>
      .ok (a, ⟨b, .readingEntries, st.headerDashCount, st.headerScanPos, p⟩)

/-! ### Buffer-decomposition lemmas for the terminator scan -/

/-- A terminator-free string. -/
def NoTerm (l : Str) : Prop := ∀ c ∈ l, isTermChar c = false

instance (l : Str) : Decidable (NoTerm l) := by
  unfold NoTerm
  infer_instance

/-- `findChar` misses exactly when the character is absent. -/
theorem findChar_eq_none {c : Char} {s : Str} :
    findChar c s = none ↔ ∀ d ∈ s, d ≠ c := by
  induction s with
  | nil => simp [findChar]
  | cons d t ih =>
    by_cases hdc : d = c
    · subst hdc
      simp [findChar]
    · have hb : (d == c) = false := by simpa using hdc
      simp only [findChar, hb, Bool.false_eq_true, if_neg, not_false_eq_true,
        List.mem_cons]
      cases hf : findChar c t with
      | none =>
        simp only [Option.map_none', true_iff]
        intro e he
        rcases he with he | he
        · subst he; exact hdc
        · exact ih.mp hf e he
      | some j =>
        simp only [Option.map_some']
        constructor
        · intro h; cases h
        · intro h
          have := ih.mpr fun e he => h e (Or.inr he)
          rw [this] at hf
          cases hf

/-- A hit in the left part of an append is a hit in the whole. -/
theorem findChar_append_some {c : Char} {a : Str} {i : Nat} (b : Str)
    (h : findChar c a = some i) : findChar c (a ++ b) = some i := by
  induction a generalizing i with
  | nil => simp [findChar] at h
  | cons d t ih =>
    simp only [findChar, List.cons_append] at h ⊢
    by_cases hd : (d == c) = true
    · rw [if_pos hd] at h ⊢
      exact h
    · rw [if_neg hd] at h ⊢
      cases hf : findChar c t with
      | none => rw [hf] at h; cases h
      | some j =>
        rw [hf] at h
        rw [show t.append b = t ++ b from rfl, ih hf]
        exact h

/-- A miss in the left part shifts any hit in the right part. -/
theorem findChar_append_none {c : Char} {a : Str} (b : Str)
    (h : findChar c a = none) :
    findChar c (a ++ b) = (findChar c b).map (· + a.length) := by
  induction a with
  | nil =>
    simp only [List.nil_append, List.length_nil]
    cases hb : findChar c b with
    | none => simp
    | some j => simp
  | cons d t ih =>
    simp only [findChar, List.cons_append] at h ⊢
    by_cases hd : (d == c) = true
    · rw [if_pos hd] at h; cases h
    · rw [if_neg hd] at h ⊢
      cases hf : findChar c t with
      | none =>
        rw [show t.append b = t ++ b from rfl, ih hf]
        cases hb : findChar c b with
        | none => simp
        | some j =>
          simp only [Option.map_some', Option.some.injEq, List.length_cons]
          omega
      | some j => rw [hf] at h; cases h

/-- A terminator hit in the left part of an append survives appending. -/
theorem findTerminator_append_some {a : Str} {i : Nat} (b : Str)
    (h : findTerminator a = some i) : findTerminator (a ++ b) = some i := by
  unfold findTerminator at h ⊢
  cases h1 : findChar '\n' a with
  | none =>
    cases h2 : findChar '\r' a with
    | none => rw [h1, h2] at h; cases h
    | some cr =>
      rw [h1, h2] at h
      cases h
      rw [findChar_append_some b h2, findChar_append_none b h1]
      have hcr := findChar_lt_length h2
      cases hb : findChar '\n' b with
      | none => simp
      | some nb =>
        simp only [Option.map_some', Option.some.injEq]
        omega
  | some nl =>
    cases h2 : findChar '\r' a with
    | none =>
      rw [h1, h2] at h
      cases h
      rw [findChar_append_some b h1, findChar_append_none b h2]
      have hnl := findChar_lt_length h1
      cases hb : findChar '\r' b with
      | none => simp
      | some rb =>
        simp only [Option.map_some', Option.some.injEq]
        omega
    | some cr =>
      rw [h1, h2] at h
      cases h
      rw [findChar_append_some b h1, findChar_append_some b h2]

/-- With no terminator on the left, terminator positions shift by the
left length. -/
theorem findTerminator_append_none {a : Str} (b : Str)
    (h : findTerminator a = none) :
    findTerminator (a ++ b) = (findTerminator b).map (· + a.length) := by
  unfold findTerminator at h ⊢
  cases h1 : findChar '\n' a with
  | none =>
    cases h2 : findChar '\r' a with
    | none =>
      rw [findChar_append_none b h1, findChar_append_none b h2]
      cases hb1 : findChar '\n' b with
      | none => cases hb2 : findChar '\r' b <;> simp
      | some nb =>
        cases hb2 : findChar '\r' b with
        | none => simp
        | some rb =>
          simp only [Option.map_some', Option.some.injEq]
          omega
    | some cr => rw [h1, h2] at h; cases h
  | some nl =>
    cases h2 : findChar '\r' a with
    | none => rw [h1, h2] at h; cases h
    | some cr => rw [h1, h2] at h; cases h

/-- Terminator-free strings are exactly those the scan misses. -/
theorem noTerm_iff_findTerminator_none {l : Str} :
    NoTerm l ↔ findTerminator l = none := by
  unfold findTerminator NoTerm
  constructor
  · intro h
    have h1 : findChar '\n' l = none :=
      findChar_eq_none.mpr fun d hd => by
        intro he
        subst he
        have := h _ hd
        simp [isTermChar] at this
    have h2 : findChar '\r' l = none :=
      findChar_eq_none.mpr fun d hd => by
        intro he
        subst he
        have := h _ hd
        simp [isTermChar] at this
    rw [h1, h2]
  · intro h c hc
    cases h1 : findChar '\n' l with
    | some nl =>
      rw [h1] at h
      cases h2 : findChar '\r' l <;> rw [h2] at h <;> cases h
    | none =>
      cases h2 : findChar '\r' l with
      | some cr => rw [h1, h2] at h; cases h
      | none =>
        have a1 := findChar_eq_none.mp h1 c hc
        have a2 := findChar_eq_none.mp h2 c hc
        simp only [isTermChar, Bool.or_eq_false_iff, beq_eq_false_iff_ne,
          ne_eq]
        exact ⟨a1, a2⟩

/-- A terminator heads its own cons cell. -/
theorem findTerminator_cons_term {t : Char} (r : Str)
    (ht : isTermChar t) : findTerminator (t :: r) = some 0 := by
  have : t = '\n' ∨ t = '\r' := by
    simp only [isTermChar, Bool.or_eq_true, beq_iff_eq] at ht
    exact ht
  unfold findTerminator
  rcases this with h | h <;> subst h
  · have : findChar '\n' ('\n' :: r) = some 0 := by simp [findChar]
    rw [this]
    cases findChar '\r' ('\n' :: r) <;> simp
  · have : findChar '\r' ('\r' :: r) = some 0 := by simp [findChar]
    rw [this]
    cases findChar '\n' ('\r' :: r) <;> simp

/-- Position of the first terminator after a terminator-free prefix. -/
theorem findTerminator_decomp_build {l : Str} {t : Char} (r : Str)
    (hl : NoTerm l) (ht : isTermChar t) :
    findTerminator (l ++ t :: r) = some l.length := by
  rw [findTerminator_append_none (t :: r) (noTerm_iff_findTerminator_none.mp hl),
    findTerminator_cons_term r ht]
  simp

/-- Take through the first terminator of a decomposed buffer. -/
theorem take_term_append {l : Str} {t : Char} (r : Str) :
    (l ++ t :: r).take (l.length + 1) = l ++ [t] := by
  rw [List.take_append_eq_append_take, List.take_of_length_le (by omega)]
  simp

/-- Drop through the first terminator of a decomposed buffer. -/
theorem drop_term_append {l : Str} {t : Char} (r : Str) :
    (l ++ t :: r).drop (l.length + 1) = r := by
  rw [List.drop_append_eq_append_drop, List.drop_of_length_le (by omega)]
  simp

/-- Splitting a terminator-free string yields one piece. -/
theorem splitTerms_noTerm {l : Str} (hl : NoTerm l) : splitTerms l = [l] := by
  induction l with
  | nil => simp [splitTerms]
  | cons c s ih =>
    have hc : isTermChar c = false := hl c (.head _)
    have hs : NoTerm s := fun d hd => hl d (.tail _ hd)
    simp only [splitTerms, hc, Bool.false_eq_true, if_neg, ite_false,
      not_false_eq_true]
    rw [ih hs]

/-- Splitting a terminator-free string followed by one terminator. -/
theorem splitTerms_noTerm_term {l : Str} {t : Char}
    (hl : NoTerm l) (ht : isTermChar t) : splitTerms (l ++ [t]) = [l, []] := by
  induction l with
  | nil => simp [splitTerms, ht]
  | cons c s ih =>
    have hc : isTermChar c = false := hl c (.head _)
    have hs : NoTerm s := fun d hd => hl d (.tail _ hd)
    simp only [List.cons_append, splitTerms, hc, Bool.false_eq_true, if_neg,
      ite_false, not_false_eq_true]
    rw [show s.append [t] = s ++ [t] from rfl, ih hs]

/-! ### Step lemmas for the entry loop -/

/-- Trimming the empty string. -/
theorem trim_nil : trim [] = [] := rfl

/-- Without a buffered terminator, the entries phase waits. -/
theorem entryLoop_noTerm (tz : Tz) (p : Option PendingNewFile) {buf : Str}
    (h : findTerminator buf = none) :
    entryLoop tz p buf = .ok (.needMoreData, p, buf) := by
  cases p <;> unfold entryLoop <;> rw [h]

/-- The filtered pieces of one consumed segment. -/
theorem pieces_decomp {l : Str} {t : Char} (r : Str) (hl : NoTerm l)
    (ht : isTermChar t) :
    (splitTerms ((l ++ t :: r).take (l.length + 1))).filter
      (fun p => trim p ≠ []) = if trim l = [] then [] else [l] := by
  rw [take_term_append, splitTerms_noTerm_term hl ht]
  by_cases h : trim l = [] <;> simp [h, trim_nil]

/-- A blank segment is dropped without any other effect (no pending
file). -/
theorem entryLoop_none_blank (tz : Tz) {l : Str} {t : Char} (r : Str)
    (hl : NoTerm l) (ht : isTermChar t) (h : trim l = []) :
    entryLoop tz none (l ++ t :: r) = entryLoop tz none r := by
  conv_lhs => unfold entryLoop
  rw [findTerminator_decomp_build r hl ht]
  dsimp only
  rw [pieces_decomp r hl ht, if_pos h, drop_term_append]

/-- An access-denied candidate whose timestamp fields fail is a fatal
error (no pending file). -/
theorem entryLoop_none_access_err (tz : Tz) {l : Str} {t : Char} (r : Str)
    {m : String}
    (hl : NoTerm l) (ht : isTermChar t) (h : trim l ≠ [])
    (hpa : parseAccessDeniedFirstLine tz (trim l) = .error m) :
    entryLoop tz none (l ++ t :: r) = .error m := by
  conv_lhs => unfold entryLoop
  rw [findTerminator_decomp_build r hl ht]
  dsimp only
  rw [pieces_decomp r hl ht, if_neg h, drop_term_append]
  dsimp only
  rw [if_neg h, hpa]

/-- A recognised access-denied candidate hands over to the second-line
check with the remaining buffer (no pending file). -/
theorem entryLoop_none_access (tz : Tz) {l : Str} {t : Char} (r : Str)
    {entry : RobocopyLogEntry}
    (hl : NoTerm l) (ht : isTermChar t) (h : trim l ≠ [])
    (hpa : parseAccessDeniedFirstLine tz (trim l) = .ok (some entry)) :
    entryLoop tz none (l ++ t :: r) =
      .ok (accessSecondLine entry (trim l) r) := by
  conv_lhs => unfold entryLoop
  rw [findTerminator_decomp_build r hl ht]
  dsimp only
  rw [pieces_decomp r hl ht, if_neg h, drop_term_append]
  dsimp only
  rw [if_neg h, hpa]
  simp

/-- A well-formed New-File line establishes the pending file and emits
the initial empty-percentages event (no pending file). -/
theorem entryLoop_none_newFile (tz : Tz) {l : Str} {t : Char} (r : Str)
    {sp : Nat × Str}
    (hl : NoTerm l) (ht : isTermChar t) (h : trim l ≠ [])
    (hpa : parseAccessDeniedFirstLine tz (trim l) = .ok none)
    (hnf : isNewFileLine (trim l) = true)
    (hpn : parseNewFileLine (trim l) = some sp) :
    entryLoop tz none (l ++ t :: r) =
      .ok (.logEntry (.newFile sp.1 sp.2 []), some ⟨sp.1, sp.2, []⟩, r) := by
  conv_lhs => unfold entryLoop
  rw [findTerminator_decomp_build r hl ht]
  dsimp only
  rw [pieces_decomp r hl ht, if_neg h, drop_term_append]
  dsimp only
  rw [if_neg h, hpa]
  simp [hnf, hpn]

/-- A line containing `New File` that fails New-File parsing is a fatal
error (no pending file). -/
theorem entryLoop_none_newFile_err (tz : Tz) {l : Str} {t : Char} (r : Str)
    (hl : NoTerm l) (ht : isTermChar t) (h : trim l ≠ [])
    (hpa : parseAccessDeniedFirstLine tz (trim l) = .ok none)
    (hnf : isNewFileLine (trim l) = true)
    (hpn : parseNewFileLine (trim l) = none) :
    entryLoop tz none (l ++ t :: r) =
      .error ("Failed to parse New File line: '" ++ String.mk (trim l) ++ "'") := by
  conv_lhs => unfold entryLoop
  rw [findTerminator_decomp_build r hl ht]
  dsimp only
  rw [pieces_decomp r hl ht, if_neg h, drop_term_append]
  dsimp only
  rw [if_neg h, hpa]
  simp [hnf, hpn]

/-- A noise segment is dropped and the loop continues (no pending
file). -/
theorem entryLoop_none_noise (tz : Tz) {l : Str} {t : Char} (r : Str)
    (hl : NoTerm l) (ht : isTermChar t) (h : trim l ≠ [])
    (hpa : parseAccessDeniedFirstLine tz (trim l) = .ok none)
    (hnf : isNewFileLine (trim l) = false) :
    entryLoop tz none (l ++ t :: r) = entryLoop tz none r := by
  conv_lhs => unfold entryLoop
  rw [findTerminator_decomp_build r hl ht]
  dsimp only
  rw [pieces_decomp r hl ht, if_neg h, drop_term_append]
  dsimp only
  rw [if_neg h, hpa]
  simp [hnf]

/-- The empty string never parses as a percentage. -/
theorem parsePercentageLine_nil : parsePercentageLine [] = none := rfl

/-- The empty string is not a New-File line. -/
theorem isNewFileLine_nil : isNewFileLine [] = false := rfl

/-- With a pending file, a segment holding neither a percentage nor a
New-File line is dropped and the loop continues. -/
theorem entryLoop_pending_noise (tz : Tz) (pend : PendingNewFile)
    {l : Str} {t : Char} (r : Str)
    (hl : NoTerm l) (ht : isTermChar t)
    (hpv : parsePercentageLine (trim l) = none)
    (hnf : isNewFileLine (trim l) = false) :
    entryLoop tz (some pend) (l ++ t :: r) = entryLoop tz (some pend) r := by
  conv_lhs => unfold entryLoop
  rw [findTerminator_decomp_build r hl ht]
  dsimp only
  rw [pieces_decomp r hl ht, drop_term_append]
  by_cases h : trim l = []
  · rw [if_pos h]
    rfl
  · rw [if_neg h]
    dsimp only [scanPieces]
    rw [hpv]
    simp [hnf]

/-- With a pending file, a percentage segment appends to the history:
100 finalizes the file, any other value keeps it pending. -/
theorem entryLoop_pending_pct (tz : Tz) (pend : PendingNewFile)
    {l : Str} {t : Char} (r : Str) {v : Nat}
    (hl : NoTerm l) (ht : isTermChar t) (h : trim l ≠ [])
    (hpv : parsePercentageLine (trim l) = some v) :
    entryLoop tz (some pend) (l ++ t :: r) =
      if v = 100 then
        .ok (.logEntry (.newFile pend.size pend.path
          (pend.percentages ++ [v])), none, r)
      else
        .ok (.logEntry (.newFile pend.size pend.path
          (pend.percentages ++ [v])),
          some ⟨pend.size, pend.path, pend.percentages ++ [v]⟩, r) := by
  conv_lhs => unfold entryLoop
  rw [findTerminator_decomp_build r hl ht]
  dsimp only
  rw [pieces_decomp r hl ht, if_neg h, drop_term_append]
  dsimp only [scanPieces]
  rw [hpv]

/-- With a pending file, a superseding New-File segment finalizes the
pending file as accumulated and re-inserts the trimmed line. -/
theorem entryLoop_pending_supersede (tz : Tz) (pend : PendingNewFile)
    {l : Str} {t : Char} (r : Str)
    (hl : NoTerm l) (ht : isTermChar t) (h : trim l ≠ [])
    (hpv : parsePercentageLine (trim l) = none)
    (hnf : isNewFileLine (trim l) = true) :
    entryLoop tz (some pend) (l ++ t :: r) =
      .ok (.logEntry (.newFile pend.size pend.path pend.percentages),
        none, trim l ++ '\n' :: r) := by
  conv_lhs => unfold entryLoop
  rw [findTerminator_decomp_build r hl ht]
  dsimp only
  rw [pieces_decomp r hl ht, if_neg h, drop_term_append]
  dsimp only [scanPieces]
  rw [hpv]
  simp [hnf]

/-- A timezone without folds or gaps (used to instantiate theorems at
concrete inputs). -/
def tzAllSingle : Tz := fun _ => .single

/-- Every buffer with a terminator splits as a terminator-free prefix, the
first terminator, and the remainder. -/
theorem findTerminator_decomp {buf : Str} {e : Nat}
    (h : findTerminator buf = some e) :
    ∃ l t r, buf = l ++ t :: r ∧ l.length = e ∧ NoTerm l ∧ isTermChar t := by
  induction buf generalizing e with
  | nil => cases h
  | cons c s ih =>
    by_cases hc : isTermChar c
    · rw [findTerminator_cons_term s hc] at h
      cases h
      exact ⟨[], c, s, rfl, rfl, fun x hx => absurd hx (List.not_mem_nil x), hc⟩
    · have hone : NoTerm [c] := by
        intro x hx
        rw [List.mem_singleton] at hx
        subst hx
        simpa using hc
      have hstep : findTerminator (c :: s) = (findTerminator s).map (· + 1) := by
        have := findTerminator_append_none (a := [c]) s
          (noTerm_iff_findTerminator_none.mp hone)
        simpa using this
      rw [hstep] at h
      cases hf : findTerminator s with
      | none => rw [hf] at h; cases h
      | some e' =>
        rw [hf] at h
        simp only [Option.map_some', Option.some.injEq] at h
        obtain ⟨l, t, r, hb, hlen, hnt, htc⟩ := ih hf
        refine ⟨c :: l, t, r, by rw [hb]; simp, by simp [hlen, h], ?_, htc⟩
        intro x hx
        rw [List.mem_cons] at hx
        rcases hx with hx | hx
        · subst hx; simpa using hc
        · exact hnt x hx

/-! ### Claim C9: the header phase only recognises `\n` terminators -/

/-- Claim C9: in the `ReadingHeader` phase only `\n` terminates a line:
with no `\n` buffered, `advance` returns `NeedMoreData` and leaves the
state unchanged, regardless of any `\r`-terminated dash lines; the
entries phase, by contrast, does consume a bare-`\r` dash line. -/
theorem c9_header_newline_only (tz : Tz) (st : ParserState)
    (hphase : st.state = .readingHeader)
    (hnl : ∀ c ∈ st.buf, c ≠ '\n') :
    advance tz st = .ok (.needMoreData, st) ∧
    entryLoop tz none ['-', '-', '-', '\r'] = .ok (.needMoreData, none, []) := by
  constructor
  · obtain ⟨buf, state, dc, sp, pend⟩ := st
    simp only at hnl
    cases hphase
    have hfc : findChar '\n' (buf.drop sp) = none :=
      findChar_eq_none.mpr fun d hd => hnl d (List.mem_of_mem_drop hd)
    unfold advance
    dsimp only
    unfold headerLoop
    rw [hfc]
  · rw [show (['-', '-', '-', '\r'] : Str) = ['-', '-', '-'] ++ '\r' :: []
      from rfl,
      entryLoop_none_noise tz (l := ['-', '-', '-']) (t := '\r') []
        (by decide) (by decide) (by decide) rfl (by decide),
      entryLoop_noTerm tz none (by decide)]

/-- Witness for C9 at a concrete state: three `\r`-terminated dash lines
never complete a header. -/
theorem c9_header_newline_only_witness :
    ((⟨['-', '-', '\r', '-', '-', '\r', '-', '-', '\r'], .readingHeader,
      0, 0, none⟩ : ParserState).state = .readingHeader ∧
      ∀ c ∈ (⟨['-', '-', '\r', '-', '-', '\r', '-', '-', '\r'],
        .readingHeader, 0, 0, none⟩ : ParserState).buf, c ≠ '\n') ∧
    advance tzAllSingle ⟨['-', '-', '\r', '-', '-', '\r', '-', '-', '\r'],
      .readingHeader, 0, 0, none⟩ =
      .ok (.needMoreData, ⟨['-', '-', '\r', '-', '-', '\r', '-', '-', '\r'],
        .readingHeader, 0, 0, none⟩) :=
  ⟨⟨rfl, by decide⟩,
    (c9_header_newline_only tzAllSingle _ rfl (by decide)).1⟩

/-! ### Claim C3: buffer preservation on `NeedMoreData` -/

/-- Counterexample to claim C3 as stated: in the entries phase an
`advance` call that returns `NeedMoreData` can remove a noise segment,
so the buffer is not left unchanged. -/
theorem c3_counterexample :
    advance tzAllSingle ⟨['x', '\n', 'y'], .readingEntries, 3, 0, none⟩ =
      .ok (.needMoreData, ⟨['y'], .readingEntries, 3, 0, none⟩) ∧
    (['y'] : Str) ≠ ['x', '\n', 'y'] := by
  constructor
  · have h1 : entryLoop tzAllSingle none ['x', '\n', 'y'] =
        .ok (.needMoreData, none, ['y']) := by
      rw [show (['x', '\n', 'y'] : Str) = ['x'] ++ '\n' :: ['y'] from rfl,
        entryLoop_none_noise tzAllSingle (l := ['x']) (t := '\n') ['y']
          (by decide) (by decide) (by decide) (by decide) (by decide),
        entryLoop_noTerm tzAllSingle none (by decide)]
    unfold advance
    dsimp only
    rw [h1]
  · decide

/-! ### Claim C4: noise handling and failure modes (entries phase) -/

/-- Counterexample to claim C4 as stated: a line that does not match the
claimed New-File shape (its tab-separated field list is `["a New File"]`,
shorter than 3 and with a first field different from `New File`) still
makes `advance` fail, because the code gates the fatal path on the raw
substring `New File`. -/
theorem c4_counterexample :
    advance tzAllSingle ⟨['a', ' ', 'N', 'e', 'w', ' ', 'F', 'i', 'l', 'e',
      '\n'], .readingEntries, 3, 0, none⟩ =
      .error ("Failed to parse New File line: '" ++
        String.mk ['a', ' ', 'N', 'e', 'w', ' ', 'F', 'i', 'l', 'e'] ++ "'") ∧
    (((splitTab ['a', ' ', 'N', 'e', 'w', ' ', 'F', 'i', 'l', 'e']).map
      trim).filter (fun s => s ≠ [])).length = 1 := by
  constructor
  · have h1 : entryLoop tzAllSingle none
        ['a', ' ', 'N', 'e', 'w', ' ', 'F', 'i', 'l', 'e', '\n'] =
        .error ("Failed to parse New File line: '" ++
          String.mk ['a', ' ', 'N', 'e', 'w', ' ', 'F', 'i', 'l', 'e'] ++
          "'") := by
      rw [show (['a', ' ', 'N', 'e', 'w', ' ', 'F', 'i', 'l', 'e', '\n'] :
          Str) =
          ['a', ' ', 'N', 'e', 'w', ' ', 'F', 'i', 'l', 'e'] ++ '\n' :: []
          from rfl,
        entryLoop_none_newFile_err tzAllSingle
          (l := ['a', ' ', 'N', 'e', 'w', ' ', 'F', 'i', 'l', 'e'])
          (t := '\n') [] (by decide) (by decide) (by decide) (by decide)
          (by decide) (by decide)]
      decide
    unfold advance
    dsimp only
    rw [h1]
  · decide

/-! ### Claim C2: monotonic progress of New-File events -/

/-- Recognised percentages are at most 100. -/
theorem parsePercentageLine_le_100 {s : Str} {v : Nat}
    (h : parsePercentageLine s = some v) : v ≤ 100 := by
  unfold parsePercentageLine at h
  dsimp only at h
  cases hs : stripSuffixChar '%' (trim s) with
  | none => rw [hs] at h; cases h
  | some stripped =>
    rw [hs] at h
    dsimp only at h
    split at h
    · cases hd : parseDigitsNat (trim stripped) with
      | none => rw [hd] at h; cases h
      | some u =>
        rw [hd] at h
        dsimp only at h
        split at h
        · cases h; omega
        · cases h
    · cases h

/-- A successful access-denied parse always produces an access-denied
entry. -/
theorem parseAccessDenied_shape {tz : Tz} {line : Str}
    {entry : RobocopyLogEntry}
    (h : parseAccessDeniedFirstLine tz line = .ok (some entry)) :
    ∃ w pa, entry = .accessDenied w pa := by
  unfold parseAccessDeniedFirstLine at h
  dsimp only at h
  repeat' split at h
  all_goals try cases h
  all_goals exact ⟨_, _, rfl⟩

/-- The second-line check emits nothing but the given entry (or waits). -/
theorem accessSecondLine_fst (entry : RobocopyLogEntry) (t buf : Str) :
    (accessSecondLine entry t buf).1 = .needMoreData ∨
    (accessSecondLine entry t buf).1 = .logEntry entry := by
  cases hft : findTerminator buf with
  | none =>
    unfold accessSecondLine
    rw [hft]
    left; rfl
  | some e2 =>
    unfold accessSecondLine
    rw [hft]
    dsimp only
    split
    · right; rfl
    · split
      · right; rfl
      · right; rfl

/-- The header loop only ever reports `NeedMoreData` (leaving the buffer
alone) or a parsed header (switching to the entries phase). -/
theorem headerLoop_cases (tz : Tz) :
    ∀ n (c sp : Nat) (buf : Str) (hs : HeaderStep),
    buf.length - sp ≤ n →
    headerLoop tz c sp buf = .ok hs →
    (hs.adv = .needMoreData ∧ hs.buf = buf ∧ hs.phase = .readingHeader) ∨
    (∃ hh, hs.adv = .header hh ∧ hs.phase = .readingEntries) := by
  intro n
  induction n with
  | zero =>
    intro c sp buf hs hb h
    have hd : buf.drop sp = [] := List.drop_eq_nil_of_le (by omega)
    unfold headerLoop at h
    rw [hd] at h
    cases h
    left; exact ⟨rfl, rfl, rfl⟩
  | succ n ih =>
    intro c sp buf hs hb h
    cases hn : findChar '\n' (buf.drop sp) with
    | none =>
      unfold headerLoop at h
      rw [hn] at h
      cases h
      left; exact ⟨rfl, rfl, rfl⟩
    | some rel =>
      unfold headerLoop at h
      rw [hn] at h
      dsimp only at h
      have hrel := findChar_lt_length hn
      simp only [List.length_drop] at hrel
      split at h
      · split at h
        · split at h
          · cases h
          · cases h
            right; exact ⟨_, rfl, rfl⟩
        · exact ih _ _ _ _ (by omega) h
      · exact ih _ _ _ _ (by omega) h

/-- Characterization of every New-File emission of the entry loop: it is
the establishment of a fresh pending file with empty history, a progress
step appending exactly one value (100 clearing the pending state, other
values keeping it), or the finalization of a superseded file as
accumulated; size and path always come from the pending record. -/
theorem entryLoop_newFile_cases (tz : Tz) :
    ∀ (n : Nat) (p : Option PendingNewFile) (buf : Str), buf.length ≤ n →
    ∀ {sz : Nat} {pth : Str} {hist : List Nat} {p' : Option PendingNewFile}
      {buf' : Str},
    entryLoop tz p buf = .ok (.logEntry (.newFile sz pth hist), p', buf') →
    (p = none ∧ hist = [] ∧ p' = some ⟨sz, pth, []⟩) ∨
    (∃ pend v, p = some pend ∧ pend.size = sz ∧ pend.path = pth ∧
      hist = pend.percentages ++ [v] ∧ v ≤ 100 ∧
      ((v = 100 ∧ p' = none) ∨ (v ≠ 100 ∧ p' = some ⟨sz, pth, hist⟩))) ∨
    (∃ pend, p = some pend ∧ pend.size = sz ∧ pend.path = pth ∧
      pend.percentages = hist ∧ p' = none) := by
  intro n
  induction n with
  | zero =>
    intro p buf hb sz pth hist p' buf' h
    have : buf = [] := List.length_eq_zero.mp (by omega)
    subst this
    rw [@entryLoop_noTerm tz p [] rfl] at h
    cases h
  | succ n ih =>
    intro p buf hb sz pth hist p' buf' h
    cases hf : findTerminator buf with
    | none =>
      rw [entryLoop_noTerm tz p hf] at h
      cases h
    | some e =>
      obtain ⟨l, t, r, hbuf, hlen, hnt, htc⟩ := findTerminator_decomp hf
      subst hbuf
      have hr : r.length ≤ n := by
        simp only [List.length_append, List.length_cons] at hb
        omega
      cases p with
      | some pend =>
        cases hpv : parsePercentageLine (trim l) with
        | some v =>
          have hne : trim l ≠ [] := by
            intro h0
            rw [h0, parsePercentageLine_nil] at hpv
            cases hpv
          rw [entryLoop_pending_pct tz pend r hnt htc hne hpv] at h
          by_cases hv : v = 100
          · rw [if_pos hv] at h
            simp only [Except.ok.injEq, Prod.mk.injEq,
              RobocopyParseAdvance.logEntry.injEq,
              RobocopyLogEntry.newFile.injEq] at h
            obtain ⟨⟨hsz, hpth, hhist⟩, hp', _⟩ := h
            right; left
            exact ⟨pend, v, rfl, hsz, hpth, hhist.symm,
              parsePercentageLine_le_100 hpv, Or.inl ⟨hv, hp'.symm⟩⟩
          · rw [if_neg hv] at h
            simp only [Except.ok.injEq, Prod.mk.injEq,
              RobocopyParseAdvance.logEntry.injEq,
              RobocopyLogEntry.newFile.injEq] at h
            obtain ⟨⟨hsz, hpth, hhist⟩, hp', _⟩ := h
            right; left
            refine ⟨pend, v, rfl, hsz, hpth, hhist.symm,
              parsePercentageLine_le_100 hpv, Or.inr ⟨hv, ?_⟩⟩
            rw [← hp', ← hsz, ← hpth, hhist]
        | none =>
          cases hnf : isNewFileLine (trim l) with
          | true =>
            have hne : trim l ≠ [] := by
              intro h0
              rw [h0, isNewFileLine_nil] at hnf
              cases hnf
            rw [entryLoop_pending_supersede tz pend r hnt htc hne hpv hnf]
              at h
            simp only [Except.ok.injEq, Prod.mk.injEq,
              RobocopyParseAdvance.logEntry.injEq,
              RobocopyLogEntry.newFile.injEq] at h
            obtain ⟨⟨hsz, hpth, hhist⟩, hp', _⟩ := h
            right; right
            exact ⟨pend, rfl, hsz, hpth, hhist, hp'.symm⟩
          | false =>
            rw [entryLoop_pending_noise tz pend r hnt htc hpv hnf] at h
            exact ih (some pend) r hr h
      | none =>
        by_cases hbl : trim l = []
        · rw [entryLoop_none_blank tz r hnt htc hbl] at h
          exact ih none r hr h
        · cases hpa : parseAccessDeniedFirstLine tz (trim l) with
          | error m =>
            rw [entryLoop_none_access_err tz r hnt htc hbl hpa] at h
            cases h
          | ok oe =>
            cases oe with
            | some entry =>
              rw [entryLoop_none_access tz r hnt htc hbl hpa] at h
              obtain ⟨w, pa, he⟩ := parseAccessDenied_shape hpa
              subst he
              have hfst := accessSecondLine_fst (.accessDenied w pa)
                (trim l) r
              simp only [Except.ok.injEq] at h
              have hadv := congrArg Prod.fst h
              dsimp only at hadv
              rcases hfst with hfst | hfst <;> rw [hfst] at hadv <;>
                cases hadv
            | none =>
              cases hnf : isNewFileLine (trim l) with
              | false =>
                rw [entryLoop_none_noise tz r hnt htc hbl hpa hnf] at h
                exact ih none r hr h
              | true =>
                cases hpn : parseNewFileLine (trim l) with
                | none =>
                  rw [entryLoop_none_newFile_err tz r hnt htc hbl hpa hnf
                    hpn] at h
                  cases h
                | some sp =>
                  rw [entryLoop_none_newFile tz r hnt htc hbl hpa hnf hpn]
                    at h
                  simp only [Except.ok.injEq, Prod.mk.injEq,
                    RobocopyParseAdvance.logEntry.injEq,
                    RobocopyLogEntry.newFile.injEq] at h
                  obtain ⟨⟨hsz, hpth, hhist⟩, hp', _⟩ := h
                  left
                  refine ⟨rfl, hhist.symm, ?_⟩
                  rw [← hp', hsz, hpth]
/-- Claim C2: every `NewFile` event emitted by `advance` either
establishes a fresh pending file with an empty percentage history, or
extends the pending file's history by exactly one value — with 100
finalizing it (pending state cleared) and any other value keeping it
pending — or finalizes a superseded pending file with its accumulated
history; size and path are always those recorded when the pending file
was created. -/
theorem c2_monotonic_progress (tz : Tz) (st st' : ParserState) (sz : Nat)
    (pth : Str) (hist : List Nat)
    (h : advance tz st = .ok (.logEntry (.newFile sz pth hist), st')) :
    (st.pendingNewFile = none ∧ hist = [] ∧
      st'.pendingNewFile = some ⟨sz, pth, []⟩) ∨
    (∃ pend v, st.pendingNewFile = some pend ∧ pend.size = sz ∧
      pend.path = pth ∧ hist = pend.percentages ++ [v] ∧ v ≤ 100 ∧
      ((v = 100 ∧ st'.pendingNewFile = none) ∨
        (v ≠ 100 ∧ st'.pendingNewFile = some ⟨sz, pth, hist⟩))) ∨
    (∃ pend, st.pendingNewFile = some pend ∧ pend.size = sz ∧
      pend.path = pth ∧ pend.percentages = hist ∧
      st'.pendingNewFile = none) := by
  unfold advance at h
  cases hstate : st.state with
  | readingHeader =>
    rw [hstate] at h
    dsimp only at h
    cases hhl : headerLoop tz st.headerDashCount st.headerScanPos st.buf with
    | error m => rw [hhl] at h; cases h
    | ok hs =>
      rw [hhl] at h
      dsimp only at h
      have hcases := headerLoop_cases tz
        (st.buf.length - st.headerScanPos) _ _ _ _ le_rfl hhl
      simp only [Except.ok.injEq, Prod.mk.injEq] at h
      obtain ⟨hadv, _⟩ := h
      rcases hcases with ⟨hnmd, _, _⟩ | ⟨hh, hadv2, _⟩
      · rw [hnmd] at hadv; cases hadv
      · rw [hadv2] at hadv; cases hadv
  | readingEntries =>
    rw [hstate] at h
    dsimp only at h
    cases hel : entryLoop tz st.pendingNewFile st.buf with
    | error m => rw [hel] at h; cases h
    | ok res =>
      obtain ⟨a, p2, b2⟩ := res
      rw [hel] at h
      dsimp only at h
      simp only [Except.ok.injEq, Prod.mk.injEq] at h
      obtain ⟨ha, hst'⟩ := h
      subst ha
      subst hst'
      exact entryLoop_newFile_cases tz st.buf.length st.pendingNewFile
        st.buf le_rfl hel

/-- Witness for C2: one concrete percentage update appends exactly one
value to the pending history. -/
theorem c2_monotonic_progress_witness :
    advance tzAllSingle ⟨['5', '%', '\n'], .readingEntries, 3, 0,
      some ⟨7, ['p'], []⟩⟩ =
      .ok (.logEntry (.newFile 7 ['p'] [5]),
        ⟨[], .readingEntries, 3, 0, some ⟨7, ['p'], [5]⟩⟩) ∧
    (((⟨['5', '%', '\n'], .readingEntries, 3, 0, some ⟨7, ['p'], []⟩⟩ :
        ParserState).pendingNewFile = none ∧ ([5] : List Nat) = [] ∧
      (⟨[], .readingEntries, 3, 0, some ⟨7, ['p'], [5]⟩⟩ :
        ParserState).pendingNewFile = some ⟨7, ['p'], []⟩) ∨
    (∃ pend v, (⟨['5', '%', '\n'], .readingEntries, 3, 0,
        some ⟨7, ['p'], []⟩⟩ :
        ParserState).pendingNewFile = some pend ∧ pend.size = 7 ∧
      pend.path = ['p'] ∧ ([5] : List Nat) = pend.percentages ++ [v] ∧
      v ≤ 100 ∧
      ((v = 100 ∧ (⟨[], .readingEntries, 3, 0, some ⟨7, ['p'], [5]⟩⟩ :
          ParserState).pendingNewFile = none) ∨
        (v ≠ 100 ∧ (⟨[], .readingEntries, 3, 0, some ⟨7, ['p'], [5]⟩⟩ :
          ParserState).pendingNewFile = some ⟨7, ['p'], [5]⟩))) ∨
    (∃ pend, (⟨['5', '%', '\n'], .readingEntries, 3, 0,
        some ⟨7, ['p'], []⟩⟩ :
        ParserState).pendingNewFile = some pend ∧ pend.size = 7 ∧
      pend.path = ['p'] ∧ pend.percentages = [5] ∧
      (⟨[], .readingEntries, 3, 0, some ⟨7, ['p'], [5]⟩⟩ :
        ParserState).pendingNewFile = none)) := by
  have h1 : entryLoop tzAllSingle (some ⟨7, ['p'], []⟩) ['5', '%', '\n'] =
      .ok (.logEntry (.newFile 7 ['p'] [5]), some ⟨7, ['p'], [5]⟩, []) := by
    rw [show (['5', '%', '\n'] : Str) = ['5', '%'] ++ '\n' :: [] from rfl,
      entryLoop_pending_pct tzAllSingle ⟨7, ['p'], []⟩ (l := ['5', '%'])
        (t := '\n') [] (v := 5) (by decide) (by decide) (by decide)
        (by decide)]
    decide
  have hadv : advance tzAllSingle ⟨['5', '%', '\n'], .readingEntries, 3, 0,
      some ⟨7, ['p'], []⟩⟩ =
      .ok (.logEntry (.newFile 7 ['p'] [5]),
        ⟨[], .readingEntries, 3, 0, some ⟨7, ['p'], [5]⟩⟩) := by
    unfold advance
    dsimp only
    rw [h1]
  exact ⟨hadv, c2_monotonic_progress tzAllSingle _ _ _ _ _ hadv⟩

/-- Shape of the buffer after an entry-phase `NeedMoreData`: a suffix of
the original buffer (noise may have been consumed), or a pushed-back
trimmed candidate with a `\n` terminator in front of such a suffix; the
pending state is unchanged. -/
theorem entryLoop_nmd_buf (tz : Tz) :
    ∀ (n : Nat) (p : Option PendingNewFile) (buf : Str)
      (res : RobocopyParseAdvance × Option PendingNewFile × Str),
    buf.length ≤ n →
    entryLoop tz p buf = .ok res → res.1 = .needMoreData →
    (res.2.2 <:+ buf ∨
      ∃ c rest, res.2.2 = c ++ '\n' :: rest ∧ rest <:+ buf) ∧
    res.2.1 = p := by
  intro n
  induction n with
  | zero =>
    intro p buf res hb h hnmd
    have : buf = [] := List.length_eq_zero.mp (by omega)
    subst this
    rw [@entryLoop_noTerm tz p [] rfl] at h
    cases h
    exact ⟨Or.inl (List.suffix_refl []), rfl⟩
  | succ n ih =>
    intro p buf res hb h hnmd
    cases hf : findTerminator buf with
    | none =>
      rw [entryLoop_noTerm tz p hf] at h
      cases h
      exact ⟨Or.inl (List.suffix_refl buf), rfl⟩
    | some e =>
      obtain ⟨l, t, r, hbuf, hlen, hnt, htc⟩ := findTerminator_decomp hf
      subst hbuf
      have hr : r.length ≤ n := by
        simp only [List.length_append, List.length_cons] at hb
        omega
      have hrs : r <:+ l ++ t :: r :=
        (List.suffix_cons t r).trans (List.suffix_append l (t :: r))
      have hlift : ∀ res : RobocopyParseAdvance × Option PendingNewFile ×
          Str, (res.2.2 <:+ r ∨
          ∃ c rest, res.2.2 = c ++ '\n' :: rest ∧ rest <:+ r) ∧
          res.2.1 = p →
          (res.2.2 <:+ l ++ t :: r ∨
            ∃ c rest, res.2.2 = c ++ '\n' :: rest ∧
              rest <:+ l ++ t :: r) ∧ res.2.1 = p := by
        rintro res ⟨hs | ⟨c, rest, hc, hs⟩, hp⟩
        · exact ⟨Or.inl (hs.trans hrs), hp⟩
        · exact ⟨Or.inr ⟨c, rest, hc, hs.trans hrs⟩, hp⟩
      cases p with
      | some pend =>
        cases hpv : parsePercentageLine (trim l) with
        | some v =>
          have hne : trim l ≠ [] := by
            intro h0
            rw [h0, parsePercentageLine_nil] at hpv
            cases hpv
          rw [entryLoop_pending_pct tz pend r hnt htc hne hpv] at h
          by_cases hv : v = 100 <;>
            [rw [if_pos hv] at h; rw [if_neg hv] at h] <;> cases h <;>
            cases hnmd
        | none =>
          cases hnf : isNewFileLine (trim l) with
          | true =>
            have hne : trim l ≠ [] := by
              intro h0
              rw [h0, isNewFileLine_nil] at hnf
              cases hnf
            rw [entryLoop_pending_supersede tz pend r hnt htc hne hpv hnf]
              at h
            cases h
            cases hnmd
          | false =>
            rw [entryLoop_pending_noise tz pend r hnt htc hpv hnf] at h
            exact hlift res (ih (some pend) r res hr h hnmd)
      | none =>
        by_cases hbl : trim l = []
        · rw [entryLoop_none_blank tz r hnt htc hbl] at h
          exact hlift res (ih none r res hr h hnmd)
        · cases hpa : parseAccessDeniedFirstLine tz (trim l) with
          | error m =>
            rw [entryLoop_none_access_err tz r hnt htc hbl hpa] at h
            cases h
          | ok oe =>
            cases oe with
            | some entry =>
              rw [entryLoop_none_access tz r hnt htc hbl hpa] at h
              cases h
              cases hfr : findTerminator r with
              | none =>
                unfold accessSecondLine at hnmd ⊢
                rw [hfr] at hnmd ⊢
                exact ⟨Or.inr ⟨trim l, r, rfl, hrs⟩, rfl⟩
              | some e2 =>
                unfold accessSecondLine at hnmd
                rw [hfr] at hnmd
                dsimp only at hnmd
                split at hnmd
                · cases hnmd
                · split at hnmd <;> cases hnmd
            | none =>
              cases hnf : isNewFileLine (trim l) with
              | false =>
                rw [entryLoop_none_noise tz r hnt htc hbl hpa hnf] at h
                exact hlift res (ih none r res hr h hnmd)
              | true =>
                cases hpn : parseNewFileLine (trim l) with
                | none =>
                  rw [entryLoop_none_newFile_err tz r hnt htc hbl hpa hnf
                    hpn] at h
                  cases h
                | some sp =>
                  rw [entryLoop_none_newFile tz r hnt htc hbl hpa hnf hpn]
                    at h
                  cases h
                  cases hnmd

/-- Amended claim C3: when `advance` returns `NeedMoreData` in the header
phase the buffer is byte-identical (only scan bookkeeping advances); in
the entries phase the buffer is a suffix of the original (noise segments
may have been discarded within the call), possibly preceded by a
pushed-back access-denied candidate that is restored in trimmed form with
a `\n` terminator rather than byte-identically; the pending state is
unchanged. -/
theorem c3_amended_nmd_buffer (tz : Tz) (st st' : ParserState)
    (h : advance tz st = .ok (.needMoreData, st')) :
    (st.state = .readingHeader → st'.buf = st.buf) ∧
    (st.state = .readingEntries →
      (st'.buf <:+ st.buf ∨
        ∃ c rest, st'.buf = c ++ '\n' :: rest ∧ rest <:+ st.buf) ∧
      st'.pendingNewFile = st.pendingNewFile) := by
  constructor
  · intro hphase
    unfold advance at h
    rw [hphase] at h
    dsimp only at h
    cases hhl : headerLoop tz st.headerDashCount st.headerScanPos st.buf with
    | error m => rw [hhl] at h; cases h
    | ok hs =>
      rw [hhl] at h
      dsimp only at h
      simp only [Except.ok.injEq, Prod.mk.injEq] at h
      obtain ⟨hadv, hst'⟩ := h
      have hcases := headerLoop_cases tz
        (st.buf.length - st.headerScanPos) _ _ _ _ le_rfl hhl
      rcases hcases with ⟨_, hbuf, _⟩ | ⟨hh, hadv2, _⟩
      · rw [← hst']
        exact hbuf
      · rw [hadv2] at hadv; cases hadv
  · intro hphase
    unfold advance at h
    rw [hphase] at h
    dsimp only at h
    cases hel : entryLoop tz st.pendingNewFile st.buf with
    | error m => rw [hel] at h; cases h
    | ok res =>
      obtain ⟨a, p2, b2⟩ := res
      rw [hel] at h
      dsimp only at h
      simp only [Except.ok.injEq, Prod.mk.injEq] at h
      obtain ⟨ha, hst'⟩ := h
      have := entryLoop_nmd_buf tz st.buf.length st.pendingNewFile st.buf
        (a, p2, b2) le_rfl hel (by rw [ha])
      rw [← hst']
      exact this

/-- Witness for the amended C3 at concrete states of both phases. -/
theorem c3_amended_nmd_buffer_witness :
    advance tzAllSingle ⟨['a', 'b'], .readingHeader, 0, 0, none⟩ =
      .ok (.needMoreData, ⟨['a', 'b'], .readingHeader, 0, 0, none⟩) ∧
    (⟨['a', 'b'], .readingHeader, 0, 0, none⟩ : ParserState).buf =
      (⟨['a', 'b'], .readingHeader, 0, 0, none⟩ : ParserState).buf := by
  have hadv : advance tzAllSingle ⟨['a', 'b'], .readingHeader, 0, 0,
      none⟩ =
      .ok (.needMoreData, ⟨['a', 'b'], .readingHeader, 0, 0, none⟩) := by
    unfold advance
    dsimp only
    unfold headerLoop
    rw [show findChar '\n' (List.drop 0 ['a', 'b']) = none from by decide]
  exact ⟨hadv,
    (c3_amended_nmd_buffer tzAllSingle _ _ hadv).1 rfl⟩

/-! ### Claim C5: access-denied second-line policy -/

/-- Claim C5: once an access-denied candidate line is recognised, (i) with
no further buffered terminator the candidate is re-inserted at the buffer
front (in trimmed, newline-terminated form) and `advance` returns
`NeedMoreData`; (ii) if the next buffered line, trimmed, equals
`Access is denied.` case-insensitively or is blank, it is consumed and
the error entry is emitted; (iii) any other next line is re-inserted
byte-identically at the buffer front and the error entry is still
emitted. -/
theorem c5_access_denied_policy (tz : Tz) (st : ParserState)
    {l : Str} {t : Char} {r : Str} {entry : RobocopyLogEntry}
    (hstate : st.state = .readingEntries)
    (hpend : st.pendingNewFile = none)
    (hbuf : st.buf = l ++ t :: r)
    (hnt : NoTerm l) (htc : isTermChar t) (hne : trim l ≠ [])
    (hpa : parseAccessDeniedFirstLine tz (trim l) = .ok (some entry)) :
    (findTerminator r = none →
      advance tz st = .ok (.needMoreData,
        ⟨trim l ++ '\n' :: r, .readingEntries, st.headerDashCount,
          st.headerScanPos, none⟩)) ∧
    (∀ l2 t2 r2, r = l2 ++ t2 :: r2 → NoTerm l2 → isTermChar t2 →
      (eqIgnoreAsciiCase (trim (l2 ++ [t2])) (strL "Access is denied.") ∨
        trim (l2 ++ [t2]) = []) →
      advance tz st = .ok (.logEntry entry,
        ⟨r2, .readingEntries, st.headerDashCount, st.headerScanPos,
          none⟩)) ∧
    (∀ l2 t2 r2, r = l2 ++ t2 :: r2 → NoTerm l2 → isTermChar t2 →
      ¬eqIgnoreAsciiCase (trim (l2 ++ [t2])) (strL "Access is denied.") →
      trim (l2 ++ [t2]) ≠ [] →
      advance tz st = .ok (.logEntry entry,
        ⟨l2 ++ t2 :: r2, .readingEntries, st.headerDashCount,
          st.headerScanPos, none⟩)) := by
  obtain ⟨buf, state, dc, sp, pend⟩ := st
  simp only at hstate hpend hbuf
  cases hstate
  cases hpend
  subst hbuf
  have hel := entryLoop_none_access tz r hnt htc hne hpa
  refine ⟨?_, ?_, ?_⟩
  · intro hfr
    unfold advance
    dsimp only
    rw [hel]
    unfold accessSecondLine
    rw [hfr]
  · intro l2 t2 r2 hr hnt2 htc2 hok
    subst hr
    unfold advance
    dsimp only
    rw [hel]
    unfold accessSecondLine
    rw [findTerminator_decomp_build r2 hnt2 htc2]
    dsimp only
    rw [take_term_append, drop_term_append]
    rcases hok with hok | hok
    · rw [if_pos hok]
    · rw [if_neg ?_, if_pos hok]
      intro hcontra
      rw [hok] at hcontra
      cases hcontra
  · intro l2 t2 r2 hr hnt2 htc2 hno hnb
    subst hr
    unfold advance
    dsimp only
    rw [hel]
    unfold accessSecondLine
    rw [findTerminator_decomp_build r2 hnt2 htc2]
    dsimp only
    rw [take_term_append, drop_term_append, if_neg hno, if_neg hnb]
    dsimp only
    rw [show (l2 ++ [t2]) ++ r2 = l2 ++ t2 :: r2 by simp]

/-- Witness for C5, case (i): a lone access-denied candidate line is
pushed back trimmed and `advance` waits for the confirmation line. -/
theorem c5_access_denied_policy_witness :
    findTerminator [] = none ∧
    advance tzAllSingle ⟨strL
        " 2000/01/02 03:04:05 ERROR 5 (0x5) Copying Directory p" ++
        '\r' :: [], .readingEntries, 3, 0, none⟩ =
      .ok (.needMoreData,
        ⟨strL "2000/01/02 03:04:05 ERROR 5 (0x5) Copying Directory p" ++
          '\n' :: [], .readingEntries, 3, 0, none⟩) := by
  refine ⟨rfl, ?_⟩
  have h := (@c5_access_denied_policy tzAllSingle
    ⟨strL " 2000/01/02 03:04:05 ERROR 5 (0x5) Copying Directory p" ++
      '\r' :: [], .readingEntries, 3, 0, none⟩
    (strL " 2000/01/02 03:04:05 ERROR 5 (0x5) Copying Directory p")
    '\r' []
    (.accessDenied ⟨2000, 1, 2, 3, 4, 5⟩ (strL "p"))
    rfl rfl rfl (by decide) (by decide) (by decide) (by decide)).1 rfl
  rw [h]
  decide

/-! ### Trim idempotence -/

/-- `dropWhile` is idempotent. -/
theorem dropWhile_idem (p : Char → Bool) (l : Str) :
    (l.dropWhile p).dropWhile p = l.dropWhile p := by
  induction l with
  | nil => rfl
  | cons c rest ih =>
    by_cases h : p c
    · simpa [List.dropWhile_cons, h] using ih
    · simp [List.dropWhile_cons, h]

/-- `trimStart` is idempotent. -/
theorem trimStart_idem (s : Str) : trimStart (trimStart s) = trimStart s :=
  dropWhile_idem isWsChar s

/-- `trimEnd` is idempotent. -/
theorem trimEnd_idem (s : Str) : trimEnd (trimEnd s) = trimEnd s := by
  unfold trimEnd
  rw [List.reverse_reverse, dropWhile_idem]

/-- The head of a `trimStart` result is never whitespace. -/
theorem trimStart_head_not_ws {s : Str} {c : Char} {rest : Str}
    (h : trimStart s = c :: rest) : isWsChar c = false := by
  induction s with
  | nil => cases h
  | cons d t ih =>
    by_cases hd : isWsChar d
    · simp only [trimStart, List.dropWhile_cons, hd, if_pos] at h
      exact ih h
    · simp only [trimStart, List.dropWhile_cons, hd, Bool.false_eq_true,
        if_neg, not_false_eq_true] at h
      cases h
      simpa using hd

/-- `trimEnd` yields a prefix of its input. -/
theorem trimEnd_leading (s : Str) : trimEnd s <+: s := by
  have h1 : s.reverse.dropWhile isWsChar <:+ s.reverse :=
    List.dropWhile_suffix isWsChar
  have h2 : (s.reverse.dropWhile isWsChar).reverse <+: s.reverse.reverse :=
    List.reverse_prefix.mpr h1
  simpa [trimEnd] using h2

/-- Trimming the end keeps the head, so a head-trimmed string stays
head-trimmed. -/
theorem trimStart_trimEnd_of_trimStart (s : Str) :
    trimStart (trimEnd (trimStart s)) = trimEnd (trimStart s) := by
  cases hu : trimStart s with
  | nil => rfl
  | cons c rest =>
    have hc := trimStart_head_not_ws hu
    cases hv : trimEnd (c :: rest) with
    | nil => rfl
    | cons d tail =>
      have hp := trimEnd_leading (c :: rest)
      rw [hv] at hp
      obtain ⟨tl, htl⟩ := hp
      have hd : d = c := by
        have := congrArg (fun l => l.head?) htl
        simpa using this
      subst hd
      simp [trimStart, List.dropWhile_cons, hc]

/-- `trim` is idempotent. -/
theorem trim_idem (s : Str) : trim (trim s) = trim s := by
  unfold trim
  rw [trimStart_trimEnd_of_trimStart, trimEnd_idem]

/-! ### Claim C4 (amended): noise handling and failure modes -/

/-- Every error of the no-pending entry loop is caused by a candidate
whose trimmed text either contains the raw substring `New File` but fails
New-File parsing, or structurally matches the access-denied prefix with
unparseable numeric fields or an invalid/non-unique local timestamp. -/
theorem entryLoop_none_error_cases (tz : Tz) :
    ∀ (n : Nat) (buf : Str) (m : String), buf.length ≤ n →
    entryLoop tz none buf = .error m →
    ∃ tl : Str, trim tl = tl ∧
      ((isNewFileLine tl = true ∧ parseNewFileLine tl = none ∧
        m = "Failed to parse New File line: '" ++ String.mk tl ++ "'") ∨
       parseAccessDeniedFirstLine tz tl = .error m) := by
  intro n
  induction n with
  | zero =>
    intro buf m hb h
    have : buf = [] := List.length_eq_zero.mp (by omega)
    subst this
    rw [@entryLoop_noTerm tz none [] rfl] at h
    cases h
  | succ n ih =>
    intro buf m hb h
    cases hf : findTerminator buf with
    | none =>
      rw [entryLoop_noTerm tz none hf] at h
      cases h
    | some e =>
      obtain ⟨l, t, r, hbuf, hlen, hnt, htc⟩ := findTerminator_decomp hf
      subst hbuf
      have hr : r.length ≤ n := by
        simp only [List.length_append, List.length_cons] at hb
        omega
      by_cases hbl : trim l = []
      · rw [entryLoop_none_blank tz r hnt htc hbl] at h
        exact ih r m hr h
      · cases hpa : parseAccessDeniedFirstLine tz (trim l) with
        | error m2 =>
          rw [entryLoop_none_access_err tz r hnt htc hbl hpa] at h
          cases h
          exact ⟨trim l, trim_idem l, Or.inr hpa⟩
        | ok oe =>
          cases oe with
          | some entry =>
            rw [entryLoop_none_access tz r hnt htc hbl hpa] at h
            cases h
          | none =>
            cases hnf : isNewFileLine (trim l) with
            | false =>
              rw [entryLoop_none_noise tz r hnt htc hbl hpa hnf] at h
              exact ih r m hr h
            | true =>
              cases hpn : parseNewFileLine (trim l) with
              | none =>
                rw [entryLoop_none_newFile_err tz r hnt htc hbl hpa hnf
                  hpn] at h
                cases h
                exact ⟨trim l, trim_idem l, Or.inl ⟨hnf, hpn, rfl⟩⟩
              | some sp =>
                rw [entryLoop_none_newFile tz r hnt htc hbl hpa hnf hpn]
                  at h
                cases h

/-- Amended claim C4: in the entries phase with no pending file, a
candidate line that neither parses as an access-denied candidate nor
contains the raw substring `New File` is discarded as noise without
error, and `advance` fails only when a consumed candidate line contains
the substring `New File` but fails New-File parsing (too few
tab-separated fields, wrong first field, or malformed size), or
structurally matches the access-denied token pattern with unparseable
numeric fields or an invalid local timestamp. -/
theorem c4_amended_noise_and_failures (tz : Tz) (st : ParserState)
    {l : Str} {t : Char} {r : Str} {m : String}
    (hstate : st.state = .readingEntries)
    (hpend : st.pendingNewFile = none) :
    (st.buf = l ++ t :: r → NoTerm l → isTermChar t →
      parseAccessDeniedFirstLine tz (trim l) = .ok none →
      isNewFileLine (trim l) = false →
      advance tz st = advance tz
        ⟨r, .readingEntries, st.headerDashCount, st.headerScanPos, none⟩) ∧
    (advance tz st = .error m →
      ∃ tl : Str, trim tl = tl ∧
        ((isNewFileLine tl = true ∧ parseNewFileLine tl = none ∧
          m = "Failed to parse New File line: '" ++ String.mk tl ++ "'") ∨
         parseAccessDeniedFirstLine tz tl = .error m)) := by
  obtain ⟨buf, state, dc, sp, pend⟩ := st
  simp only at hstate hpend
  cases hstate
  cases hpend
  constructor
  · intro hbuf hnt htc hpa hnf
    simp only at hbuf
    subst hbuf
    unfold advance
    dsimp only
    by_cases hbl : trim l = []
    · rw [entryLoop_none_blank tz r hnt htc hbl]
    · rw [entryLoop_none_noise tz r hnt htc hbl hpa hnf]
  · intro h
    unfold advance at h
    dsimp only at h
    cases hel : entryLoop tz none buf with
    | error m2 =>
      rw [hel] at h
      cases h
      exact entryLoop_none_error_cases tz buf.length buf m le_rfl hel
    | ok res =>
      rw [hel] at h
      cases h

/-- Witness for the amended C4: a dash line is dropped as noise, and the
`a New File` failure is characterized. -/
theorem c4_amended_noise_and_failures_witness :
    advance tzAllSingle ⟨strL "---\n..", .readingEntries, 3, 0, none⟩ =
      advance tzAllSingle ⟨strL "..", .readingEntries, 3, 0, none⟩ ∧
    (∃ tl : Str, trim tl = tl ∧
      ((isNewFileLine tl = true ∧ parseNewFileLine tl = none ∧
        ("Failed to parse New File line: '" ++ String.mk (strL "a New File")
          ++ "'") =
          "Failed to parse New File line: '" ++ String.mk tl ++ "'") ∨
       parseAccessDeniedFirstLine tzAllSingle tl =
         .error ("Failed to parse New File line: '" ++
           String.mk (strL "a New File") ++ "'"))) := by
  have hc := c4_amended_noise_and_failures tzAllSingle
    ⟨strL "---\n..", .readingEntries, 3, 0, none⟩
    (l := strL "---") (t := '\n') (r := strL "..")
    (m := "Failed to parse New File line: '" ++
      String.mk (strL "a New File") ++ "'") rfl rfl
  refine ⟨hc.1 (by decide) (by decide) (by decide) (by decide) (by decide),
    ?_⟩
  have hc2 := c4_amended_noise_and_failures tzAllSingle
    ⟨strL "a New File\n", .readingEntries, 3, 0, none⟩
    (l := strL "a New File") (t := '\n') (r := [])
    (m := "Failed to parse New File line: '" ++
      String.mk (strL "a New File") ++ "'") rfl rfl
  apply hc2.2
  have h1 : entryLoop tzAllSingle none (strL "a New File\n") =
      .error ("Failed to parse New File line: '" ++
        String.mk (strL "a New File") ++ "'") := by
    rw [show strL "a New File\n" = strL "a New File" ++ '\n' :: [] from
      by decide,
      entryLoop_none_newFile_err tzAllSingle (l := strL "a New File")
        (t := '\n') [] (by decide) (by decide) (by decide) (by decide)
        (by decide) (by decide)]
    decide
  unfold advance
  dsimp only
  rw [h1]

/-! ### Claim C10: DST folds and gaps -/

/-- A timezone with one ambiguous wall-clock time. -/
def tzAmbAt (w0 : NaiveDT) : Tz :=
  fun v => if v = w0 then .ambiguous else .single

/-- A timezone with one non-existent wall-clock time. -/
def tzGapAt (w0 : NaiveDT) : Tz :=
  fun v => if v = w0 then .nonexistent else .single

/-- Claim C10: an access-denied candidate line whose date/time resolves to
an ambiguous (DST fold) or non-existent local time makes the parse — and
hence `advance` — fail fatally, because the code demands a unique instant
via `.single()`; the header's Started timestamp instead accepts an
ambiguous time (taking the earlier candidate) and only rejects
non-existent ones. -/
theorem c10_dst_fold_handling (tz : Tz) (line : Str) (w : NaiveDT)
    (i : Nat) (d t : Str) (edash c x cp dir : Str) (restw : List Str)
    (hsplit : splitWhitespace line =
      d :: t :: edash :: c :: x :: cp :: dir :: restw)
    (hd10 : d.length = 10) (hd4 : d.get? 4 = some '/')
    (hd7 : d.get? 7 = some '/')
    (ht8 : t.length = 8) (ht2 : t.get? 2 = some ':')
    (ht5 : t.get? 5 = some ':')
    (herr : eqIgnoreAsciiCase edash (strL "ERROR") = true)
    (hx : (strL "(0x").isPrefixOf x = true)
    (hcp : eqIgnoreAsciiCase cp (strL "Copying") = true)
    (hdir : eqIgnoreAsciiCase dir (strL "Directory") = true)
    (hfind : findSubstr (strL "Directory") line = some i)
    (hyear : i32ParseStr (d.take 4) = some w.year)
    (hmon : u32ParseStr ((d.drop 5).take 2) = some w.month)
    (hday : u32ParseStr ((d.drop 8).take 2) = some w.day)
    (hhour : u32ParseStr (t.take 2) = some w.hour)
    (hmin : u32ParseStr ((t.drop 3).take 2) = some w.minute)
    (hsec : u32ParseStr ((t.drop 6).take 2) = some w.second)
    (hvalid : w.validB = true) :
    (tz w = .ambiguous ∨ tz w = .nonexistent →
      parseAccessDeniedFirstLine tz line =
        .error "Invalid timestamp in access denied line") ∧
    (tz w = .ambiguous ∨ tz w = .nonexistent →
      trim line = line → NoTerm line → ∀ r dc sp,
      advance tz ⟨line ++ '\n' :: r, .readingEntries, dc, sp, none⟩ =
        .error "Invalid timestamp in access denied line") ∧
    (tz w = .ambiguous → ∀ s, naiveParseStartFmt (trim s) = some w →
      startDateTimeFromStr tz s = .ok w) ∧
    (tz w = .nonexistent → ∀ s, naiveParseStartFmt (trim s) = some w →
      startDateTimeFromStr tz s =
        .error "Invalid local datetime (non-existent due to DST)") := by
  have hparse : tz w = .ambiguous ∨ tz w = .nonexistent →
      parseAccessDeniedFirstLine tz line =
        .error "Invalid timestamp in access denied line" := by
    intro htz
    unfold parseAccessDeniedFirstLine
    dsimp only
    rw [hsplit]
    rw [if_neg (by simp)]
    dsimp only [List.getD, List.get?, Option.getD]
    rw [if_pos ⟨hd10, hd4, hd7⟩, if_pos ⟨ht8, ht2, ht5, herr, hx⟩,
      if_pos ⟨hcp, hdir⟩, hfind, hyear, hmon, hday, hhour, hmin, hsec]
    dsimp only
    rw [if_pos ?hw]
    case hw =>
      exact hvalid
    rcases htz with htz | htz <;> rw [htz]
  refine ⟨hparse, ?_, ?_, ?_⟩
  · intro htz htrim hnt r dc sp
    have hne : trim line ≠ [] := by
      rw [htrim]
      intro hnil
      rw [hnil] at hsplit
      cases hsplit
    have hpa : parseAccessDeniedFirstLine tz (trim line) =
        .error "Invalid timestamp in access denied line" := by
      rw [htrim]
      exact hparse htz
    unfold advance
    dsimp only
    rw [entryLoop_none_access_err tz r hnt (by decide) hne hpa]
  · intro htz s hs
    unfold startDateTimeFromStr
    rw [hs]
    dsimp only
    rw [htz]
  · intro htz s hs
    unfold startDateTimeFromStr
    rw [hs]
    dsimp only
    rw [htz]

/-- Witness for C10: a concrete DST-fold wall time makes the
access-denied parse fail while the header's Started parse succeeds. -/
theorem c10_dst_fold_handling_witness :
    tzAmbAt ⟨2025, 11, 2, 1, 30, 0⟩ ⟨2025, 11, 2, 1, 30, 0⟩ =
      .ambiguous ∧
    parseAccessDeniedFirstLine (tzAmbAt ⟨2025, 11, 2, 1, 30, 0⟩)
      (strL "2025/11/02 01:30:00 ERROR 5 (0x5) Copying Directory p") =
      .error "Invalid timestamp in access denied line" ∧
    startDateTimeFromStr (tzAmbAt ⟨2025, 11, 2, 1, 30, 0⟩)
      (strL "November 02, 2025 01:30:00 AM") =
      .ok ⟨2025, 11, 2, 1, 30, 0⟩ := by
  have hc := c10_dst_fold_handling (tzAmbAt ⟨2025, 11, 2, 1, 30, 0⟩)
    (strL "2025/11/02 01:30:00 ERROR 5 (0x5) Copying Directory p")
    ⟨2025, 11, 2, 1, 30, 0⟩ 42
    (strL "2025/11/02") (strL "01:30:00") (strL "ERROR") (strL "5")
    (strL "(0x5)") (strL "Copying") (strL "Directory") [strL "p"]
    (by decide) (by decide) (by decide) (by decide) (by decide)
    (by decide) (by decide) (by decide) (by decide) (by decide)
    (by decide) (by decide) (by decide) (by decide) (by decide)
    (by decide) (by decide) (by decide) (by decide)
  exact ⟨by decide, hc.1 (Or.inl (by decide)),
    hc.2.2.1 (by decide) (strL "November 02, 2025 01:30:00 AM")
      (by decide)⟩

/-! ### Claim C6: header-parse characterization -/

/-- Specification-side view of one header line: `none` for skipped or
key-less lines, otherwise the lower-cased trimmed key and trimmed value. -/
def keyVal (rawLine : Str) : Option (Str × Str) :=
  let line := trimStart rawLine
  if line = [] ∨ line.all (fun c => c == '-') ∨
      (strL "ROBOCOPY").isPrefixOf line then none
  else
    match findChar ':' line with
    | none => none
    | some idx =>
      some (lowerStr (trim (line.take idx)), trim ((line.drop idx).drop 1))

/-- Value of the first occurrence of a key among the lines. -/
def firstVal (lns : List Str) (key : Str) : Option Str :=
  ((lns.filterMap keyVal).find? (fun kv => kv.1 == key)).map (fun kv => kv.2)

/-- A skipped or key-less line leaves the accumulator alone. -/
theorem processHeaderLine_of_keyVal_none {tz : Tz} {acc : HeaderAcc}
    {l : Str} (h : keyVal l = none) :
    processHeaderLine tz acc l = .ok acc := by
  unfold keyVal at h
  unfold processHeaderLine
  dsimp only at h ⊢
  split
  · rfl
  · rw [if_neg (by assumption)] at h
    cases hc : findChar ':' (trimStart l) with
    | none => rfl
    | some idx => rw [hc] at h; simp at h

/-- A keyed line acts on the accumulator according to its lower-cased
key. -/
theorem processHeaderLine_of_keyVal_some {tz : Tz} {acc : HeaderAcc}
    {l : Str} {k v : Str} (h : keyVal l = some (k, v)) :
    processHeaderLine tz acc l =
      if k = strL "started" then
        match acc.started with
        | some _ => .ok acc
        | none =>
          match startDateTimeFromStr tz v with
          | .error m => .error m
          | .ok w => .ok ⟨some w, acc.source, acc.dest, acc.files,
              acc.options⟩
      else if k = strL "source" then
        match acc.source with
        | some _ => .ok acc
        | none => .ok ⟨acc.started, some v, acc.dest, acc.files,
            acc.options⟩
      else if k = strL "dest" then
        match acc.dest with
        | some _ => .ok acc
        | none => .ok ⟨acc.started, acc.source, some v, acc.files,
            acc.options⟩
      else if k = strL "files" then
        match acc.files with
        | some _ => .ok acc
        | none => .ok ⟨acc.started, acc.source, acc.dest, some v,
            acc.options⟩
      else if k = strL "options" then
        match acc.options with
        | some _ => .ok acc
        | none => .ok ⟨acc.started, acc.source, acc.dest, acc.files,
            some (trim v)⟩
      else .ok acc := by
  unfold keyVal at h
  unfold processHeaderLine
  dsimp only at h ⊢
  split
  · rw [if_pos (by assumption)] at h
    cases h
  · rw [if_neg (by assumption)] at h
    cases hc : findChar ':' (trimStart l) with
    | none => rw [hc] at h; simp at h
    | some idx =>
      rw [hc] at h
      simp only [Option.some.injEq, Prod.mk.injEq] at h
      obtain ⟨hk, hv⟩ := h
      subst hk
      subst hv
      rfl

/-- `firstVal` through a skipped line. -/
theorem firstVal_cons_none {l : Str} (lns : List Str) (key : Str)
    (h : keyVal l = none) :
    firstVal (l :: lns) key = firstVal lns key := by
  unfold firstVal
  rw [List.filterMap_cons_none h]

/-- `firstVal` through a keyed line. -/
theorem firstVal_cons_some {l : Str} {k v : Str} (lns : List Str)
    (key : Str) (h : keyVal l = some (k, v)) :
    firstVal (l :: lns) key =
      if k = key then some v else firstVal lns key := by
  unfold firstVal
  rw [List.filterMap_cons_some h]
  by_cases hk : k = key
  · subst hk
    rw [if_pos rfl]
    rw [List.find?_cons_of_pos]
    · rfl
    · simp
  · rw [if_neg hk]
    rw [List.find?_cons_of_neg]
    simp [hk]

/-- First-occurrence specification of a partially-filled accumulator run
over the remaining lines: each still-empty field must be supplied by the
first occurrence of its key, each filled field is already decided. -/
def AccSpec (tz : Tz) (lns : List Str) (acc : HeaderAcc)
    (h : RobocopyHeader) : Prop :=
  (match acc.started with
   | some w => h.started = w
   | none => ∃ vs, firstVal lns (strL "started") = some vs ∧
       startDateTimeFromStr tz vs = .ok h.started) ∧
  (match acc.source with
   | some v => h.source = v
   | none => firstVal lns (strL "source") = some h.source) ∧
  (match acc.dest with
   | some v => h.dest = v
   | none => firstVal lns (strL "dest") = some h.dest) ∧
  (match acc.files with
   | some v => h.files = v
   | none => firstVal lns (strL "files") = some h.files) ∧
  (match acc.options with
   | some v => h.options = v
   | none => ∃ vo, firstVal lns (strL "options") = some vo ∧
       h.options = trim vo)

/-- `firstVal` at the key of the head line. -/
theorem firstVal_cons_some_eq {l : Str} {k v : Str} (lns : List Str)
    (h : keyVal l = some (k, v)) : firstVal (l :: lns) k = some v := by
  rw [firstVal_cons_some lns k h, if_pos rfl]

/-- `firstVal` at a different key than the head line's. -/
theorem firstVal_cons_some_ne {l : Str} {k v : Str} (lns : List Str)
    (key : Str) (h : keyVal l = some (k, v)) (hne : k ≠ key) :
    firstVal (l :: lns) key = firstVal lns key := by
  rw [firstVal_cons_some lns key h, if_neg hne]

/-- Folding the header lines and finalizing succeeds with `h` exactly
when every field of `h` is justified by the accumulator or the first
occurrence of its key. -/
theorem headerFold_finalize_iff (tz : Tz) :
    ∀ (lns : List Str) (acc : HeaderAcc) (h : RobocopyHeader),
    (match headerFold tz acc lns with
     | .error m => (.error m : Except String RobocopyHeader)
     | .ok acc2 => headerFinalize acc2) = .ok h ↔ AccSpec tz lns acc h := by
  intro lns
  induction lns with
  | nil =>
    intro acc h
    obtain ⟨a1, a2, a3, a4, a5⟩ := acc
    obtain ⟨h1, h2, h3, h4, h5⟩ := h
    simp only [headerFold]
    cases a1 <;> cases a2 <;> cases a3 <;> cases a4 <;> cases a5 <;>
      simp [headerFinalize, AccSpec, firstVal, RobocopyHeader.mk.injEq,
        and_assoc, eq_comm]
  | cons l lns ih =>
    intro acc h
    simp only [headerFold]
    cases hkv : keyVal l with
    | none =>
      rw [processHeaderLine_of_keyVal_none hkv]
      dsimp only
      rw [ih acc h]
      unfold AccSpec
      rw [firstVal_cons_none lns (strL "started") hkv,
        firstVal_cons_none lns (strL "source") hkv,
        firstVal_cons_none lns (strL "dest") hkv,
        firstVal_cons_none lns (strL "files") hkv,
        firstVal_cons_none lns (strL "options") hkv]
    | some kv =>
      obtain ⟨k, v⟩ := kv
      rw [processHeaderLine_of_keyVal_some hkv]
      by_cases hk1 : k = strL "started"
      · subst hk1
        rw [if_pos rfl]
        cases ha : acc.started with
        | some w =>
          dsimp only
          rw [ih acc h]
          unfold AccSpec
          rw [ha,
            firstVal_cons_some_ne lns (strL "source") hkv (by decide),
            firstVal_cons_some_ne lns (strL "dest") hkv (by decide),
            firstVal_cons_some_ne lns (strL "files") hkv (by decide),
            firstVal_cons_some_ne lns (strL "options") hkv (by decide)]
        | none =>
          cases hp : startDateTimeFromStr tz v with
          | error m =>
            dsimp only
            unfold AccSpec
            rw [ha, firstVal_cons_some_eq lns hkv,
              firstVal_cons_some_ne lns (strL "source") hkv (by decide),
              firstVal_cons_some_ne lns (strL "dest") hkv (by decide),
              firstVal_cons_some_ne lns (strL "files") hkv (by decide),
              firstVal_cons_some_ne lns (strL "options") hkv (by decide)]
            simp [hp]
          | ok w =>
            dsimp only
            rw [ih ⟨some w, acc.source, acc.dest, acc.files, acc.options⟩ h]
            unfold AccSpec
            dsimp only
            rw [ha, firstVal_cons_some_eq lns hkv,
              firstVal_cons_some_ne lns (strL "source") hkv (by decide),
              firstVal_cons_some_ne lns (strL "dest") hkv (by decide),
              firstVal_cons_some_ne lns (strL "files") hkv (by decide),
              firstVal_cons_some_ne lns (strL "options") hkv (by decide)]
            simp [hp, eq_comm]
      · rw [if_neg hk1]
        by_cases hk2 : k = strL "source"
        · subst hk2
          rw [if_pos rfl]
          cases ha : acc.source with
          | some w =>
            dsimp only
            rw [ih acc h]
            unfold AccSpec
            rw [ha,
              firstVal_cons_some_ne lns (strL "started") hkv (by decide),
              firstVal_cons_some_ne lns (strL "dest") hkv (by decide),
              firstVal_cons_some_ne lns (strL "files") hkv (by decide),
              firstVal_cons_some_ne lns (strL "options") hkv (by decide)]
          | none =>
            dsimp only
            rw [ih ⟨acc.started, some v, acc.dest, acc.files, acc.options⟩
              h]
            unfold AccSpec
            dsimp only
            rw [ha, firstVal_cons_some_eq lns hkv,
              firstVal_cons_some_ne lns (strL "started") hkv (by decide),
              firstVal_cons_some_ne lns (strL "dest") hkv (by decide),
              firstVal_cons_some_ne lns (strL "files") hkv (by decide),
              firstVal_cons_some_ne lns (strL "options") hkv (by decide)]
            simp [eq_comm]
        · rw [if_neg hk2]
          by_cases hk3 : k = strL "dest"
          · subst hk3
            rw [if_pos rfl]
            cases ha : acc.dest with
            | some w =>
              dsimp only
              rw [ih acc h]
              unfold AccSpec
              rw [ha,
                firstVal_cons_some_ne lns (strL "started") hkv (by decide),
                firstVal_cons_some_ne lns (strL "source") hkv (by decide),
                firstVal_cons_some_ne lns (strL "files") hkv (by decide),
                firstVal_cons_some_ne lns (strL "options") hkv (by decide)]
            | none =>
              dsimp only
              rw [ih ⟨acc.started, acc.source, some v, acc.files,
                acc.options⟩ h]
              unfold AccSpec
              dsimp only
              rw [ha, firstVal_cons_some_eq lns hkv,
                firstVal_cons_some_ne lns (strL "started") hkv (by decide),
                firstVal_cons_some_ne lns (strL "source") hkv (by decide),
                firstVal_cons_some_ne lns (strL "files") hkv (by decide),
                firstVal_cons_some_ne lns (strL "options") hkv (by decide)]
              simp [eq_comm]
          · rw [if_neg hk3]
            by_cases hk4 : k = strL "files"
            · subst hk4
              rw [if_pos rfl]
              cases ha : acc.files with
              | some w =>
                dsimp only
                rw [ih acc h]
                unfold AccSpec
                rw [ha,
                  firstVal_cons_some_ne lns (strL "started") hkv
                    (by decide),
                  firstVal_cons_some_ne lns (strL "source") hkv
                    (by decide),
                  firstVal_cons_some_ne lns (strL "dest") hkv (by decide),
                  firstVal_cons_some_ne lns (strL "options") hkv
                    (by decide)]
              | none =>
                dsimp only
                rw [ih ⟨acc.started, acc.source, acc.dest, some v,
                  acc.options⟩ h]
                unfold AccSpec
                dsimp only
                rw [ha, firstVal_cons_some_eq lns hkv,
                  firstVal_cons_some_ne lns (strL "started") hkv
                    (by decide),
                  firstVal_cons_some_ne lns (strL "source") hkv
                    (by decide),
                  firstVal_cons_some_ne lns (strL "dest") hkv (by decide),
                  firstVal_cons_some_ne lns (strL "options") hkv
                    (by decide)]
                simp [eq_comm]
            · rw [if_neg hk4]
              by_cases hk5 : k = strL "options"
              · subst hk5
                rw [if_pos rfl]
                cases ha : acc.options with
                | some w =>
                  dsimp only
                  rw [ih acc h]
                  unfold AccSpec
                  rw [ha,
                    firstVal_cons_some_ne lns (strL "started") hkv
                      (by decide),
                    firstVal_cons_some_ne lns (strL "source") hkv
                      (by decide),
                    firstVal_cons_some_ne lns (strL "dest") hkv
                      (by decide),
                    firstVal_cons_some_ne lns (strL "files") hkv
                      (by decide)]
                | none =>
                  dsimp only
                  rw [ih ⟨acc.started, acc.source, acc.dest, acc.files,
                    some (trim v)⟩ h]
                  unfold AccSpec
                  dsimp only
                  rw [ha, firstVal_cons_some_eq lns hkv,
                    firstVal_cons_some_ne lns (strL "started") hkv
                      (by decide),
                    firstVal_cons_some_ne lns (strL "source") hkv
                      (by decide),
                    firstVal_cons_some_ne lns (strL "dest") hkv
                      (by decide),
                    firstVal_cons_some_ne lns (strL "files") hkv
                      (by decide)]
                  simp [eq_comm]
              · rw [if_neg hk5]
                dsimp only
                rw [ih acc h]
                unfold AccSpec
                rw [firstVal_cons_some_ne lns (strL "started") hkv hk1,
                  firstVal_cons_some_ne lns (strL "source") hkv hk2,
                  firstVal_cons_some_ne lns (strL "dest") hkv hk3,
                  firstVal_cons_some_ne lns (strL "files") hkv hk4,
                  firstVal_cons_some_ne lns (strL "options") hkv hk5]

/-- Claim C6: parsing a header block succeeds with `h` if and only if a
first occurrence of each of the five keys exists among the block's lines
— keys matched case-insensitively after trimming (`keyVal` lowers and
trims), later duplicates ignored (`firstVal` takes the first occurrence),
unknown keys, blank lines, dash-only lines and the banner skipped
(`keyVal` maps them to `none`) — and the Started sub-parser succeeds on
that first value (the path, pattern and option sub-parsers are total);
in particular, parsing fails whenever any of the five keys is absent. -/
theorem c6_header_parse_iff (tz : Tz) (s : Str) (h : RobocopyHeader) :
    headerFromStr tz s = .ok h ↔
    (∃ vs, firstVal (rustLines s) (strL "started") = some vs ∧
      startDateTimeFromStr tz vs = .ok h.started) ∧
    firstVal (rustLines s) (strL "source") = some h.source ∧
    firstVal (rustLines s) (strL "dest") = some h.dest ∧
    firstVal (rustLines s) (strL "files") = some h.files ∧
    (∃ vo, firstVal (rustLines s) (strL "options") = some vo ∧
      h.options = trim vo) := by
  have hiff := headerFold_finalize_iff tz (rustLines s) emptyAcc h
  unfold headerFromStr
  rw [hiff]
  unfold AccSpec emptyAcc
  exact Iff.rfl

/-! ### Claim C8: digit-rendering lemmas -/

/-- Length of `takeWhile` never exceeds the original length. -/
theorem length_takeWhile_le (p : Char → Bool) (l : Str) :
    (l.takeWhile p).length ≤ l.length := by
  induction l with
  | nil => simp
  | cons c t ih =>
    by_cases h : p c <;> simp [List.takeWhile_cons, h] <;> omega

/-- Value of a rendered digit. -/
theorem digitVal_digitChar {k : Nat} (h : k ≤ 9) :
    digitVal (digitChar k) = k := by
  interval_cases k <;> decide

/-- A rendered digit is a digit character. -/
theorem isDigitChar_digitChar {k : Nat} (h : k ≤ 9) :
    isDigitChar (digitChar k) = true := by
  interval_cases k <;> decide

/-- A rendered digit is not whitespace. -/
theorem not_isWsChar_digitChar {k : Nat} (h : k ≤ 9) :
    isWsChar (digitChar k) = false := by
  interval_cases k <;> decide

/-- Two-digit rendering evaluates back to its value. -/
theorem digitsToNat_pad2 {n : Nat} (h : n ≤ 99) :
    digitsToNat (pad2 n) = n := by
  unfold digitsToNat pad2
  simp only [List.foldl_cons, List.foldl_nil]
  rw [digitVal_digitChar (by omega), digitVal_digitChar (by omega)]
  omega

/-- Four-digit rendering evaluates back to its value. -/
theorem digitsToNat_pad4 {n : Nat} (h : n ≤ 9999) :
    digitsToNat (pad4 n) = n := by
  unfold digitsToNat pad4
  simp only [List.foldl_cons, List.foldl_nil]
  rw [digitVal_digitChar (by omega), digitVal_digitChar (by omega),
    digitVal_digitChar (by omega), digitVal_digitChar (by omega)]
  omega

/-- Folding digits is bounded by the digit count. -/
theorem digitsToNat_foldl_lt (ds : Str) :
    ∀ acc, (∀ c ∈ ds, isDigitChar c = true) →
    ds.foldl (fun a c => a * 10 + digitVal c) acc <
      (acc + 1) * 10 ^ ds.length := by
  induction ds with
  | nil => intro acc _; simpa using Nat.lt_succ_self acc
  | cons c t ih =>
    intro acc hd
    have hc : digitVal c ≤ 9 := by
      have hdig := hd c (.head _)
      unfold isDigitChar at hdig
      simp only [Bool.and_eq_true, decide_eq_true_eq] at hdig
      unfold digitVal
      omega
    have hrec := ih (acc * 10 + digitVal c)
      (fun d hdm => hd d (.tail _ hdm))
    simp only [List.foldl_cons, List.length_cons]
    have h2 : (acc * 10 + digitVal c + 1) * 10 ^ t.length ≤
        (acc + 1) * 10 ^ (t.length + 1) := by
      rw [pow_succ]
      have h3 : acc * 10 + digitVal c + 1 ≤ (acc + 1) * 10 := by omega
      calc (acc * 10 + digitVal c + 1) * 10 ^ t.length
          ≤ (acc + 1) * 10 * 10 ^ t.length := Nat.mul_le_mul_right _ h3
        _ = (acc + 1) * (10 ^ t.length * 10) := by ring
    exact lt_of_lt_of_le hrec h2

/-- A digit string's value is below `10 ^ length`. -/
theorem digitsToNat_lt (ds : Str) (h : ∀ c ∈ ds, isDigitChar c = true) :
    digitsToNat ds < 10 ^ ds.length := by
  have := digitsToNat_foldl_lt ds 0 h
  simpa [digitsToNat] using this

/-- Bound extracted from a bounded numeric scan. -/
theorem parseNumUpTo_lt {k : Nat} {s : Str} {n : Nat} {r : Str}
    (h : parseNumUpTo k s = some (n, r)) : n < 10 ^ k := by
  unfold parseNumUpTo at h
  dsimp only at h
  split at h
  · cases h
  · simp only [Option.some.injEq, Prod.mk.injEq] at h
    obtain ⟨hn, _⟩ := h
    subst hn
    have hds : ∀ c ∈ (s.take k).takeWhile isDigitChar,
        isDigitChar c = true := fun c hc => List.mem_takeWhile_imp hc
    have hlen : ((s.take k).takeWhile isDigitChar).length ≤ k := by
      have h1 := length_takeWhile_le isDigitChar (s.take k)
      have h2 := List.length_take_le k s
      omega
    calc digitsToNat ((s.take k).takeWhile isDigitChar)
        < 10 ^ ((s.take k).takeWhile isDigitChar).length :=
          digitsToNat_lt _ hds
      _ ≤ 10 ^ k := Nat.pow_le_pow_right (by omega) hlen

/-- Reading a two-digit rendering consumes exactly it. -/
theorem parseNumUpTo_pad2 {n : Nat} (rest : Str) (h : n ≤ 99) :
    parseNumUpTo 2 (pad2 n ++ rest) = some (n, rest) := by
  unfold parseNumUpTo
  dsimp only
  have htake : (pad2 n ++ rest).take 2 = pad2 n := by
    rw [List.take_append_eq_append_take]
    simp [pad2]
  rw [htake]
  have htw : (pad2 n).takeWhile isDigitChar = pad2 n := by
    unfold pad2
    simp [List.takeWhile_cons, isDigitChar_digitChar (by omega : n / 10 ≤ 9),
      isDigitChar_digitChar (by omega : n % 10 ≤ 9)]
  rw [htw]
  rw [if_neg (by simp [pad2])]
  rw [digitsToNat_pad2 h]
  simp [pad2]

/-- Reading a four-digit rendering consumes exactly it. -/
theorem parseNumUpTo_pad4 {n : Nat} (rest : Str) (h : n ≤ 9999) :
    parseNumUpTo 4 (pad4 n ++ rest) = some (n, rest) := by
  unfold parseNumUpTo
  dsimp only
  have htake : (pad4 n ++ rest).take 4 = pad4 n := by
    rw [List.take_append_eq_append_take]
    simp [pad4]
  rw [htake]
  have htw : (pad4 n).takeWhile isDigitChar = pad4 n := by
    unfold pad4
    simp [List.takeWhile_cons,
      isDigitChar_digitChar (by omega : n / 1000 % 10 ≤ 9),
      isDigitChar_digitChar (by omega : n / 100 % 10 ≤ 9),
      isDigitChar_digitChar (by omega : n / 10 % 10 ≤ 9),
      isDigitChar_digitChar (by omega : n % 10 ≤ 9)]
  rw [htw]
  rw [if_neg (by simp [pad4])]
  rw [digitsToNat_pad4 h]
  simp [pad4]

set_option maxHeartbeats 1000000 in
/-- Properties of a successful naive parse: the wall time is
calendar-valid, with a non-negative year below 10000 (the `%Y` scan reads
at most four digits). -/
theorem naiveParseStartFmt_ok_props {s : Str} {w : NaiveDT}
    (h : naiveParseStartFmt s = some w) :
    w.validB = true ∧ 0 ≤ w.year ∧ w.year < 10000 := by
  unfold naiveParseStartFmt at h
  cases hm : matchMonth s with
  | none => rw [hm] at h; cases h
  | some ms =>
    obtain ⟨mon, s1⟩ := ms
    rw [hm] at h
    dsimp only at h
    cases hd : parseNumUpTo 2 (trimStart s1) with
    | none => rw [hd] at h; cases h
    | some ds =>
      obtain ⟨day, s3⟩ := ds
      rw [hd] at h
      dsimp only at h
      split at h
      all_goals try exact Option.noConfusion h
      rename_i c3 s4
      split at h
      all_goals try exact Option.noConfusion h
      cases hy : parseNumUpTo 4 (trimStart s4) with
      | none => rw [hy] at h; exact Option.noConfusion h
      | some ys =>
        obtain ⟨yr, s6⟩ := ys
        rw [hy] at h
        dsimp only at h
        cases hh : parseNumUpTo 2 (trimStart s6) with
        | none => rw [hh] at h; exact Option.noConfusion h
        | some hs =>
          obtain ⟨h12, s8⟩ := hs
          rw [hh] at h
          dsimp only at h
          split at h
          all_goals try exact Option.noConfusion h
          rename_i c8 s9
          split at h
          all_goals try exact Option.noConfusion h
          cases hmin : parseNumUpTo 2 s9 with
          | none => rw [hmin] at h; exact Option.noConfusion h
          | some mns =>
            obtain ⟨minute, s10⟩ := mns
            rw [hmin] at h
            dsimp only at h
            split at h
            all_goals try exact Option.noConfusion h
            rename_i c10 s11
            split at h
            all_goals try exact Option.noConfusion h
            cases hsec : parseNumUpTo 2 s11 with
            | none => rw [hsec] at h; exact Option.noConfusion h
            | some scs =>
              obtain ⟨second, s12⟩ := scs
              rw [hsec] at h
              dsimp only at h
              split at h
              · repeat' split at h
                all_goals try exact Option.noConfusion h
                all_goals (
                  rename_i hvb
                  cases h
                  have hb := parseNumUpTo_lt hy
                  refine ⟨hvb, Int.natCast_nonneg yr, ?_⟩
                  have hb2 : yr < 10000 := by
                    have h4 : (10 : Nat) ^ 4 = 10000 := by norm_num
                    omega
                  show (yr : Int) < 10000
                  exact_mod_cast hb2)
              · exact Option.noConfusion h


/-- A leading whitespace character is dropped by `trim_start`. -/
theorem trimStart_cons_ws {c : Char} (s : Str) (h : isWsChar c = true) :
    trimStart (c :: s) = trimStart s := by
  simp [trimStart, List.dropWhile_cons, h]

/-- A leading non-whitespace character stops `trim_start`. -/
theorem trimStart_cons_not_ws {c : Char} (s : Str) (h : isWsChar c = false) :
    trimStart (c :: s) = c :: s := by
  simp [trimStart, List.dropWhile_cons, h]

/-- A two-digit rendering is untouched by `trim_start`. -/
theorem trimStart_pad2 {n : Nat} (rest : Str) (h : n ≤ 99) :
    trimStart (pad2 n ++ rest) = pad2 n ++ rest := by
  rw [show pad2 n ++ rest =
    digitChar (n / 10) :: (digitChar (n % 10) :: rest) from rfl]
  exact trimStart_cons_not_ws _ (not_isWsChar_digitChar (by omega))

/-- A four-digit rendering is untouched by `trim_start`. -/
theorem trimStart_pad4 (n : Nat) (rest : Str) :
    trimStart (pad4 n ++ rest) = pad4 n ++ rest := by
  rw [show pad4 n ++ rest = digitChar (n / 1000 % 10) ::
    (digitChar (n / 100 % 10) :: (digitChar (n / 10 % 10) ::
      (digitChar (n % 10) :: rest))) from rfl]
  exact trimStart_cons_not_ws _ (not_isWsChar_digitChar (by omega))

/-- The `%B` parser recognizes exactly a rendered full month name. -/
theorem matchMonth_display {m : Nat} (h1 : 1 ≤ m) (h2 : m ≤ 12) (rest : Str) :
    matchMonth (monthName m ++ ' ' :: rest) = some (m, ' ' :: rest) := by
  interval_cases m <;>
    simp [matchMonth, matchAltCI, matchNameCI, monthName, monthsLong,
      List.lookup, lowerStr, lowerChar, strL, List.isPrefixOf]

/-- Round trip of the start date-time: re-parsing a displayed wall-clock
time recovers it exactly, for the values the parser can produce
(calendar-valid, year in `[0, 10000)`). -/
theorem naiveParse_display {w : NaiveDT} (hvb : w.validB = true)
    (hy0 : 0 ≤ w.year) (hy4 : w.year < 10000) :
    naiveParseStartFmt (displayStartDT w) = some w := by
  obtain ⟨y, mo, d, hh, mi, se⟩ := w
  have hv := hvb
  simp only [NaiveDT.validB, Bool.and_eq_true, decide_eq_true_eq] at hv
  obtain ⟨⟨⟨⟨hy1, hy2⟩, ⟨hmo1, hmo2⟩⟩, ⟨hd1, hd2⟩⟩, ⟨⟨hh24, hmi60⟩, hse60⟩⟩ := hv
  simp only [NaiveDT.year] at hy0 hy4
  have hdim : daysInMonth y mo ≤ 31 := by
    unfold daysInMonth
    split
    · split <;> omega
    · split <;> omega
  have hd99 : d ≤ 99 := by omega
  have hI99 : (if hh % 12 = 0 then 12 else hh % 12) ≤ 99 := by
    split <;> omega
  unfold displayStartDT naiveParseStartFmt
  dsimp only
  simp only [List.append_assoc, List.cons_append]
  rw [matchMonth_display hmo1 hmo2]
  dsimp only
  rw [trimStart_cons_ws _ (by decide), trimStart_pad2 _ hd99,
    parseNumUpTo_pad2 _ hd99]
  dsimp only
  rw [if_pos rfl]
  rw [trimStart_cons_ws _ (by decide),
    show pad4Int y = pad4 y.toNat from by unfold pad4Int; rw [if_neg (by omega)],
    trimStart_pad4, parseNumUpTo_pad4 _ (by omega)]
  dsimp only
  rw [trimStart_cons_ws _ (by decide), trimStart_pad2 _ hI99,
    parseNumUpTo_pad2 _ hI99]
  dsimp only
  rw [if_pos rfl]
  rw [parseNumUpTo_pad2 _ (by omega : mi ≤ 99)]
  dsimp only
  rw [if_pos rfl]
  rw [parseNumUpTo_pad2 _ (by omega : se ≤ 99)]
  dsimp only
  by_cases hhh : hh < 12
  · rw [if_pos hhh]
    rw [show trimStart (' ' :: strL "AM") = strL "AM" from by decide]
    rw [show (strL "AM").take 2 = strL "AM" from by decide,
      show (strL "AM").drop 2 = ([] : Str) from by decide]
    rw [if_pos ⟨rfl, by split <;> omega, by split <;> omega, by omega, by omega⟩]
    rw [if_pos (show eqIgnoreAsciiCase (strL "AM") (strL "AM") = true from by decide)]
    have hhour : (if (if hh % 12 = 0 then 12 else hh % 12) = 12 then 0
        else (if hh % 12 = 0 then 12 else hh % 12)) = hh := by
      by_cases h0 : hh % 12 = 0
      · rw [if_pos h0, if_pos rfl]; omega
      · rw [if_neg h0, if_neg (by omega)]; omega
    rw [hhour, Int.toNat_of_nonneg hy0]
    rw [if_neg (by omega : ¬ hh = 99)]
    rw [if_pos hvb]
  · rw [if_neg hhh]
    rw [show trimStart (' ' :: strL "PM") = strL "PM" from by decide]
    rw [show (strL "PM").take 2 = strL "PM" from by decide,
      show (strL "PM").drop 2 = ([] : Str) from by decide]
    rw [if_pos ⟨rfl, by split <;> omega, by split <;> omega, by omega, by omega⟩]
    rw [if_neg (show ¬ eqIgnoreAsciiCase (strL "PM") (strL "AM") = true from by decide)]
    rw [if_pos (show eqIgnoreAsciiCase (strL "PM") (strL "PM") = true from by decide)]
    have hhour : (if (if hh % 12 = 0 then 12 else hh % 12) = 12 then 12
        else (if hh % 12 = 0 then 12 else hh % 12) + 12) = hh := by
      by_cases h0 : hh % 12 = 0
      · rw [if_pos h0, if_pos rfl]; omega
      · rw [if_neg h0, if_neg (by omega)]; omega
    rw [hhour, Int.toNat_of_nonneg hy0]
    rw [if_neg (by omega : ¬ hh = 99)]
    rw [if_pos hvb]


/-- `trim` through a leading whitespace character. -/
theorem trim_ws_cons {c : Char} {s : Str} (h : isWsChar c = true) :
    trim (c :: s) = trim s := by
  unfold trim
  rw [trimStart_cons_ws _ h]

/-- A string equal to its own `trim` is equal to its own `trim_start`. -/
theorem trimStart_eq_self_of_trim {v : Str} (h : trim v = v) :
    trimStart v = v := by
  have h1 : trimStart v <:+ v := List.dropWhile_suffix isWsChar
  have h2 : (trimEnd (trimStart v)).length ≤ (trimStart v).length :=
    (trimEnd_leading (trimStart v)).length_le
  have h3 : (trimStart v).length ≤ v.length := h1.length_le
  have h4 : (trim v).length = v.length := by rw [h]
  have h5 : (trim v).length = (trimEnd (trimStart v)).length := rfl
  exact h1.eq_of_length (by omega)

/-- A string equal to its own `trim` is equal to its own `trim_end`. -/
theorem trimEnd_eq_self_of_trim {v : Str} (h : trim v = v) :
    trimEnd v = v := by
  have hs := trimStart_eq_self_of_trim h
  unfold trim at h
  rw [hs] at h
  exact h

/-- `trim_end` through a trailing whitespace character. -/
theorem trimEnd_append_ws {c : Char} {s : Str} (h : isWsChar c = true) :
    trimEnd (s ++ [c]) = trimEnd s := by
  simp [trimEnd, List.dropWhile_cons, h]

/-- A trailing non-whitespace character stops `trim_end`. -/
theorem trimEnd_append_not_ws {c : Char} (s : Str) (h : isWsChar c = false) :
    trimEnd (s ++ [c]) = s ++ [c] := by
  simp [trimEnd, List.dropWhile_cons, h]

/-- Appending one whitespace character to a trimmed string trims back to
it. -/
theorem trim_append_ws {v : Str} {c : Char} (hc : isWsChar c = true)
    (h : trim v = v) : trim (v ++ [c]) = v := by
  have hs := trimStart_eq_self_of_trim h
  have he := trimEnd_eq_self_of_trim h
  cases v with
  | nil =>
    rw [List.nil_append]
    unfold trim
    rw [trimStart_cons_ws _ hc]
    rfl
  | cons d t =>
    have hd : isWsChar d = false := trimStart_head_not_ws hs
    rw [List.cons_append]
    unfold trim
    rw [trimStart_cons_not_ws _ hd]
    rw [show d :: (t ++ [c]) = (d :: t) ++ [c] from rfl]
    rw [trimEnd_append_ws hc]
    exact he

/-- Everything in `trim s` is in `s`. -/
theorem trim_subset (s : Str) : trim s ⊆ s := by
  intro c hc
  have h1 : c ∈ trimStart s := (trimEnd_leading (trimStart s)).subset hc
  exact (List.dropWhile_suffix isWsChar).subset h1

/-- A nonempty string fixed by `trim_end` ends in a non-whitespace
character. -/
theorem getLast_not_ws_of_trimEnd {v : Str} (hv : trimEnd v = v)
    (hne : v ≠ []) :
    ∃ d, v.getLast? = some d ∧ isWsChar d = false := by
  cases hr : v.reverse with
  | nil => exact absurd (by simpa using congrArg List.reverse hr) hne
  | cons d t =>
    have hfix : v.reverse.dropWhile isWsChar = v.reverse := by
      have := congrArg List.reverse hv
      unfold trimEnd at this
      rwa [List.reverse_reverse] at this
    rw [hr] at hfix
    refine ⟨d, ?_, ?_⟩
    · rw [← List.head?_reverse, hr]
      rfl
    · by_cases hws : isWsChar d
      · simp only [List.dropWhile_cons, hws, if_pos] at hfix
        have hlen := congrArg List.length hfix
        have hle := length_dropWhile_le isWsChar t
        simp at hlen
        omega
      · simpa using hws

/-- `str::lines` strips a trailing CR; a string not ending in CR is left
alone. -/
theorem stripTrailingCR_eq_self {s : Str} (h : ∀ t, s ≠ t ++ ['\r']) :
    stripTrailingCR s = s := by
  unfold stripTrailingCR
  split
  · rename_i rest heq
    have hs : s = rest.reverse ++ ['\r'] := by
      rw [← List.reverse_reverse s, heq]
      simp
    exact absurd hs (h rest.reverse)
  · rfl

/-- Lines of the display template: a literal ending in a non-CR character
followed by a `trim_end`-fixed value are untouched by the per-line CR
strip. -/
theorem stripTrailingCR_line {a v : Str} {c : Char} (hc : ¬ c = '\r')
    (hv : trimEnd v = v) :
    stripTrailingCR ((a ++ [c]) ++ v) = (a ++ [c]) ++ v := by
  apply stripTrailingCR_eq_self
  intro t ht
  by_cases hne : v = []
  · subst hne
    rw [List.append_nil] at ht
    have h1 : (a ++ [c]).getLast? = some c := List.getLast?_concat _
    rw [ht, List.getLast?_concat] at h1
    exact hc (by simpa using h1.symm)
  · obtain ⟨d, hd1, hd2⟩ := getLast_not_ws_of_trimEnd hv hne
    have h1 : ((a ++ [c]) ++ v).getLast? = some d := by
      rw [List.getLast?_append_of_ne_nil _ hne]
      exact hd1
    rw [ht, List.getLast?_concat] at h1
    have hd : d = '\r' := by simpa using h1.symm
    rw [hd] at hd2
    simp [isWsChar] at hd2

/-- `rustLinesRaw` never yields the empty list of pieces. -/
theorem rustLinesRaw_ne_nil (s : Str) : rustLinesRaw s ≠ [] := by
  induction s with
  | nil => simp [rustLinesRaw]
  | cons c t ih =>
    unfold rustLinesRaw
    split
    · simp
    · cases h : rustLinesRaw t <;> simp

/-- `str::lines` never yields a piece containing a raw newline. -/
theorem rustLinesRaw_no_newline (s : Str) :
    ∀ l ∈ rustLinesRaw s, '\n' ∉ l := by
  induction s with
  | nil =>
    intro l hl
    simp [rustLinesRaw] at hl
    subst hl
    simp
  | cons c t ih =>
    intro l hl
    unfold rustLinesRaw at hl
    by_cases hc : c = '\n'
    · rw [if_pos (by simp [hc])] at hl
      rcases List.mem_cons.mp hl with rfl | hl'
      · simp
      · exact ih l hl'
    · rw [if_neg (by simp [hc])] at hl
      cases hgen : rustLinesRaw t with
      | nil => exact absurd hgen (rustLinesRaw_ne_nil t)
      | cons p ps =>
        rw [hgen] at hl
        rcases List.mem_cons.mp hl with rfl | hl'
        · intro hmem
          rcases List.mem_cons.mp hmem with hco | hmem'
          · exact hc hco.symm
          · exact ih p (by rw [hgen]; exact List.mem_cons_self p ps) hmem'
        · exact ih l (by rw [hgen]; exact List.mem_cons_of_mem p hl')

/-- The CR strip only removes characters. -/
theorem stripTrailingCR_subset (s : Str) : stripTrailingCR s ⊆ s := by
  unfold stripTrailingCR
  split
  · rename_i rest heq
    intro c hc
    have h1 : c ∈ rest := by simpa using hc
    have h2 : c ∈ s.reverse := by
      rw [heq]
      exact List.mem_cons_of_mem _ h1
    simpa using h2
  · exact fun c hc => hc

/-- `rustLinesRaw` on a newline-free prefix followed by a newline. -/
theorem rustLinesRaw_append_newline {a : Str} (b : Str) (ha : '\n' ∉ a) :
    rustLinesRaw (a ++ '\n' :: b) = a :: rustLinesRaw b := by
  induction a with
  | nil => simp [rustLinesRaw]
  | cons c t ih =>
    have hc : c ≠ '\n' := by
      intro h
      exact ha (by simp [h])
    have ht : '\n' ∉ t := fun h => ha (List.mem_cons_of_mem _ h)
    rw [List.cons_append]
    conv_lhs => unfold rustLinesRaw
    rw [if_neg (by simp [hc]), ih ht]

/-- Peeling one line off `str::lines`: a newline-free prefix becomes the
first line (modulo CR strip). -/
theorem rustLines_append_newline {a : Str} (b : Str) (ha : '\n' ∉ a) :
    rustLines (a ++ '\n' :: b) = stripTrailingCR a :: rustLines b := by
  unfold rustLines
  rw [rustLinesRaw_append_newline b ha]
  cases hr : (rustLinesRaw b).reverse with
  | nil =>
    have hb : rustLinesRaw b = [] := by simpa using congrArg List.reverse hr
    exact absurd hb (rustLinesRaw_ne_nil b)
  | cons hd tl =>
    rw [show (a :: rustLinesRaw b).reverse = hd :: (tl ++ [a]) from by
      rw [List.reverse_cons, hr]
      rfl]
    cases hd with
    | nil =>
      dsimp only
      simp
    | cons c hd' =>
      dsimp only
      simp

/-- Every line of `str::lines` is the CR strip of a raw piece. -/
theorem rustLines_sub (s : Str) {l : Str} (hl : l ∈ rustLines s) :
    ∃ l₀ ∈ rustLinesRaw s, l = stripTrailingCR l₀ := by
  unfold rustLines at hl
  cases hr : (rustLinesRaw s).reverse with
  | nil =>
    rw [hr] at hl
    simp at hl
  | cons hd tl =>
    rw [hr] at hl
    cases hd with
    | nil =>
      dsimp only at hl
      rcases List.mem_map.mp hl with ⟨lz, hm, rfl⟩
      refine ⟨lz, ?_, rfl⟩
      have hs : rustLinesRaw s = tl.reverse ++ [[]] := by
        have := congrArg List.reverse hr
        simpa using this
      rw [hs]
      exact List.mem_append_left _ hm
    | cons c hd' =>
      dsimp only at hl
      rcases List.mem_map.mp hl with ⟨lz, hm, rfl⟩
      refine ⟨lz, ?_, rfl⟩
      have hs : rustLinesRaw s = tl.reverse ++ [c :: hd'] := by
        have := congrArg List.reverse hr
        simpa using this
      rw [hs]
      have hm' : lz ∈ tl ∨ lz = c :: hd' := by simpa using hm
      simp only [List.mem_append, List.mem_reverse, List.mem_singleton]
      tauto

/-- No line of `str::lines` contains a newline. -/
theorem rustLines_no_newline (s : Str) : ∀ l ∈ rustLines s, '\n' ∉ l := by
  intro l hl hn
  obtain ⟨lz, hm, rfl⟩ := rustLines_sub s hl
  exact rustLinesRaw_no_newline s lz hm (stripTrailingCR_subset lz hn)


/-- A rendered month name resists `trim_start` whatever follows it. -/
theorem trimStart_monthName {m : Nat} (h1 : 1 ≤ m) (h2 : m ≤ 12)
    (rest : Str) :
    trimStart (monthName m ++ rest) = monthName m ++ rest := by
  interval_cases m <;>
    simp [monthName, monthsLong, List.lookup, trimStart, List.dropWhile_cons,
      isWsChar, strL]

/-- The displayed start date-time carries no surrounding whitespace. -/
theorem trim_displayStartDT {w : NaiveDT} (h1 : 1 ≤ w.month)
    (h2 : w.month ≤ 12) :
    trim (displayStartDT w) = displayStartDT w := by
  have hstart : trimStart (displayStartDT w) = displayStartDT w := by
    unfold displayStartDT
    simp only [List.append_assoc]
    exact trimStart_monthName h1 h2 _
  unfold trim
  rw [hstart]
  unfold displayStartDT
  by_cases hh : w.hour < 12
  · rw [if_pos hh]
    rw [show (' ' :: strL "AM" : Str) = [' ', 'A'] ++ ['M'] from rfl,
      ← List.append_assoc]
    exact trimEnd_append_not_ws _ (by decide)
  · rw [if_neg hh]
    rw [show (' ' :: strL "PM" : Str) = [' ', 'P'] ++ ['M'] from rfl,
      ← List.append_assoc]
    exact trimEnd_append_not_ws _ (by decide)

/-- A digit character is not a newline. -/
theorem digitChar_ne_newline {k : Nat} (h : k ≤ 9) : digitChar k ≠ '\n' := by
  interval_cases k <;> decide

/-- Two-digit renderings contain no newline. -/
theorem pad2_no_newline {n : Nat} (h : n ≤ 99) : '\n' ∉ pad2 n := by
  intro hm
  rcases (by simpa [pad2] using hm :
      '\n' = digitChar (n / 10) ∨ '\n' = digitChar (n % 10)) with hc | hc
  · exact digitChar_ne_newline (by omega) hc.symm
  · exact digitChar_ne_newline (by omega) hc.symm

/-- Four-digit renderings contain no newline. -/
theorem pad4_no_newline (n : Nat) : '\n' ∉ pad4 n := by
  intro hm
  rcases (by simpa [pad4] using hm :
      '\n' = digitChar (n / 1000 % 10) ∨ '\n' = digitChar (n / 100 % 10) ∨
      '\n' = digitChar (n / 10 % 10) ∨ '\n' = digitChar (n % 10)) with
    hc | hc | hc | hc <;>
    exact digitChar_ne_newline (by omega) hc.symm

/-- Month names contain no newline. -/
theorem monthName_no_newline {m : Nat} (h1 : 1 ≤ m) (h2 : m ≤ 12) :
    '\n' ∉ monthName m := by
  interval_cases m <;> decide

/-- A calendar-valid wall time has a month between 1 and 12. -/
theorem validB_month {w : NaiveDT} (h : w.validB = true) :
    1 ≤ w.month ∧ w.month ≤ 12 := by
  simp only [NaiveDT.validB, Bool.and_eq_true, decide_eq_true_eq] at h
  tauto

/-- The displayed start date-time contains no newline. -/
theorem displayStartDT_no_newline {w : NaiveDT} (hvb : w.validB = true)
    (hy0 : 0 ≤ w.year) : '\n' ∉ displayStartDT w := by
  obtain ⟨y, mo, d, hh, mi, se⟩ := w
  simp only [NaiveDT.validB, Bool.and_eq_true, decide_eq_true_eq] at hvb
  obtain ⟨⟨⟨⟨hy1, hy2⟩, ⟨hmo1, hmo2⟩⟩, ⟨hd1, hd2⟩⟩, ⟨⟨hh24, hmi60⟩, hse60⟩⟩ :=
    hvb
  simp only [NaiveDT.year] at hy0
  have hdim : daysInMonth y mo ≤ 31 := by
    unfold daysInMonth
    split
    · split <;> omega
    · split <;> omega
  have hmn := monthName_no_newline hmo1 hmo2
  have hp2d := pad2_no_newline (show d ≤ 99 by omega)
  have hp2I := pad2_no_newline
    (show (if hh % 12 = 0 then 12 else hh % 12) ≤ 99 by split <;> omega)
  have hp2mi := pad2_no_newline (show mi ≤ 99 by omega)
  have hp2se := pad2_no_newline (show se ≤ 99 by omega)
  have hp4 := pad4_no_newline y.toNat
  have hAMPM : '\n' ∉ (if hh < 12 then strL "AM" else strL "PM") := by
    split <;> decide
  unfold displayStartDT
  dsimp only
  rw [show pad4Int y = pad4 y.toNat from by
    unfold pad4Int
    rw [if_neg (by omega)]]
  intro hmem
  simp only [List.mem_append, List.mem_cons] at hmem
  tauto

/-- The value extracted by a keyed header line is trimmed. -/
theorem keyVal_val_trim {l k v : Str} (h : keyVal l = some (k, v)) :
    trim v = v := by
  unfold keyVal at h
  dsimp only at h
  split at h
  · cases h
  · cases hc : findChar ':' (trimStart l) with
    | none => rw [hc] at h; cases h
    | some idx =>
      rw [hc] at h
      simp only [Option.some.injEq, Prod.mk.injEq] at h
      obtain ⟨hk, hv⟩ := h
      rw [← hv]
      exact trim_idem _

/-- The value extracted by a keyed header line only uses the line's
characters. -/
theorem keyVal_val_subset {l k v : Str} (h : keyVal l = some (k, v)) :
    v ⊆ l := by
  unfold keyVal at h
  dsimp only at h
  split at h
  · cases h
  · cases hc : findChar ':' (trimStart l) with
    | none => rw [hc] at h; cases h
    | some idx =>
      rw [hc] at h
      simp only [Option.some.injEq, Prod.mk.injEq] at h
      obtain ⟨hk, hv⟩ := h
      rw [← hv]
      intro c hcm
      exact (List.dropWhile_suffix isWsChar).subset
        (List.drop_subset _ _ (List.drop_subset _ _ ((trim_subset _) hcm)))

/-- Inversion of `firstVal`: a found value comes from some line carrying
its key. -/
theorem firstVal_inv {lns : List Str} {key v : Str}
    (h : firstVal lns key = some v) :
    ∃ l ∈ lns, keyVal l = some (key, v) := by
  unfold firstVal at h
  cases hf : (lns.filterMap keyVal).find? (fun kv => kv.1 == key) with
  | none => rw [hf] at h; cases h
  | some kv =>
    rw [hf] at h
    obtain ⟨kq, vq⟩ := kv
    simp only [Option.map_some', Option.some.injEq] at h
    have hmem := List.mem_of_find?_eq_some hf
    have hpred := List.find?_some hf
    have hk : kq = key := by simpa using hpred
    subst hk
    rw [← h]
    rcases List.mem_filterMap.mp hmem with ⟨l, hl, hkv⟩
    exact ⟨l, hl, hkv⟩

/-- A value found among header lines is trimmed. -/
theorem firstVal_trim {lns : List Str} {key v : Str}
    (h : firstVal lns key = some v) : trim v = v := by
  obtain ⟨l, _, hkv⟩ := firstVal_inv h
  exact keyVal_val_trim hkv

/-- A value found among the lines of a string carries no newline. -/
theorem firstVal_no_newline {s : Str} {key v : Str}
    (h : firstVal (rustLines s) key = some v) : '\n' ∉ v := by
  obtain ⟨l, hl, hkv⟩ := firstVal_inv h
  intro hn
  exact rustLines_no_newline s l hl (keyVal_val_subset hkv hn)

/-- Inversion of a successful `RobocopyStartDateTime::from_str`: the naive
parse of the trimmed input succeeds with the stored wall time, which the
timezone does not classify as non-existent. -/
theorem startDateTimeFromStr_ok {tz : Tz} {s : Str} {w : NaiveDT}
    (h : startDateTimeFromStr tz s = .ok w) :
    naiveParseStartFmt (trim s) = some w ∧ tz w ≠ .nonexistent := by
  unfold startDateTimeFromStr at h
  cases hn : naiveParseStartFmt (trim s) with
  | none => rw [hn] at h; cases h
  | some wq =>
    rw [hn] at h
    dsimp only at h
    cases hk : tz wq with
    | single =>
      rw [hk] at h
      simp only [Except.ok.injEq] at h
      subst h
      refine ⟨rfl, ?_⟩
      rw [hk]
      intro hcon
      cases hcon
    | ambiguous =>
      rw [hk] at h
      simp only [Except.ok.injEq] at h
      subst h
      refine ⟨rfl, ?_⟩
      rw [hk]
      intro hcon
      cases hcon
    | nonexistent => rw [hk] at h; cases h

/-- The Started template line splits into the lower-cased key `started`
and the trimmed value. -/
theorem keyVal_started_line (v : Str) :
    keyVal (strL "  Started : " ++ v) = some (strL "started", trim v) := by
  simp [keyVal, strL, trimStart, findChar, isWsChar, trim, trimEnd, lowerStr,
    lowerChar, List.isPrefixOf, List.dropWhile]

/-- The Source template line splits into `source` and the trimmed value. -/
theorem keyVal_source_line (v : Str) :
    keyVal (strL "   Source : " ++ v) = some (strL "source", trim v) := by
  simp [keyVal, strL, trimStart, findChar, isWsChar, trim, trimEnd, lowerStr,
    lowerChar, List.isPrefixOf, List.dropWhile]

/-- The Dest template line splits into `dest` and the trimmed value. -/
theorem keyVal_dest_line (v : Str) :
    keyVal (strL "     Dest : " ++ v) = some (strL "dest", trim v) := by
  simp [keyVal, strL, trimStart, findChar, isWsChar, trim, trimEnd, lowerStr,
    lowerChar, List.isPrefixOf, List.dropWhile]

/-- The Files template line splits into `files` and the trimmed value. -/
theorem keyVal_files_line (v : Str) :
    keyVal (strL "    Files : " ++ v) = some (strL "files", trim v) := by
  simp [keyVal, strL, trimStart, findChar, isWsChar, trim, trimEnd, lowerStr,
    lowerChar, List.isPrefixOf, List.dropWhile]

/-- The Options template line splits into `options` and the trimmed
value. -/
theorem keyVal_options_line (v : Str) :
    keyVal (strL "  Options : " ++ v) = some (strL "options", trim v) := by
  simp [keyVal, strL, trimStart, findChar, isWsChar, trim, trimEnd, lowerStr,
    lowerChar, List.isPrefixOf, List.dropWhile]


set_option maxRecDepth 10000 in
/-- The lines of a displayed header: the banner block, the five field
lines and the separators, provided the field values are newline-free and
`trim_end`-fixed (as parsed values are). -/
theorem displayHeader_lines (h : RobocopyHeader)
    (hdispE : trimEnd (displayStartDT h.started) = displayStartDT h.started)
    (hdispN : '\n' ∉ displayStartDT h.started)
    (hsrcE : trimEnd h.source = h.source) (hsrcN : '\n' ∉ h.source)
    (hdstE : trimEnd h.dest = h.dest) (hdstN : '\n' ∉ h.dest)
    (hflsE : trimEnd h.files = h.files) (hflsN : '\n' ∉ h.files)
    (hoptN : '\n' ∉ h.options) :
    rustLines (displayHeader h) =
    [strL "-------------------------------------------------------------------------------",
     strL "   ROBOCOPY     ::     Robust File Copy for Windows                              ",
     strL "-------------------------------------------------------------------------------", [],
     strL "  Started : " ++ displayStartDT h.started,
     strL "   Source : " ++ h.source,
     strL "     Dest : " ++ h.dest, [],
     strL "    Files : " ++ h.files,
     strL "\t    ",
     strL "  Options : " ++ (h.options ++ [' ']), [],
     strL "------------------------------------------------------------------------------"] := by
  have hnl5 : '\n' ∉ strL "  Started : " ++ displayStartDT h.started := by
    intro hm
    rcases List.mem_append.mp hm with hm | hm
    · exact (by decide : '\n' ∉ strL "  Started : ") hm
    · exact hdispN hm
  have hnl6 : '\n' ∉ strL "   Source : " ++ h.source := by
    intro hm
    rcases List.mem_append.mp hm with hm | hm
    · exact (by decide : '\n' ∉ strL "   Source : ") hm
    · exact hsrcN hm
  have hnl7 : '\n' ∉ strL "     Dest : " ++ h.dest := by
    intro hm
    rcases List.mem_append.mp hm with hm | hm
    · exact (by decide : '\n' ∉ strL "     Dest : ") hm
    · exact hdstN hm
  have hnl9 : '\n' ∉ strL "    Files : " ++ h.files := by
    intro hm
    rcases List.mem_append.mp hm with hm | hm
    · exact (by decide : '\n' ∉ strL "    Files : ") hm
    · exact hflsN hm
  have hnl11 : '\n' ∉ strL "  Options : " ++ (h.options ++ [' ']) := by
    intro hm
    rcases List.mem_append.mp hm with hm | hm
    · exact (by decide : '\n' ∉ strL "  Options : ") hm
    · rcases List.mem_append.mp hm with hm | hm
      · exact hoptN hm
      · exact (by decide : '\n' ∉ ([' '] : Str)) hm
  rw [show displayHeader h =
    strL "-------------------------------------------------------------------------------" ++ '\n' ::
      (strL "   ROBOCOPY     ::     Robust File Copy for Windows                              " ++ '\n' ::
      (strL "-------------------------------------------------------------------------------" ++ '\n' ::
      (([] : Str) ++ '\n' ::
      ((strL "  Started : " ++ displayStartDT h.started) ++ '\n' ::
      ((strL "   Source : " ++ h.source) ++ '\n' ::
      ((strL "     Dest : " ++ h.dest) ++ '\n' ::
      (([] : Str) ++ '\n' ::
      ((strL "    Files : " ++ h.files) ++ '\n' ::
      (strL "\t    " ++ '\n' ::
      ((strL "  Options : " ++ (h.options ++ [' '])) ++ '\n' ::
      (([] : Str) ++ '\n' ::
      strL "------------------------------------------------------------------------------"))))))))))) from by
      unfold displayHeader
      simp only [List.append_assoc, List.cons_append, List.nil_append]
      rfl]
  rw [rustLines_append_newline _ (by decide),
    rustLines_append_newline _ (by decide),
    rustLines_append_newline _ (by decide),
    rustLines_append_newline _ (by decide),
    rustLines_append_newline _ hnl5,
    rustLines_append_newline _ hnl6,
    rustLines_append_newline _ hnl7,
    rustLines_append_newline _ (by decide),
    rustLines_append_newline _ hnl9,
    rustLines_append_newline _ (by decide),
    rustLines_append_newline _ hnl11,
    rustLines_append_newline _ (by decide)]
  rw [show rustLines (strL "------------------------------------------------------------------------------") = [strL "------------------------------------------------------------------------------"] from by decide]
  rw [show stripTrailingCR (strL "-------------------------------------------------------------------------------") = strL "-------------------------------------------------------------------------------" from by decide,
    show stripTrailingCR (strL "   ROBOCOPY     ::     Robust File Copy for Windows                              ") = strL "   ROBOCOPY     ::     Robust File Copy for Windows                              " from by decide,
    show stripTrailingCR ([] : Str) = ([] : Str) from by decide,
    show stripTrailingCR (strL "\t    ") = strL "\t    " from by decide]
  rw [show stripTrailingCR (strL "  Started : " ++ displayStartDT h.started) =
      strL "  Started : " ++ displayStartDT h.started from by
    rw [show strL "  Started : " ++ displayStartDT h.started =
      (strL "  Started :" ++ [' ']) ++ displayStartDT h.started from rfl]
    exact stripTrailingCR_line (by decide) hdispE]
  rw [show stripTrailingCR (strL "   Source : " ++ h.source) =
      strL "   Source : " ++ h.source from by
    rw [show strL "   Source : " ++ h.source =
      (strL "   Source :" ++ [' ']) ++ h.source from rfl]
    exact stripTrailingCR_line (by decide) hsrcE]
  rw [show stripTrailingCR (strL "     Dest : " ++ h.dest) =
      strL "     Dest : " ++ h.dest from by
    rw [show strL "     Dest : " ++ h.dest =
      (strL "     Dest :" ++ [' ']) ++ h.dest from rfl]
    exact stripTrailingCR_line (by decide) hdstE]
  rw [show stripTrailingCR (strL "    Files : " ++ h.files) =
      strL "    Files : " ++ h.files from by
    rw [show strL "    Files : " ++ h.files =
      (strL "    Files :" ++ [' ']) ++ h.files from rfl]
    exact stripTrailingCR_line (by decide) hflsE]
  rw [show stripTrailingCR (strL "  Options : " ++ (h.options ++ [' '])) =
      strL "  Options : " ++ (h.options ++ [' ']) from by
    rw [show strL "  Options : " ++ (h.options ++ [' ']) =
      ((strL "  Options : " ++ h.options) ++ [' ']) ++ ([] : Str) from by
        simp]
    exact stripTrailingCR_line (by decide) rfl]


/-- Claim C8: for every Header value obtained by successfully parsing a
header block, formatting it back to text with the Display template and
re-parsing the formatted text succeeds and yields an equal Header.  The
proof uses the parse characterization (`c6_header_parse_iff`): parsed
field values are trimmed and newline-free, so each reappears verbatim as
the first occurrence of its key in the displayed block, and the displayed
Started value re-parses to the stored wall time
(`naiveParse_display`), which the unchanged timezone still accepts. -/
theorem c8_header_roundtrip (tz : Tz) (s : Str) (h : RobocopyHeader)
    (hp : headerFromStr tz s = .ok h) :
    headerFromStr tz (displayHeader h) = .ok h := by
  rw [c6_header_parse_iff] at hp
  obtain ⟨⟨vs, hvs, hst⟩, hsrc, hdst, hfls, vo, hvo, hopt⟩ := hp
  have hsrcT : trim h.source = h.source := firstVal_trim hsrc
  have hdstT : trim h.dest = h.dest := firstVal_trim hdst
  have hflsT : trim h.files = h.files := firstVal_trim hfls
  have hoptT : trim h.options = h.options := by rw [hopt, trim_idem]
  have hsrcN : '\n' ∉ h.source := firstVal_no_newline hsrc
  have hdstN : '\n' ∉ h.dest := firstVal_no_newline hdst
  have hflsN : '\n' ∉ h.files := firstVal_no_newline hfls
  have hvoN : '\n' ∉ vo := firstVal_no_newline hvo
  have hoptN : '\n' ∉ h.options := by
    rw [hopt]
    intro hm
    exact hvoN (trim_subset vo hm)
  obtain ⟨hnp, htz⟩ := startDateTimeFromStr_ok hst
  obtain ⟨hvb, hy0, hy4⟩ := naiveParseStartFmt_ok_props hnp
  obtain ⟨hmo1, hmo2⟩ := validB_month hvb
  have hdispT : trim (displayStartDT h.started) = displayStartDT h.started :=
    trim_displayStartDT hmo1 hmo2
  have hdispN : '\n' ∉ displayStartDT h.started :=
    displayStartDT_no_newline hvb hy0
  have hlines := displayHeader_lines h (trimEnd_eq_self_of_trim hdispT)
    hdispN (trimEnd_eq_self_of_trim hsrcT) hsrcN
    (trimEnd_eq_self_of_trim hdstT) hdstN (trimEnd_eq_self_of_trim hflsT)
    hflsN hoptN
  rw [c6_header_parse_iff]
  refine ⟨⟨displayStartDT h.started, ?_, ?_⟩, ?_, ?_, ?_, h.options, ?_, ?_⟩
  · rw [hlines,
      firstVal_cons_none _ _ (by decide), firstVal_cons_none _ _ (by decide),
      firstVal_cons_none _ _ (by decide), firstVal_cons_none _ _ (by decide),
      firstVal_cons_some_eq _ (keyVal_started_line _), hdispT]
  · unfold startDateTimeFromStr
    rw [hdispT, naiveParse_display hvb hy0 hy4]
    dsimp only
    cases hk : tz h.started with
    | single => rfl
    | ambiguous => rfl
    | nonexistent => exact absurd hk htz
  · rw [hlines,
      firstVal_cons_none _ _ (by decide), firstVal_cons_none _ _ (by decide),
      firstVal_cons_none _ _ (by decide), firstVal_cons_none _ _ (by decide),
      firstVal_cons_some_ne _ _ (keyVal_started_line _) (by decide),
      firstVal_cons_some_eq _ (keyVal_source_line _), hsrcT]
  · rw [hlines,
      firstVal_cons_none _ _ (by decide), firstVal_cons_none _ _ (by decide),
      firstVal_cons_none _ _ (by decide), firstVal_cons_none _ _ (by decide),
      firstVal_cons_some_ne _ _ (keyVal_started_line _) (by decide),
      firstVal_cons_some_ne _ _ (keyVal_source_line _) (by decide),
      firstVal_cons_some_eq _ (keyVal_dest_line _), hdstT]
  · rw [hlines,
      firstVal_cons_none _ _ (by decide), firstVal_cons_none _ _ (by decide),
      firstVal_cons_none _ _ (by decide), firstVal_cons_none _ _ (by decide),
      firstVal_cons_some_ne _ _ (keyVal_started_line _) (by decide),
      firstVal_cons_some_ne _ _ (keyVal_source_line _) (by decide),
      firstVal_cons_some_ne _ _ (keyVal_dest_line _) (by decide),
      firstVal_cons_none _ _ (by decide),
      firstVal_cons_some_eq _ (keyVal_files_line _), hflsT]
  · rw [hlines,
      firstVal_cons_none _ _ (by decide), firstVal_cons_none _ _ (by decide),
      firstVal_cons_none _ _ (by decide), firstVal_cons_none _ _ (by decide),
      firstVal_cons_some_ne _ _ (keyVal_started_line _) (by decide),
      firstVal_cons_some_ne _ _ (keyVal_source_line _) (by decide),
      firstVal_cons_some_ne _ _ (keyVal_dest_line _) (by decide),
      firstVal_cons_none _ _ (by decide),
      firstVal_cons_some_ne _ _ (keyVal_files_line _) (by decide),
      firstVal_cons_none _ _ (by decide),
      firstVal_cons_some_eq _ (keyVal_options_line _),
      trim_append_ws (by decide) hoptT]
  · exact hoptT.symm

/-- Witness for C8 at a concrete header block. -/
theorem c8_header_roundtrip_witness :
    headerFromStr tzAllSingle
      (strL "  Started : August 27, 2025 10:19:37 PM\n   Source : J:\n     Dest : K:\n    Files : *.*\n  Options : *.* /TEE\n") =
      .ok ⟨⟨2025, 8, 27, 22, 19, 37⟩, strL "J:", strL "K:", strL "*.*",
        strL "*.* /TEE"⟩ ∧
    headerFromStr tzAllSingle
      (displayHeader ⟨⟨2025, 8, 27, 22, 19, 37⟩, strL "J:", strL "K:",
        strL "*.*", strL "*.* /TEE"⟩) =
      .ok ⟨⟨2025, 8, 27, 22, 19, 37⟩, strL "J:", strL "K:", strL "*.*",
        strL "*.* /TEE"⟩ :=
  ⟨by decide,
   c8_header_roundtrip tzAllSingle
     (strL "  Started : August 27, 2025 10:19:37 PM\n   Source : J:\n     Dest : K:\n    Files : *.*\n  Options : *.* /TEE\n")
     ⟨⟨2025, 8, 27, 22, 19, 37⟩, strL "J:", strL "K:", strL "*.*",
       strL "*.* /TEE"⟩ (by decide)⟩


/-! ### Claim C1: chunk-size independence of the streaming parser -/

/-- `trim` never lengthens a string. -/
theorem trim_length_le (s : Str) : (trim s).length ≤ s.length := by
  have h1 : (trimEnd (trimStart s)).length ≤ (trimStart s).length :=
    (trimEnd_leading (trimStart s)).length_le
  have h2 : (trimStart s).length ≤ s.length := length_dropWhile_le isWsChar s
  exact le_trans h1 h2

/-- Terminator-freedom passes to subsets. -/
theorem noTerm_subset {l s : Str} (h : NoTerm l) (hs : s ⊆ l) : NoTerm s :=
  fun c hc => h c (hs hc)

/-- `trim` of a terminator-free string is terminator-free. -/
theorem noTerm_trim {l : Str} (h : NoTerm l) : NoTerm (trim l) :=
  noTerm_subset h (trim_subset l)

/-- Second-line check with no buffered terminator: push the candidate
back. -/
theorem accessSecondLine_noTerm {entry : RobocopyLogEntry} {t buf : Str}
    (h : findTerminator buf = none) :
    accessSecondLine entry t buf = (.needMoreData, none, t ++ '\n' :: buf) := by
  unfold accessSecondLine
  rw [h]

/-- Second-line check with a buffered terminator: the error is emitted and
appending more input only appends to the resulting buffer. -/
theorem accessSecondLine_term_append {entry : RobocopyLogEntry}
    {t buf : Str} {e2 : Nat} (y : Str)
    (h : findTerminator buf = some e2) :
    accessSecondLine entry t buf =
      (.logEntry entry, none, (accessSecondLine entry t buf).2.2) ∧
    accessSecondLine entry t (buf ++ y) =
      (.logEntry entry, none, (accessSecondLine entry t buf).2.2 ++ y) := by
  have hlt : e2 < buf.length := findTerminator_lt_length h
  have hf2 : findTerminator (buf ++ y) = some e2 := findTerminator_append_some y h
  have htake : (buf ++ y).take (e2 + 1) = buf.take (e2 + 1) :=
    List.take_append_of_le_length (by omega)
  have hdrop : (buf ++ y).drop (e2 + 1) = buf.drop (e2 + 1) ++ y :=
    List.drop_append_of_le_length (by omega)
  unfold accessSecondLine
  rw [h, hf2]
  dsimp only
  rw [htake, hdrop]
  split
  · exact ⟨rfl, rfl⟩
  · split
    · exact ⟨rfl, rfl⟩
    · refine ⟨rfl, ?_⟩
      dsimp only
      rw [List.append_assoc]

/-- One header-phase outcome: `NeedMoreData` keeps the buffer and phase
(with the scan offset still inside the buffer), an emission is a parsed
header that switches phase, resets the scan offset and strictly shrinks
the buffer. -/
theorem headerLoop_ok_props (tz : Tz) :
    ∀ (n : Nat) (c sp : Nat) (buf : Str) (hs : HeaderStep),
    buf.length - sp ≤ n →
    headerLoop tz c sp buf = .ok hs →
    (hs.adv = .needMoreData ∧ hs.buf = buf ∧ hs.phase = .readingHeader ∧
      (sp ≤ buf.length → hs.scanPos ≤ buf.length)) ∨
    (∃ hh, hs.adv = .header hh ∧ hs.phase = .readingEntries ∧
      hs.scanPos = 0 ∧ hs.buf.length < buf.length) := by
  intro n
  induction n with
  | zero =>
    intro c sp buf hs hb h
    have hd : buf.drop sp = [] := List.drop_eq_nil_of_le (by omega)
    unfold headerLoop at h
    rw [hd] at h
    cases h
    left
    exact ⟨rfl, rfl, rfl, fun h0 => h0⟩
  | succ n ih =>
    intro c sp buf hs hb h
    cases hn : findChar '\n' (buf.drop sp) with
    | none =>
      unfold headerLoop at h
      rw [hn] at h
      cases h
      left
      exact ⟨rfl, rfl, rfl, fun h0 => h0⟩
    | some rel =>
      have hrel := findChar_lt_length hn
      simp only [List.length_drop] at hrel
      unfold headerLoop at h
      rw [hn] at h
      dsimp only at h
      split at h
      · split at h
        · split at h
          · cases h
          · cases h
            right
            refine ⟨_, rfl, rfl, rfl, ?_⟩
            simp only [List.length_drop]
            omega
        · rcases ih _ _ _ _ (by omega) h with hnmd | hemit
          · left
            refine ⟨hnmd.1, hnmd.2.1, hnmd.2.2.1, fun _ => ?_⟩
            exact hnmd.2.2.2 (by omega)
          · right
            exact hemit
      · rcases ih _ _ _ _ (by omega) h with hnmd | hemit
        · left
          refine ⟨hnmd.1, hnmd.2.1, hnmd.2.2.1, fun _ => ?_⟩
          exact hnmd.2.2.2 (by omega)
        · right
          exact hemit


/-- Appending input to the buffer commutes with the header loop: errors
and emissions are stable (the new input rides along in the buffer), and a
`NeedMoreData` outcome only fast-forwards the scan bookkeeping. -/
theorem headerLoop_append (tz : Tz) (y : Str) :
    ∀ (n : Nat) (c sp : Nat) (buf : Str), buf.length - sp ≤ n →
    sp ≤ buf.length →
    (∀ m, headerLoop tz c sp buf = .error m →
      headerLoop tz c sp (buf ++ y) = .error m) ∧
    (∀ hs, headerLoop tz c sp buf = .ok hs →
      (hs.adv = .needMoreData →
        headerLoop tz c sp (buf ++ y) =
          headerLoop tz hs.dashCount hs.scanPos (buf ++ y)) ∧
      (hs.adv ≠ .needMoreData →
        headerLoop tz c sp (buf ++ y) =
          .ok ⟨hs.adv, hs.dashCount, hs.scanPos, hs.phase, hs.buf ++ y⟩)) := by
  intro n
  induction n with
  | zero =>
    intro c sp buf hb hsp
    have hd : buf.drop sp = [] := List.drop_eq_nil_of_le (by omega)
    constructor
    · intro m h
      unfold headerLoop at h
      rw [hd] at h
      cases h
    · intro hs h
      unfold headerLoop at h
      rw [hd] at h
      simp only [findChar, Except.ok.injEq] at h
      subst h
      constructor
      · intro _
        rfl
      · intro hne
        exact absurd rfl hne
  | succ n ih =>
    intro c sp buf hb hsp
    cases hn : findChar '\n' (buf.drop sp) with
    | none =>
      constructor
      · intro m h
        unfold headerLoop at h
        rw [hn] at h
        cases h
      · intro hs h
        unfold headerLoop at h
        rw [hn] at h
        simp only [Except.ok.injEq] at h
        subst h
        constructor
        · intro _
          rfl
        · intro hne
          exact absurd rfl hne
    | some rel =>
      have hrel := findChar_lt_length hn
      simp only [List.length_drop] at hrel
      have hdrop : (buf ++ y).drop sp = buf.drop sp ++ y :=
        List.drop_append_of_le_length hsp
      have hfy : findChar '\n' ((buf ++ y).drop sp) = some rel := by
        rw [hdrop]
        exact findChar_append_some y hn
      have hline : ((buf ++ y).drop sp).take (rel + 1) =
          (buf.drop sp).take (rel + 1) := by
        rw [hdrop]
        exact List.take_append_of_le_length (by simp; omega)
      by_cases hcond : trim (trimEndRN ((buf.drop sp).take (rel + 1))) ≠ [] ∧
          (trim (trimEndRN ((buf.drop sp).take (rel + 1)))).all
            (fun ch => ch == '-') = true
      · by_cases hthird : c + 1 = 3
        · -- third dash line: drain and parse the block
          cases hh : headerFromStr tz (buf.take (sp + rel + 1)) with
          | error m0 =>
            have hsrc : headerLoop tz c sp buf =
                .error ("Failed to parse robocopy header: " ++ m0) := by
              conv_lhs => unfold headerLoop
              rw [hn]
              dsimp only
              rw [if_pos hcond, if_pos hthird, hh]
            have hstep : headerLoop tz c sp (buf ++ y) =
                .error ("Failed to parse robocopy header: " ++ m0) := by
              conv_lhs => unfold headerLoop
              rw [hfy]
              dsimp only
              rw [hline, if_pos hcond, if_pos hthird]
              rw [show (buf ++ y).take (sp + rel + 1) =
                buf.take (sp + rel + 1) from
                List.take_append_of_le_length (by omega), hh]
            constructor
            · intro m h
              rw [hsrc] at h
              cases h
              exact hstep
            · intro hs h
              rw [hsrc] at h
              cases h
          | ok hdr =>
            have hsrc : headerLoop tz c sp buf =
                .ok ⟨.header hdr, c + 1, 0, .readingEntries,
                  buf.drop (sp + rel + 1)⟩ := by
              conv_lhs => unfold headerLoop
              rw [hn]
              dsimp only
              rw [if_pos hcond, if_pos hthird, hh]
            have hstep : headerLoop tz c sp (buf ++ y) =
                .ok ⟨.header hdr, c + 1, 0, .readingEntries,
                  buf.drop (sp + rel + 1) ++ y⟩ := by
              conv_lhs => unfold headerLoop
              rw [hfy]
              dsimp only
              rw [hline, if_pos hcond, if_pos hthird]
              rw [show (buf ++ y).take (sp + rel + 1) =
                buf.take (sp + rel + 1) from
                List.take_append_of_le_length (by omega), hh]
              dsimp only
              rw [show (buf ++ y).drop (sp + rel + 1) =
                buf.drop (sp + rel + 1) ++ y from
                List.drop_append_of_le_length (by omega)]
            constructor
            · intro m h
              rw [hsrc] at h
              cases h
            · intro hs h
              rw [hsrc] at h
              simp only [Except.ok.injEq] at h
              subst h
              constructor
              · intro hnmd
                cases hnmd
              · intro _
                exact hstep
        · -- a dash line before the third: recurse with one more dash
          have hsrc : headerLoop tz c sp buf =
              headerLoop tz (c + 1) (sp + rel + 1) buf := by
            conv_lhs => unfold headerLoop
            rw [hn]
            dsimp only
            rw [if_pos hcond, if_neg hthird]
          have hstep : headerLoop tz c sp (buf ++ y) =
              headerLoop tz (c + 1) (sp + rel + 1) (buf ++ y) := by
            conv_lhs => unfold headerLoop
            rw [hfy]
            dsimp only
            rw [hline, if_pos hcond, if_neg hthird]
          obtain ⟨ihE, ihO⟩ := ih (c + 1) (sp + rel + 1) buf (by omega)
            (by omega)
          constructor
          · intro m h
            rw [hsrc] at h
            rw [hstep]
            exact ihE m h
          · intro hs h
            rw [hsrc] at h
            obtain ⟨h1, h2⟩ := ihO hs h
            constructor
            · intro hnmd
              rw [hstep]
              exact h1 hnmd
            · intro hne
              rw [hstep]
              exact h2 hne
      · -- not a dash line: advance the scan offset and recurse
        have hsrc : headerLoop tz c sp buf =
            headerLoop tz c (sp + rel + 1) buf := by
          conv_lhs => unfold headerLoop
          rw [hn]
          dsimp only
          rw [if_neg hcond]
        have hstep : headerLoop tz c sp (buf ++ y) =
            headerLoop tz c (sp + rel + 1) (buf ++ y) := by
          conv_lhs => unfold headerLoop
          rw [hfy]
          dsimp only
          rw [hline, if_neg hcond]
        obtain ⟨ihE, ihO⟩ := ih c (sp + rel + 1) buf (by omega) (by omega)
        constructor
        · intro m h
          rw [hsrc] at h
          rw [hstep]
          exact ihE m h
        · intro hs h
          rw [hsrc] at h
          obtain ⟨h1, h2⟩ := ihO hs h
          constructor
          · intro hnmd
            rw [hstep]
            exact h1 hnmd
          · intro hne
            rw [hstep]
            exact h2 hne


/-- Appending input to the buffer commutes with the entry loop: errors and
emissions are stable with the new input riding along, and a
`NeedMoreData` outcome (which may have normalized the buffer) resumes
equivalently from the normalized buffer. -/
theorem entryLoop_append (tz : Tz) (y : Str) :
    ∀ (n : Nat) (p : Option PendingNewFile) (buf : Str), buf.length ≤ n →
    (∀ m, entryLoop tz p buf = .error m →
      entryLoop tz p (buf ++ y) = .error m) ∧
    (∀ a q b, entryLoop tz p buf = .ok (a, q, b) →
      (a = .needMoreData →
        entryLoop tz p (buf ++ y) = entryLoop tz q (b ++ y)) ∧
      (a ≠ .needMoreData →
        entryLoop tz p (buf ++ y) = .ok (a, q, b ++ y))) := by
  intro n
  induction n with
  | zero =>
    intro p buf hb
    have hbuf : buf = [] := List.length_eq_zero.mp (by omega)
    subst hbuf
    constructor
    · intro m h
      rw [@entryLoop_noTerm tz p [] rfl] at h
      cases h
    · intro a q b h
      rw [@entryLoop_noTerm tz p [] rfl] at h
      simp only [Except.ok.injEq, Prod.mk.injEq] at h
      obtain ⟨ha, hq, hb2⟩ := h
      subst ha
      subst hq
      subst hb2
      constructor
      · intro _
        rfl
      · intro hne
        exact absurd rfl hne
  | succ n ih =>
    intro p buf hb
    cases hf : findTerminator buf with
    | none =>
      constructor
      · intro m h
        rw [entryLoop_noTerm tz p hf] at h
        cases h
      · intro a q b h
        rw [entryLoop_noTerm tz p hf] at h
        simp only [Except.ok.injEq, Prod.mk.injEq] at h
        obtain ⟨ha, hq, hb2⟩ := h
        subst ha
        subst hq
        subst hb2
        constructor
        · intro _
          rfl
        · intro hne
          exact absurd rfl hne
    | some e =>
      obtain ⟨l, t, r, hbuf, hlen, hnt, htc⟩ := findTerminator_decomp hf
      subst hbuf
      have happ : (l ++ t :: r) ++ y = l ++ t :: (r ++ y) := by simp
      have hr : r.length ≤ n := by
        simp only [List.length_append, List.length_cons] at hb
        omega
      cases p with
      | some pend =>
        cases hpv : parsePercentageLine (trim l) with
        | some v =>
          have hne0 : trim l ≠ [] := by
            intro h0
            rw [h0, parsePercentageLine_nil] at hpv
            cases hpv
          have hsrc := entryLoop_pending_pct tz pend r hnt htc hne0 hpv
          have hstep := entryLoop_pending_pct tz pend (r ++ y) hnt htc hne0 hpv
          constructor
          · intro m h
            rw [hsrc] at h
            split at h <;> cases h
          · intro a q b h
            rw [hsrc] at h
            by_cases hv : v = 100
            · rw [if_pos hv] at h
              simp only [Except.ok.injEq, Prod.mk.injEq] at h
              obtain ⟨ha, hq, hb2⟩ := h
              subst ha
              subst hq
              subst hb2
              constructor
              · intro hnmd
                cases hnmd
              · intro _
                rw [happ, hstep, if_pos hv]
            · rw [if_neg hv] at h
              simp only [Except.ok.injEq, Prod.mk.injEq] at h
              obtain ⟨ha, hq, hb2⟩ := h
              subst ha
              subst hq
              subst hb2
              constructor
              · intro hnmd
                cases hnmd
              · intro _
                rw [happ, hstep, if_neg hv]
        | none =>
          cases hnf : isNewFileLine (trim l) with
          | true =>
            have hne0 : trim l ≠ [] := by
              intro h0
              rw [h0, isNewFileLine_nil] at hnf
              cases hnf
            have hsrc :=
              entryLoop_pending_supersede tz pend r hnt htc hne0 hpv hnf
            have hstep :=
              entryLoop_pending_supersede tz pend (r ++ y) hnt htc hne0 hpv hnf
            constructor
            · intro m h
              rw [hsrc] at h
              cases h
            · intro a q b h
              rw [hsrc] at h
              simp only [Except.ok.injEq, Prod.mk.injEq] at h
              obtain ⟨ha, hq, hb2⟩ := h
              subst ha
              subst hq
              subst hb2
              constructor
              · intro hnmd
                cases hnmd
              · intro _
                rw [happ, hstep,
                  show (trim l ++ '\n' :: r) ++ y = trim l ++ '\n' :: (r ++ y)
                    from by simp]
          | false =>
            have hsrc := entryLoop_pending_noise tz pend r hnt htc hpv hnf
            have hstep :=
              entryLoop_pending_noise tz pend (r ++ y) hnt htc hpv hnf
            obtain ⟨ihE, ihO⟩ := ih (some pend) r hr
            constructor
            · intro m h
              rw [hsrc] at h
              rw [happ, hstep]
              exact ihE m h
            · intro a q b h
              rw [hsrc] at h
              obtain ⟨h1, h2⟩ := ihO a q b h
              constructor
              · intro hnmd
                rw [happ, hstep]
                exact h1 hnmd
              · intro hne
                rw [happ, hstep]
                exact h2 hne
      | none =>
        by_cases hbl : trim l = []
        · have hsrc := entryLoop_none_blank tz r hnt htc hbl
          have hstep := entryLoop_none_blank tz (r ++ y) hnt htc hbl
          obtain ⟨ihE, ihO⟩ := ih none r hr
          constructor
          · intro m h
            rw [hsrc] at h
            rw [happ, hstep]
            exact ihE m h
          · intro a q b h
            rw [hsrc] at h
            obtain ⟨h1, h2⟩ := ihO a q b h
            constructor
            · intro hnmd
              rw [happ, hstep]
              exact h1 hnmd
            · intro hne
              rw [happ, hstep]
              exact h2 hne
        · cases hpa : parseAccessDeniedFirstLine tz (trim l) with
          | error m0 =>
            have hsrc := entryLoop_none_access_err tz r hnt htc hbl hpa
            have hstep :=
              entryLoop_none_access_err tz (r ++ y) hnt htc hbl hpa
            constructor
            · intro m h
              rw [hsrc] at h
              cases h
              rw [happ]
              exact hstep
            · intro a q b h
              rw [hsrc] at h
              cases h
          | ok oe =>
            cases oe with
            | some entry =>
              have hsrc := entryLoop_none_access tz r hnt htc hbl hpa
              have hstep := entryLoop_none_access tz (r ++ y) hnt htc hbl hpa
              cases hft : findTerminator r with
              | none =>
                have hacc := @accessSecondLine_noTerm entry (trim l) r hft
                constructor
                · intro m h
                  rw [hsrc, hacc] at h
                  cases h
                · intro a q b h
                  rw [hsrc, hacc] at h
                  simp only [Except.ok.injEq, Prod.mk.injEq] at h
                  obtain ⟨ha, hq, hb2⟩ := h
                  subst ha
                  subst hq
                  subst hb2
                  constructor
                  · intro _
                    rw [happ, hstep,
                      show (trim l ++ '\n' :: r) ++ y =
                        trim l ++ '\n' :: (r ++ y) from by simp,
                      entryLoop_none_access tz (r ++ y) (noTerm_trim hnt)
                        (by decide)
                        (by rw [trim_idem]; exact hbl)
                        (by rw [trim_idem]; exact hpa),
                      trim_idem]
                  · intro hne
                    exact absurd rfl hne
              | some e2 =>
                obtain ⟨ha1, ha2⟩ :=
                  @accessSecondLine_term_append entry (trim l) r e2 y hft
                constructor
                · intro m h
                  rw [hsrc, ha1] at h
                  cases h
                · intro a q b h
                  rw [hsrc, ha1] at h
                  simp only [Except.ok.injEq, Prod.mk.injEq] at h
                  obtain ⟨ha, hq, hb2⟩ := h
                  subst ha
                  subst hq
                  subst hb2
                  constructor
                  · intro hnmd
                    cases hnmd
                  · intro _
                    rw [happ, hstep, ha2]
            | none =>
              cases hnf : isNewFileLine (trim l) with
              | true =>
                cases hpn : parseNewFileLine (trim l) with
                | some sp2 =>
                  have hsrc :=
                    entryLoop_none_newFile tz r hnt htc hbl hpa hnf hpn
                  have hstep :=
                    entryLoop_none_newFile tz (r ++ y) hnt htc hbl hpa hnf hpn
                  constructor
                  · intro m h
                    rw [hsrc] at h
                    cases h
                  · intro a q b h
                    rw [hsrc] at h
                    simp only [Except.ok.injEq, Prod.mk.injEq] at h
                    obtain ⟨ha, hq, hb2⟩ := h
                    subst ha
                    subst hq
                    subst hb2
                    constructor
                    · intro hnmd
                      cases hnmd
                    · intro _
                      rw [happ, hstep]
                | none =>
                  have hsrc :=
                    entryLoop_none_newFile_err tz r hnt htc hbl hpa hnf hpn
                  have hstep :=
                    entryLoop_none_newFile_err tz (r ++ y) hnt htc hbl hpa
                      hnf hpn
                  constructor
                  · intro m h
                    rw [hsrc] at h
                    cases h
                    rw [happ]
                    exact hstep
                  · intro a q b h
                    rw [hsrc] at h
                    cases h
              | false =>
                have hsrc := entryLoop_none_noise tz r hnt htc hbl hpa hnf
                have hstep :=
                  entryLoop_none_noise tz (r ++ y) hnt htc hbl hpa hnf
                obtain ⟨ihE, ihO⟩ := ih none r hr
                constructor
                · intro m h
                  rw [hsrc] at h
                  rw [happ, hstep]
                  exact ihE m h
                · intro a q b h
                  rw [hsrc] at h
                  obtain ⟨h1, h2⟩ := ihO a q b h
                  constructor
                  · intro hnmd
                    rw [happ, hstep]
                    exact h1 hnmd
                  · intro hne
                    rw [happ, hstep]
                    exact h2 hne


/-- Numeric flag of the pending-file state. -/
def pendN : Option PendingNewFile → Nat
  | none => 0
  | some _ => 1

/-- A piece of a consumed segment is no longer than the terminator-free
prefix. -/
theorem trim_le_of_decomp {l : Str} : (trim l).length ≤ l.length :=
  trim_length_le l

/-- Every non-`NeedMoreData` outcome of the entry loop strictly decreases
the drain measure `2·|buf| + pending`. -/
theorem entryLoop_measure (tz : Tz) :
    ∀ (n : Nat) (p : Option PendingNewFile) (buf : Str), buf.length ≤ n →
    ∀ a q b, entryLoop tz p buf = .ok (a, q, b) → a ≠ .needMoreData →
    2 * b.length + pendN q < 2 * buf.length + pendN p := by
  intro n
  induction n with
  | zero =>
    intro p buf hb a q b h hne
    have hbuf : buf = [] := List.length_eq_zero.mp (by omega)
    subst hbuf
    rw [@entryLoop_noTerm tz p [] rfl] at h
    simp only [Except.ok.injEq, Prod.mk.injEq] at h
    exact absurd h.1.symm hne
  | succ n ih =>
    intro p buf hb a q b h hne
    cases hf : findTerminator buf with
    | none =>
      rw [entryLoop_noTerm tz p hf] at h
      simp only [Except.ok.injEq, Prod.mk.injEq] at h
      exact absurd h.1.symm hne
    | some e =>
      obtain ⟨l, t, r, hbuf, hlen, hnt, htc⟩ := findTerminator_decomp hf
      subst hbuf
      have hr : r.length ≤ n := by
        simp only [List.length_append, List.length_cons] at hb
        omega
      have hblen : (l ++ t :: r).length = l.length + 1 + r.length := by
        simp
        omega
      cases p with
      | some pend =>
        cases hpv : parsePercentageLine (trim l) with
        | some v =>
          have hne0 : trim l ≠ [] := by
            intro h0
            rw [h0, parsePercentageLine_nil] at hpv
            cases hpv
          rw [entryLoop_pending_pct tz pend r hnt htc hne0 hpv] at h
          by_cases hv : v = 100
          · rw [if_pos hv] at h
            simp only [Except.ok.injEq, Prod.mk.injEq] at h
            obtain ⟨ha, hq, hb2⟩ := h
            subst hq
            subst hb2
            simp only [pendN]
            omega
          · rw [if_neg hv] at h
            simp only [Except.ok.injEq, Prod.mk.injEq] at h
            obtain ⟨ha, hq, hb2⟩ := h
            subst hq
            subst hb2
            simp only [pendN]
            omega
        | none =>
          cases hnf : isNewFileLine (trim l) with
          | true =>
            have hne0 : trim l ≠ [] := by
              intro h0
              rw [h0, isNewFileLine_nil] at hnf
              cases hnf
            rw [entryLoop_pending_supersede tz pend r hnt htc hne0 hpv hnf]
              at h
            simp only [Except.ok.injEq, Prod.mk.injEq] at h
            obtain ⟨ha, hq, hb2⟩ := h
            subst hq
            subst hb2
            have htl : (trim l).length ≤ l.length := trim_length_le l
            simp only [pendN, List.length_append, List.length_cons]
            omega
          | false =>
            rw [entryLoop_pending_noise tz pend r hnt htc hpv hnf] at h
            have := ih (some pend) r hr a q b h hne
            omega
      | none =>
        by_cases hbl : trim l = []
        · rw [entryLoop_none_blank tz r hnt htc hbl] at h
          have := ih none r hr a q b h hne
          omega
        · cases hpa : parseAccessDeniedFirstLine tz (trim l) with
          | error m0 =>
            rw [entryLoop_none_access_err tz r hnt htc hbl hpa] at h
            cases h
          | ok oe =>
            cases oe with
            | some entry =>
              rw [entryLoop_none_access tz r hnt htc hbl hpa] at h
              cases hft : findTerminator r with
              | none =>
                rw [@accessSecondLine_noTerm entry (trim l) r hft] at h
                simp only [Except.ok.injEq, Prod.mk.injEq] at h
                exact absurd h.1.symm hne
              | some e2 =>
                obtain ⟨ha1, _⟩ :=
                  @accessSecondLine_term_append entry (trim l) r e2 [] hft
                rw [ha1] at h
                simp only [Except.ok.injEq, Prod.mk.injEq] at h
                obtain ⟨ha, hq, hb2⟩ := h
                subst hq
                subst hb2
                have hx : (accessSecondLine entry (trim l) r).2.2.length ≤
                    r.length := by
                  unfold accessSecondLine
                  rw [hft]
                  dsimp only
                  have h1 : (r.drop (e2 + 1)).length ≤ r.length := by
                    simp only [List.length_drop]
                    omega
                  have h2 : (r.take (e2 + 1) ++ r.drop (e2 + 1)).length =
                      r.length := by
                    rw [List.take_append_drop]
                  split
                  · exact h1
                  · split
                    · exact h1
                    · simp only [List.length_append] at h2 ⊢
                      omega
                simp only [pendN]
                omega
            | none =>
              cases hnf : isNewFileLine (trim l) with
              | true =>
                cases hpn : parseNewFileLine (trim l) with
                | some sp2 =>
                  rw [entryLoop_none_newFile tz r hnt htc hbl hpa hnf hpn]
                    at h
                  simp only [Except.ok.injEq, Prod.mk.injEq] at h
                  obtain ⟨ha, hq, hb2⟩ := h
                  subst hq
                  subst hb2
                  simp only [pendN]
                  omega
                | none =>
                  rw [entryLoop_none_newFile_err tz r hnt htc hbl hpa hnf
                    hpn] at h
                  cases h
              | false =>
                rw [entryLoop_none_noise tz r hnt htc hbl hpa hnf] at h
                have := ih none r hr a q b h hne
                omega


/-- Scan-offset well-formedness of a parser state: in the header phase
the recorded scan offset lies inside the buffer. -/
def ScanWF (st : ParserState) : Prop :=
  st.state = .readingHeader → st.headerScanPos ≤ st.buf.length

/-- The initial state is well-formed. -/
theorem scanWF_init : ScanWF initState := by
  intro _
  simp [initState]

/-- `accept` preserves well-formedness. -/
theorem scanWF_accept {st : ParserState} (h : ScanWF st) (y : Str) :
    ScanWF (accept st y) := by
  intro hph
  have := h hph
  simp only [accept, List.length_append]
  omega

/-- Every emission of `advance` strictly decreases the drain measure. -/
theorem advance_progress {tz : Tz} {st : ParserState}
    {a : RobocopyParseAdvance} {st2 : ParserState}
    (h : advance tz st = .ok (a, st2)) (hne : a ≠ .needMoreData) :
    2 * st2.buf.length + pendN st2.pendingNewFile <
    2 * st.buf.length + pendN st.pendingNewFile := by
  obtain ⟨buf, phase, dc, sp, pend⟩ := st
  cases phase with
  | readingHeader =>
    unfold advance at h
    dsimp only at h
    cases hl : headerLoop tz dc sp buf with
    | error m => rw [hl] at h; cases h
    | ok hs =>
      rw [hl] at h
      simp only [Except.ok.injEq, Prod.mk.injEq] at h
      obtain ⟨ha, hst⟩ := h
      subst ha
      subst hst
      rcases headerLoop_ok_props tz buf.length dc sp buf hs (by omega) hl
        with hnmd | hemit
      · exact absurd hnmd.1 hne
      · obtain ⟨hh, _, _, _, hlt⟩ := hemit
        dsimp only
        omega
  | readingEntries =>
    unfold advance at h
    dsimp only at h
    cases hl : entryLoop tz pend buf with
    | error m => rw [hl] at h; cases h
    | ok res =>
      obtain ⟨a2, q, b⟩ := res
      rw [hl] at h
      simp only [Except.ok.injEq, Prod.mk.injEq] at h
      obtain ⟨ha, hst⟩ := h
      subst ha
      subst hst
      have := entryLoop_measure tz buf.length pend buf le_rfl a2 q b hl hne
      dsimp only
      omega

/-- `advance` preserves well-formedness. -/
theorem advance_wf {tz : Tz} {st : ParserState} {a : RobocopyParseAdvance}
    {st2 : ParserState} (h : advance tz st = .ok (a, st2))
    (hwf : ScanWF st) : ScanWF st2 := by
  obtain ⟨buf, phase, dc, sp, pend⟩ := st
  cases phase with
  | readingHeader =>
    unfold advance at h
    dsimp only at h
    cases hl : headerLoop tz dc sp buf with
    | error m => rw [hl] at h; cases h
    | ok hs =>
      rw [hl] at h
      simp only [Except.ok.injEq, Prod.mk.injEq] at h
      obtain ⟨ha, hst⟩ := h
      subst ha
      subst hst
      rcases headerLoop_ok_props tz buf.length dc sp buf hs (by omega) hl
        with hnmd | hemit
      · obtain ⟨_, hbuf, hph, hsp⟩ := hnmd
        intro _
        dsimp only
        rw [hbuf]
        exact hsp (hwf rfl)
      · obtain ⟨hh, _, hph, _, _⟩ := hemit
        intro hcon
        dsimp only at hcon
        rw [hph] at hcon
        cases hcon
  | readingEntries =>
    unfold advance at h
    dsimp only at h
    cases hl : entryLoop tz pend buf with
    | error m => rw [hl] at h; cases h
    | ok res =>
      obtain ⟨a2, q, b⟩ := res
      rw [hl] at h
      simp only [Except.ok.injEq, Prod.mk.injEq] at h
      obtain ⟨ha, hst⟩ := h
      subst ha
      subst hst
      intro hcon
      cases hcon

/-- Appending input to the buffer commutes with `advance`: errors and
emission results are stable (the input riding along in the buffer), and
after a `NeedMoreData` the bookkeeping-normalized state behaves like the
original on the extended buffer. -/
theorem advance_append {tz : Tz} {st : ParserState} (y : Str)
    (hwf : ScanWF st) :
    (∀ m, advance tz st = .error m → advance tz (accept st y) = .error m) ∧
    (∀ a st2, advance tz st = .ok (a, st2) →
      (a = .needMoreData →
        advance tz (accept st y) = advance tz (accept st2 y)) ∧
      (a ≠ .needMoreData →
        advance tz (accept st y) = .ok (a, accept st2 y))) := by
  obtain ⟨buf, phase, dc, sp, pend⟩ := st
  cases phase with
  | readingHeader =>
    have hsp : sp ≤ buf.length := hwf rfl
    obtain ⟨hE, hO⟩ :=
      headerLoop_append tz y buf.length dc sp buf (by omega) hsp
    constructor
    · intro m h
      unfold advance at h
      dsimp only at h
      cases hl : headerLoop tz dc sp buf with
      | error m0 =>
        rw [hl] at h
        dsimp only at h
        cases h
        unfold advance
        dsimp only [accept]
        rw [hE m hl]
      | ok hs => rw [hl] at h; dsimp only at h; cases h
    · intro a st2 h
      unfold advance at h
      dsimp only at h
      cases hl : headerLoop tz dc sp buf with
      | error m0 => rw [hl] at h; cases h
      | ok hs =>
        rw [hl] at h
        simp only [Except.ok.injEq, Prod.mk.injEq] at h
        obtain ⟨ha, hst⟩ := h
        subst ha
        subst hst
        obtain ⟨h1, h2⟩ := hO hs hl
        rcases headerLoop_ok_props tz buf.length dc sp buf hs (by omega) hl
          with hnmd | hemit
        · obtain ⟨hadv, hbuf, hph, _⟩ := hnmd
          constructor
          · intro _
            unfold advance
            dsimp only [accept]
            rw [hph, hbuf]
            dsimp only
            rw [h1 hadv]
          · intro hne
            exact absurd hadv hne
        · obtain ⟨hh, hadv, hph, _, _⟩ := hemit
          constructor
          · intro hnmd
            rw [hadv] at hnmd
            cases hnmd
          · intro hne
            unfold advance
            dsimp only [accept]
            rw [h2 hne]
  | readingEntries =>
    obtain ⟨hE, hO⟩ := entryLoop_append tz y buf.length pend buf le_rfl
    constructor
    · intro m h
      unfold advance at h
      dsimp only at h
      cases hl : entryLoop tz pend buf with
      | error m0 =>
        rw [hl] at h
        dsimp only at h
        cases h
        unfold advance
        dsimp only [accept]
        rw [hE m hl]
      | ok res => rw [hl] at h; dsimp only at h; cases h
    · intro a st2 h
      unfold advance at h
      dsimp only at h
      cases hl : entryLoop tz pend buf with
      | error m0 => rw [hl] at h; cases h
      | ok res =>
        obtain ⟨a2, q, b⟩ := res
        rw [hl] at h
        simp only [Except.ok.injEq, Prod.mk.injEq] at h
        obtain ⟨ha, hst⟩ := h
        subst ha
        subst hst
        obtain ⟨h1, h2⟩ := hO a2 q b hl
        constructor
        · intro hnmd
          unfold advance
          dsimp only [accept]
          rw [h1 hnmd]
        · intro hne
          unfold advance
          dsimp only [accept]
          rw [h2 hne]


/-- Drain the parser: call `advance` repeatedly, collecting emitted events,
until it reports `NeedMoreData` or fails (the caller loop of the
program). -/
def drain (tz : Tz) (st : ParserState) :
    List RobocopyParseAdvance × Except String ParserState :=
  match h : advance tz st with
  | .error m => ([], .error m)
  | .ok (.needMoreData, st2) => ([], .ok st2)
  | .ok (.header hh, st2) =>
    let rest := drain tz st2
    (.header hh :: rest.1, rest.2)
  | .ok (.logEntry ev, st2) =>
    let rest := drain tz st2
    (.logEntry ev :: rest.1, rest.2)
termination_by 2 * st.buf.length + pendN st.pendingNewFile
decreasing_by
  · exact advance_progress h (fun hc => RobocopyParseAdvance.noConfusion hc)
  · exact advance_progress h (fun hc => RobocopyParseAdvance.noConfusion hc)

/-- One-step unfolding of `drain`. -/
theorem drain_eq (tz : Tz) (st : ParserState) :
    drain tz st =
      match advance tz st with
      | .error m => ([], .error m)
      | .ok (.needMoreData, st2) => ([], .ok st2)
      | .ok (.header hh, st2) =>
        (.header hh :: (drain tz st2).1, (drain tz st2).2)
      | .ok (.logEntry ev, st2) =>
        (.logEntry ev :: (drain tz st2).1, (drain tz st2).2) := by
  conv_lhs => unfold drain
  split
  all_goals rename_i heq
  all_goals rw [heq]

/-- Draining two states whose `advance` outcomes agree gives the same
result. -/
theorem drain_congr {tz : Tz} {s1 s2 : ParserState}
    (h : advance tz s1 = advance tz s2) : drain tz s1 = drain tz s2 := by
  rw [drain_eq tz s1, drain_eq tz s2, h]


/-- Key composition lemma: draining, then accepting more input, behaves
exactly like draining the already-extended buffer — prior emissions (and
a prior error) are reproduced, and the remaining drains agree. -/
theorem drain_append (tz : Tz) (y : Str) :
    ∀ (n : Nat) (st : ParserState),
    2 * st.buf.length + pendN st.pendingNewFile ≤ n → ScanWF st →
    (∀ m evs, drain tz st = (evs, .error m) →
      drain tz (accept st y) = (evs, .error m)) ∧
    (∀ evs st1, drain tz st = (evs, .ok st1) →
      drain tz (accept st y) =
        (evs ++ (drain tz (accept st1 y)).1, (drain tz (accept st1 y)).2)) := by
  intro n
  induction n with
  | zero =>
    intro st hb hwf
    cases hadv : advance tz st with
    | error m0 =>
      rw [drain_eq tz st, hadv]
      have hstep : advance tz (accept st y) = .error m0 :=
        (advance_append y hwf).1 m0 hadv
      rw [drain_eq tz (accept st y), hstep]
      constructor
      · intro m evs h
        simp only [Prod.mk.injEq, Except.error.injEq] at h
        obtain ⟨h1, h2⟩ := h
        subst h1
        subst h2
        rfl
      · intro evs st1 h
        simp only [Prod.mk.injEq] at h
        cases h.2
    | ok res =>
      obtain ⟨a, st2⟩ := res
      cases a with
      | needMoreData =>
        rw [drain_eq tz st, hadv]
        have hstep : advance tz (accept st y) = advance tz (accept st2 y) :=
          ((advance_append y hwf).2 _ st2 hadv).1 rfl
        constructor
        · intro m evs h
          simp only [Prod.mk.injEq] at h
          cases h.2
        · intro evs st1 h
          simp only [Prod.mk.injEq, Except.ok.injEq] at h
          obtain ⟨h1, h2⟩ := h
          subst h1
          subst h2
          rw [drain_congr hstep]
          rfl
      | header hh =>
        have := advance_progress hadv
          (fun hc => RobocopyParseAdvance.noConfusion hc)
        omega
      | logEntry ev =>
        have := advance_progress hadv
          (fun hc => RobocopyParseAdvance.noConfusion hc)
        omega
  | succ n ih =>
    intro st hb hwf
    cases hadv : advance tz st with
    | error m0 =>
      rw [drain_eq tz st, hadv]
      have hstep : advance tz (accept st y) = .error m0 :=
        (advance_append y hwf).1 m0 hadv
      rw [drain_eq tz (accept st y), hstep]
      constructor
      · intro m evs h
        simp only [Prod.mk.injEq, Except.error.injEq] at h
        obtain ⟨h1, h2⟩ := h
        subst h1
        subst h2
        rfl
      · intro evs st1 h
        simp only [Prod.mk.injEq] at h
        cases h.2
    | ok res =>
      obtain ⟨a, st2⟩ := res
      cases a with
      | needMoreData =>
        rw [drain_eq tz st, hadv]
        have hstep : advance tz (accept st y) = advance tz (accept st2 y) :=
          ((advance_append y hwf).2 _ st2 hadv).1 rfl
        constructor
        · intro m evs h
          simp only [Prod.mk.injEq] at h
          cases h.2
        · intro evs st1 h
          simp only [Prod.mk.injEq, Except.ok.injEq] at h
          obtain ⟨h1, h2⟩ := h
          subst h1
          subst h2
          rw [drain_congr hstep]
          rfl
      | header hh =>
        have hlt := advance_progress hadv
          (fun hc => RobocopyParseAdvance.noConfusion hc)
        have hwf2 := advance_wf hadv hwf
        obtain ⟨ihE, ihO⟩ := ih st2 (by omega) hwf2
        have hstep : advance tz (accept st y) = .ok (.header hh, accept st2 y) :=
          ((advance_append y hwf).2 _ st2 hadv).2
            (fun hc => RobocopyParseAdvance.noConfusion hc)
        rw [drain_eq tz st, hadv]
        rw [drain_eq tz (accept st y), hstep]
        constructor
        · intro m evs h
          dsimp only at h
          cases hd2 : drain tz st2 with
          | mk evs2 r2 =>
            rw [hd2] at h
            dsimp only at h
            simp only [Prod.mk.injEq] at h
            obtain ⟨h1, h2⟩ := h
            subst h1
            cases r2 with
            | error m2 =>
              simp only [Except.error.injEq] at h2
              subst h2
              dsimp only
              rw [ihE m2 evs2 hd2]
            | ok stx => cases h2
        · intro evs st1 h
          dsimp only at h
          cases hd2 : drain tz st2 with
          | mk evs2 r2 =>
            rw [hd2] at h
            dsimp only at h
            simp only [Prod.mk.injEq] at h
            obtain ⟨h1, h2⟩ := h
            subst h1
            cases r2 with
            | error m2 => cases h2
            | ok stx =>
              simp only [Except.ok.injEq] at h2
              subst h2
              dsimp only
              rw [ihO evs2 stx hd2]
              simp
      | logEntry ev =>
        have hlt := advance_progress hadv
          (fun hc => RobocopyParseAdvance.noConfusion hc)
        have hwf2 := advance_wf hadv hwf
        obtain ⟨ihE, ihO⟩ := ih st2 (by omega) hwf2
        have hstep : advance tz (accept st y) =
            .ok (.logEntry ev, accept st2 y) :=
          ((advance_append y hwf).2 _ st2 hadv).2
            (fun hc => RobocopyParseAdvance.noConfusion hc)
        rw [drain_eq tz st, hadv]
        rw [drain_eq tz (accept st y), hstep]
        constructor
        · intro m evs h
          dsimp only at h
          cases hd2 : drain tz st2 with
          | mk evs2 r2 =>
            rw [hd2] at h
            dsimp only at h
            simp only [Prod.mk.injEq] at h
            obtain ⟨h1, h2⟩ := h
            subst h1
            cases r2 with
            | error m2 =>
              simp only [Except.error.injEq] at h2
              subst h2
              dsimp only
              rw [ihE m2 evs2 hd2]
            | ok stx => cases h2
        · intro evs st1 h
          dsimp only at h
          cases hd2 : drain tz st2 with
          | mk evs2 r2 =>
            rw [hd2] at h
            dsimp only at h
            simp only [Prod.mk.injEq] at h
            obtain ⟨h1, h2⟩ := h
            subst h1
            cases r2 with
            | error m2 => cases h2
            | ok stx =>
              simp only [Except.ok.injEq] at h2
              subst h2
              dsimp only
              rw [ihO evs2 stx hd2]
              simp

/-- Draining preserves scan well-formedness. -/
theorem drain_wf (tz : Tz) :
    ∀ (n : Nat) (st : ParserState),
    2 * st.buf.length + pendN st.pendingNewFile ≤ n → ScanWF st →
    ∀ evs st1, drain tz st = (evs, .ok st1) → ScanWF st1 := by
  intro n
  induction n with
  | zero =>
    intro st hb hwf evs st1 h
    cases hadv : advance tz st with
    | error m0 =>
      rw [drain_eq tz st, hadv] at h
      simp only [Prod.mk.injEq] at h
      cases h.2
    | ok res =>
      obtain ⟨a, st2⟩ := res
      cases a with
      | needMoreData =>
        rw [drain_eq tz st, hadv] at h
        simp only [Prod.mk.injEq, Except.ok.injEq] at h
        obtain ⟨h1, h2⟩ := h
        subst h2
        exact advance_wf hadv hwf
      | header hh =>
        have := advance_progress hadv
          (fun hc => RobocopyParseAdvance.noConfusion hc)
        omega
      | logEntry ev =>
        have := advance_progress hadv
          (fun hc => RobocopyParseAdvance.noConfusion hc)
        omega
  | succ n ih =>
    intro st hb hwf evs st1 h
    cases hadv : advance tz st with
    | error m0 =>
      rw [drain_eq tz st, hadv] at h
      simp only [Prod.mk.injEq] at h
      cases h.2
    | ok res =>
      obtain ⟨a, st2⟩ := res
      cases a with
      | needMoreData =>
        rw [drain_eq tz st, hadv] at h
        simp only [Prod.mk.injEq, Except.ok.injEq] at h
        obtain ⟨h1, h2⟩ := h
        subst h2
        exact advance_wf hadv hwf
      | header hh =>
        have hlt := advance_progress hadv
          (fun hc => RobocopyParseAdvance.noConfusion hc)
        rw [drain_eq tz st, hadv] at h
        dsimp only at h
        cases hd2 : drain tz st2 with
        | mk evs2 r2 =>
          rw [hd2] at h
          simp only [Prod.mk.injEq] at h
          obtain ⟨h1, h2⟩ := h
          cases r2 with
          | error m2 => cases h2
          | ok stx =>
            simp only [Except.ok.injEq] at h2
            subst h2
            exact ih st2 (by omega) (advance_wf hadv hwf) evs2 stx hd2
      | logEntry ev =>
        have hlt := advance_progress hadv
          (fun hc => RobocopyParseAdvance.noConfusion hc)
        rw [drain_eq tz st, hadv] at h
        dsimp only at h
        cases hd2 : drain tz st2 with
        | mk evs2 r2 =>
          rw [hd2] at h
          simp only [Prod.mk.injEq] at h
          obtain ⟨h1, h2⟩ := h
          cases r2 with
          | error m2 => cases h2
          | ok stx =>
            simp only [Except.ok.injEq] at h2
            subst h2
            exact ih st2 (by omega) (advance_wf hadv hwf) evs2 stx hd2


/-- The caller protocol: for each chunk, `accept` it and drain; an error
aborts, otherwise continue with the remaining chunks. -/
def runChunks (tz : Tz) : ParserState → List Str →
    List RobocopyParseAdvance × Except String ParserState
  | st, [] => ([], .ok st)
  | st, c :: cs =>
    match (drain tz (accept st c)).2 with
    | .error m => ((drain tz (accept st c)).1, .error m)
    | .ok st1 =>
      ((drain tz (accept st c)).1 ++ (runChunks tz st1 cs).1,
        (runChunks tz st1 cs).2)

/-- One-step unfolding of `runChunks`. -/
theorem runChunks_cons (tz : Tz) (st : ParserState) (c : Str)
    (cs : List Str) :
    runChunks tz st (c :: cs) =
      match (drain tz (accept st c)).2 with
      | .error m => ((drain tz (accept st c)).1, .error m)
      | .ok st1 =>
        ((drain tz (accept st c)).1 ++ (runChunks tz st1 cs).1,
          (runChunks tz st1 cs).2) := rfl

/-- Merging the first two chunks into one does not change the run. -/
theorem runChunks_merge (tz : Tz) {st : ParserState} (hwf : ScanWF st)
    (c z : Str) (cs : List Str) :
    runChunks tz st ((c ++ z) :: cs) = runChunks tz st (c :: z :: cs) := by
  have hacc : accept st (c ++ z) = accept (accept st c) z := by
    simp [accept]
  obtain ⟨hE, hO⟩ := drain_append tz z
    (2 * (accept st c).buf.length + pendN (accept st c).pendingNewFile)
    (accept st c) le_rfl (scanWF_accept hwf c)
  cases hd : drain tz (accept st c) with
  | mk evs r =>
    cases r with
    | error m =>
      have hL : drain tz (accept st (c ++ z)) = (evs, .error m) := by
        rw [hacc]
        exact hE m evs hd
      rw [runChunks_cons, runChunks_cons, hL, hd]
    | ok st1 =>
      have hL : drain tz (accept st (c ++ z)) =
          (evs ++ (drain tz (accept st1 z)).1,
            (drain tz (accept st1 z)).2) := by
        rw [hacc]
        exact hO evs st1 hd
      rw [runChunks_cons, runChunks_cons, hL, hd]
      dsimp only
      rw [runChunks_cons]
      cases hd1 : drain tz (accept st1 z) with
      | mk evs2 r2 =>
        cases r2 with
        | error m2 => rfl
        | ok st2 =>
          dsimp only
          rw [List.append_assoc]

/-- The fresh parser drains immediately to `NeedMoreData`. -/
theorem drain_init (tz : Tz) : drain tz initState = ([], .ok initState) := by
  have hadv : advance tz initState = .ok (.needMoreData, initState) := by
    unfold advance initState
    dsimp only
    rw [show headerLoop tz 0 0 [] =
        .ok ⟨.needMoreData, 0, 0, .readingHeader, []⟩ from by
      conv_lhs => unfold headerLoop
      rfl]
  rw [drain_eq tz initState, hadv]


/-- Claim C1: chunk-size independence.  For every source text and every
way of splitting it into an ordered sequence of chunks (including chunks
of length 1), feeding the chunks in order via `accept` and draining with
repeated `advance` calls until `NeedMoreData` after each chunk yields
exactly the same ordered sequence of emitted Header and LogEntry events —
and the same final state or error — as feeding the entire text as a
single chunk and draining. -/
theorem c1_chunk_independence (tz : Tz) (chunks : List Str) :
    runChunks tz initState chunks =
      runChunks tz initState [chunks.foldr (· ++ ·) []] := by
  have hmain : ∀ (cs : List Str) (c : Str) (st : ParserState), ScanWF st →
      runChunks tz st (c :: cs) =
        runChunks tz st [(c :: cs).foldr (· ++ ·) []] := by
    intro cs
    induction cs with
    | nil =>
      intro c st hwf
      simp only [List.foldr]
      rw [List.append_nil]
    | cons z cs ih =>
      intro c st hwf
      have h1 : runChunks tz st (c :: z :: cs) =
          runChunks tz st ((c ++ z) :: cs) :=
        (runChunks_merge tz hwf c z cs).symm
      rw [h1, ih (c ++ z) st hwf]
      simp only [List.foldr]
      rw [List.append_assoc]
  cases chunks with
  | nil =>
    have hd : drain tz (accept initState []) = ([], .ok initState) := by
      rw [show accept initState [] = initState from rfl]
      exact drain_init tz
    simp only [List.foldr]
    rw [show runChunks tz initState [] =
      ([], .ok initState) from rfl]
    rw [runChunks_cons, hd]
    rfl
  | cons c cs => exact hmain cs c initState scanWF_init

end TeamyRobocopy
